import Mathlib

/-!
Verification of the SPIHT codec specification for the `spiht-py` repository.

The repository ships a Python wrapper (`spiht_wrapper.py`, embedded below in
the `Wrapper` section) around a native codec core `spiht_rs.encode/decode`
whose source is not part of the repository snapshot; following the
specification document, the core is modelled here from the spec's own
description of the data model (§3), the tree addressing (§4.2), the
significance/sorting-pass engine (§4.3), the drivers (§4.4), the bit I/O
(§4.1) and the error conditions (§7).
-/

namespace Spiht

/-- A coefficient position: channel, row, column. -/
abbrev Pos := Nat × Nat × Nat

/-- Geometry of the coefficient array: channels, height, width and the
height/width of the lowest-frequency (root) subband. -/
structure Geom where
  c : Nat
  h : Nat
  w : Nat
  llh : Nat
  llw : Nat
deriving DecidableEq, Repr

/-- Total number of coefficient positions. -/
def Geom.size (g : Geom) : Nat := g.c * g.h * g.w

/-- Flat row-major index of a position. -/
def idx (g : Geom) (p : Pos) : Nat := p.1 * (g.h * g.w) + p.2.1 * g.w + p.2.2

/-- Whether a (row, col) lies in the root (lowest-frequency) subband. -/
def isRoot (g : Geom) (r c : Nat) : Bool := r < g.llh && c < g.llw

/-- Modelled from the spec: the spatial-orientation-tree child map of the
missing codec core (§4.2, §3 "Spatial Orientation Tree").  Root-subband
positions are grouped 2×2; the top-left of each group has no children, the
other three own the corresponding 2×2 block of the like-positioned coarsest
band (children are always "in a different orientation band").  Outside the
root subband the children of `(r, c)` are the 2×2 block at `(2r, 2c)` in the
next finer band, clipped to the array bounds. -/
def childBlock (h w ro co : Nat) : List (Nat × Nat) :=
  [(ro, co), (ro, co + 1), (ro + 1, co), (ro + 1, co + 1)].filter
    (fun q => decide (q.1 < h ∧ q.2 < w))

def children (g : Geom) (r c : Nat) : List (Nat × Nat) :=
  if r < g.llh ∧ c < g.llw then
    if r % 2 = 0 ∧ c % 2 = 0 then []
    else
      childBlock g.h g.w
        (if r % 2 = 1 then g.llh + (r - 1) else r)
        (if c % 2 = 1 then g.llw + (c - 1) else c)
  else childBlock g.h g.w (2 * r) (2 * c)

/-- Descendant positions of `(r, c)`, fuel-bounded (the fuel `g.h * g.w`
used by `descendants` always suffices, see the stability lemmas). -/
def descAux (g : Geom) : Nat → Nat → Nat → List (Nat × Nat)
  | 0, _, _ => []
  | fuel + 1, r, c => (children g r c).flatMap (fun q => q :: descAux g fuel q.1 q.2)

/-- All descendants of `(r, c)` (type-A set of §4.2). -/
def descendants (g : Geom) (r c : Nat) : List (Nat × Nat) :=
  descAux g (g.h * g.w) r c

/-- Descendants excluding direct children (type-B set of §4.2). -/
def grandDesc (g : Geom) (r c : Nat) : List (Nat × Nat) :=
  (children g r c).flatMap (fun q => descendants g q.1 q.2)

/-- Value of the coefficient array at a position (arrays are flat row-major
integer lists; out-of-range reads yield 0). -/
def getv (g : Geom) (arr : List Int) (p : Pos) : Int := arr.getD (idx g p) 0

/-- Significance test of §4.2: `|value| ≥ 2^n`. -/
def significant (n : Nat) (v : Int) : Bool := 2 ^ n ≤ v.natAbs

/-- Maximum magnitude over all descendants of `(k, r, c)` (0 if none). -/
def dmax (g : Geom) (arr : List Int) (k r c : Nat) : Nat :=
  (descendants g r c).foldl (fun m q => max m (getv g arr (k, q.1, q.2)).natAbs) 0

/-- Maximum magnitude over descendants excluding direct children. -/
def lmax (g : Geom) (arr : List Int) (k r c : Nat) : Nat :=
  (grandDesc g r c).foldl (fun m q => max m (getv g arr (k, q.1, q.2)).natAbs) 0

/-- Maximum coefficient magnitude of the whole array. -/
def maxAbs (arr : List Int) : Nat := arr.foldl (fun m v => max m v.natAbs) 0

/-- Base-2 logarithm, fuel-bounded structural recursion (agrees with
`Nat.log2`, see `log2fuel_eq_log2`). -/
def log2fuel : Nat → Nat → Nat
  | 0, _ => 0
  | fuel + 1, n => if 2 ≤ n then log2fuel fuel (n / 2) + 1 else 0

/-- `floor(log2 n)` (0 at 0), computable by structural recursion. -/
def natLog2 (n : Nat) : Nat := log2fuel n n

/-! ## Bit I/O primitive (§4.1): MSB-first byte packing -/

/-- Fold (at most) eight bits MSB-first into a byte value. -/
def byteOf (l : List Bool) : Nat := l.foldl (fun a b => 2 * a + (if b then 1 else 0)) 0

/-- Pack a bit sequence into bytes, MSB-first, zero-padding the final byte
(fuel-bounded by the length, which always suffices). -/
def packAux : Nat → List Bool → List Nat
  | 0, _ => []
  | _, [] => []
  | fuel + 1, bits =>
      byteOf (bits.take 8 ++ List.replicate (8 - (bits.take 8).length) false) ::
        packAux fuel (bits.drop 8)

/-- Pack a bit sequence into bytes (§4.1 writer). -/
def pack (bits : List Bool) : List Nat := packAux bits.length bits

/-- The eight bits of a byte, MSB first. -/
def bitsOfByte (n : Nat) : List Bool :=
  [n / 128 % 2 == 1, n / 64 % 2 == 1, n / 32 % 2 == 1, n / 16 % 2 == 1,
   n / 8 % 2 == 1, n / 4 % 2 == 1, n / 2 % 2 == 1, n % 2 == 1]

/-- Unpack a byte buffer into its bit sequence (§4.1 reader); the buffer's
full bit length is the decoder's bit budget (§4.4). -/
def unpack (bytes : List Nat) : List Bool := bytes.flatMap bitsOfByte

/-! ## The shared significance / sorting-pass engine (§4.3)

Modelled from the spec: the engine of the missing codec core is written once,
parameterized by a bit source/sink (`Oracle`), and driven twice — the encoder
instance computes each bit from the true coefficients and appends it to the
output, the decoder instance pops the identical bit from the input stream and
mirrors the branch (§9 "protocol-replay" design note).  An oracle returning
`none` halts the run (the decoder's bit budget is exhausted); the budget is
checked once per bit (§5), so a run can stop mid-pass (§4.3 Termination). -/

structure Oracle (σ : Type) where
  sigBit : Nat → Pos → σ → Option (Bool × σ)
  signBit : Nat → Pos → σ → Option (Bool × σ)
  setBit : Nat → Pos → Bool → σ → Option (Bool × σ)
  refBit : Nat → Pos → σ → Option (Bool × σ)

/-- Engine state: the three work lists of §3, a halted flag, and the
oracle-specific state (output bits for the encoder; remaining input bits and
the reconstruction array for the decoder). -/
structure St (σ : Type) where
  lip : List Pos
  lis : List (Pos × Bool)
  lsp : List Pos
  halted : Bool
  s : σ

/-- Modelled from the spec: the per-position significance test of the missing
core (§4.3, step 1 and the per-child logic of step 2): emit/read the
significance bit; if significant, emit/read the sign bit and append the
position to LSP, else append it to LIP. -/
def testPos {σ : Type} (O : Oracle σ) (n : Nat) (p : Pos) (st : St σ) : St σ :=
  if st.halted then st else
  match O.sigBit n p st.s with
  | none => { st with halted := true }
  | some (b, s1) =>
    if b then
      match O.signBit n p s1 with
      | none => { st with halted := true, s := s1 }
      | some (_, s2) => { st with s := s2, lsp := st.lsp ++ [p] }
    else { st with s := s1, lip := st.lip ++ [p] }

/-- Modelled from the spec: the LIP sorting pass (§4.3 step 1).  `pending` is
the LIP snapshot; kept entries re-accumulate in `st.lip`. -/
def lipPass {σ : Type} (O : Oracle σ) (n : Nat) : List Pos → St σ → St σ
  | [], st => st
  | p :: rest, st => lipPass O n rest (testPos O n p st)

/-- Modelled from the spec: the LIS sorting pass (§4.3 step 2), a worklist
loop: entries are taken in list order, entries appended during the pass are
processed before the pass ends; insignificant entries re-accumulate in
`st.lis`.  A significant type-A entry tests each direct child individually
and is re-inserted as type B when grandchildren exist; a significant type-B
entry splits into one type-A entry per direct child.  The fuel bound
`lisFuel` — one more than the worklist measure `lisMeasure` — always
suffices for valid geometry: the measure strictly decreases at every
worklist step. -/
def lisPass {σ : Type} (g : Geom) (O : Oracle σ) (n : Nat) :
    Nat → List (Pos × Bool) → St σ → St σ
  | 0, _, st => { st with halted := true }
  | _ + 1, [], st => st
  | fuel + 1, (p, isA) :: rest, st =>
    if st.halted then st else
    match O.setBit n p isA st.s with
    | none => { st with halted := true }
    | some (b, s1) =>
      let st1 := { st with s := s1 }
      if b then
        if isA then
          let st2 := (children g p.2.1 p.2.2).foldl
            (fun acc q => testPos O n (p.1, q.1, q.2) acc) st1
          if (grandDesc g p.2.1 p.2.2).isEmpty then
            lisPass g O n fuel rest st2
          else
            lisPass g O n fuel (rest ++ [(p, false)]) st2
        else
          lisPass g O n fuel
            (rest ++ (children g p.2.1 p.2.2).map (fun q => ((p.1, q.1, q.2), true))) st1
      else lisPass g O n fuel rest { st1 with lis := st1.lis ++ [(p, isA)] }

/-- Worklist weight of one LIS entry: five per covered position plus a
constant, chosen so that every worklist step strictly decreases the summed
weight of the pending entries. -/
def entM (g : Geom) (e : Pos × Bool) : Nat :=
  if e.2 then 5 * (descendants g e.1.2.1 e.1.2.2).length + 1
  else 5 * (grandDesc g e.1.2.1 e.1.2.2).length + 5

/-- Summed worklist weight of a pending LIS list. -/
def lisMeasure (g : Geom) (l : List (Pos × Bool)) : Nat := (l.map (entM g)).sum

/-- Worklist fuel for one LIS pass (always sufficient, cf. the measure
`lisMeasure`). -/
def lisFuel (g : Geom) (l : List (Pos × Bool)) : Nat := lisMeasure g l + 1

/-- Modelled from the spec: the refinement pass (§4.3): one raw bit (bit `n`
of the magnitude) per position already in LSP before this plane's sorting
pass began. -/
def refinePass {σ : Type} (O : Oracle σ) (n : Nat) : List Pos → St σ → St σ
  | [], st => st
  | p :: rest, st =>
    if st.halted then st else
    match O.refBit n p st.s with
    | none => { st with halted := true }
    | some (_, s1) => refinePass O n rest { st with s := s1 }

/-- Modelled from the spec: one full bit-plane (§4.3): LIP sorting pass, LIS
sorting pass, then the refinement pass over the LSP snapshot taken before the
sorting passes. -/
def planeStep {σ : Type} (g : Geom) (O : Oracle σ) (n : Nat) (st : St σ) : St σ :=
  let lspOld := st.lsp
  let st1 := lipPass O n st.lip { st with lip := [] }
  let st2 := lisPass g O n (lisFuel g st1.lis) st1.lis { st1 with lis := [] }
  refinePass O n lspOld st2

/-- Modelled from the spec: the plane loop of the missing core, `n` counting
down from `max_n` to 0 (§4.3); `planesRun g O (maxn + 1) st` runs planes
`maxn, maxn - 1, …, 0`. -/
def planesRun {σ : Type} (g : Geom) (O : Oracle σ) : Nat → St σ → St σ
  | 0, st => st
  | i + 1, st => planesRun g O i (planeStep g O i st)

/-- Initial LIP: all root-subband positions, channel-major (§4.4). -/
def initLip (g : Geom) : List Pos :=
  (List.range g.c).flatMap fun k =>
    (List.range g.llh).flatMap fun r =>
      (List.range g.llw).map fun cc => (k, r, cc)

/-- Initial LIS: type-A entries for the root-subband positions that have
descendants (§4.4). -/
def initLis (g : Geom) : List (Pos × Bool) :=
  ((initLip g).filter (fun p => !(children g p.2.1 p.2.2).isEmpty)).map (fun p => (p, true))

/-! ## Encoder and decoder drivers (§4.4) -/

/-- Modelled from the spec: the encoder's bit sink — every decision bit is
computed from the true coefficient array and appended to the output. -/
def encOracle (g : Geom) (arr : List Int) : Oracle (List Bool) where
  sigBit := fun n p s => some (significant n (getv g arr p), s ++ [significant n (getv g arr p)])
  signBit := fun _ p s => some (decide (getv g arr p < 0), s ++ [decide (getv g arr p < 0)])
  setBit := fun n p isA s =>
    let m := if isA then dmax g arr p.1 p.2.1 p.2.2 else lmax g arr p.1 p.2.1 p.2.2
    some (decide (2 ^ n ≤ m), s ++ [decide (2 ^ n ≤ m)])
  refBit := fun n p s =>
    let b := (getv g arr p).natAbs / 2 ^ n % 2 == 1
    some (b, s ++ [b])

/-- Decoder state: remaining input bits and the reconstruction array. -/
abbrev DecS := List Bool × List Int

/-- Pop one bit from the decoder input; `none` once the bit budget (the
buffer's full bit length, §4.4) is exhausted. -/
def popBit (s : DecS) : Option (Bool × DecS) :=
  match s with
  | ([], _) => none
  | (b :: t, rec) => some (b, (t, rec))

/-- Modelled from the spec: the decoder's bit source — decision bits are read
from the stream; a sign bit writes `±2^n` into the reconstruction array, a
set refinement bit adds `±2^n` to the accumulated magnitude (§4.3 numeric
policy); all other bits only steer the branch. -/
def decOracle (g : Geom) : Oracle DecS where
  sigBit := fun _ _ s => popBit s
  signBit := fun n p s =>
    match s with
    | ([], _) => none
    | (b :: t, rec) =>
        some (b, (t, rec.set (idx g p) (if b then -(2 ^ n : Int) else 2 ^ n)))
  setBit := fun _ _ _ s => popBit s
  refBit := fun n p s =>
    match s with
    | ([], _) => none
    | (b :: t, rec) =>
        let v := rec.getD (idx g p) 0
        some (b, (t, if b then rec.set (idx g p) (if v < 0 then v - 2 ^ n else v + 2 ^ n) else rec))

/-- Initial engine state. -/
def initSt {σ : Type} (g : Geom) (s : σ) : St σ :=
  { lip := initLip g, lis := initLis g, lsp := [], halted := false, s := s }

/-- Modelled from the spec: the full (unbudgeted) decision-bit sequence of the
encoder; a budgeted encoder stops the instant the bit count reaches the
budget, so its output is exactly a prefix of this sequence (§4.3
"partially-completed passes are simply truncated"). -/
def fullTrace (g : Geom) (arr : List Int) (maxn : Nat) : List Bool :=
  (planesRun g (encOracle g arr) (maxn + 1) (initSt g [])).s

/-- Modelled from the spec: the core encoder (§4.4) — computes `max_n` from
the maximum magnitude, emits bits until the budget is exhausted or plane 0
completes, and returns the MSB-first packed bytes together with `max_n`. -/
def encodeRaw (g : Geom) (arr : List Int) (maxBits : Nat) : List Nat × Nat :=
  let mn := natLog2 (maxAbs arr)
  (pack ((fullTrace g arr mn).take maxBits), mn)

/-- Modelled from the spec: the core decoder run (§4.4) — mirrors the list
initialization, reads bits from the buffer against its implicit bit budget,
and accumulates signed magnitudes in an initially all-zero array. -/
def decodeRun (g : Geom) (bytes : List Nat) (maxn : Nat) : St DecS :=
  planesRun g (decOracle g) (maxn + 1)
    (initSt g (unpack bytes, List.replicate g.size (0 : Int)))

/-- The decoder's reconstruction array. -/
def decodeRaw (g : Geom) (bytes : List Nat) (maxn : Nat) : List Int :=
  (decodeRun g bytes maxn).s.2

/-! ## Error conditions (§7) -/

inductive Err where
  | invalidGeometry
  | emptyInput
deriving DecidableEq, Repr

/-- Modelled from the spec: the dyadic-pyramid geometry requirement (§7): the
root subband must be non-empty with even sides (the 2×2 root grouping of the
standard SPIHT topology) and `(h, w)` must arise from `(ll_h, ll_w)` by the
same number of doublings on both axes. -/
def dyadicOk (g : Geom) : Bool :=
  0 < g.llh && 0 < g.llw && g.llh % 2 == 0 && g.llw % 2 == 0 &&
    (List.range (g.h + 1)).any (fun k => g.h == g.llh * 2 ^ k && g.w == g.llw * 2 ^ k)

/-- Modelled from the spec: geometry validation shared by encoder and decoder
(§7): a zero-sized array is an EmptyInput condition, a non-dyadic geometry an
InvalidGeometry condition. -/
def checkGeom (g : Geom) : Option Err :=
  if g.size = 0 then some .emptyInput
  else if dyadicOk g then none
  else some .invalidGeometry

/-- Modelled from the spec: the core encoder entry point `spiht_rs.encode`
(validation per §7, then the driver of §4.4). -/
def encode (g : Geom) (arr : List Int) (maxBits : Nat) : Except Err (List Nat × Nat) :=
  match checkGeom g with
  | some e => .error e
  | none => .ok (encodeRaw g arr maxBits)

/-- Modelled from the spec: the core decoder entry point `spiht_rs.decode`
(validation per §7, then the driver of §4.4). -/
def decode (g : Geom) (bytes : List Nat) (maxn : Nat) : Except Err (List Int) :=
  match checkGeom g with
  | some e => .error e
  | none => .ok (decodeRaw g bytes maxn)

/-- Reconstruction error: sum of absolute differences (§8). -/
def errSum (a b : List Int) : Nat :=
  (a.zip b).foldl (fun s q => s + (q.1 - q.2).natAbs) 0

/-- Reconstruction error of round-tripping `arr` through the codec at bit
budget `b`. -/
def decErr (g : Geom) (arr : List Int) (b : Nat) : Nat :=
  errSum arr (decodeRaw g (encodeRaw g arr b).1 (encodeRaw g arr b).2)

end Spiht

namespace Wrapper

/-!  Shallow embedding of `src/spiht/spiht_wrapper.py`.  Floating-point
values are embedded as exact rationals; the numpy array is a flat data list
together with its `ndim` and `shape`; the external collaborators (`pywt`
transforms, color conversion) are opaque function parameters bundled in
`PywtModel`, since the spec places them out of scope (§1, §6). -/

/-- A numpy ndarray: dimension count, shape, and flat (row-major) data. -/
structure NpArrayQ where
  ndim : Nat
  shape : List Nat
  data : List ℚ
deriving DecidableEq, Repr

/-- Truncation toward zero (numpy `astype(np.int32)` below the 32-bit
range). -/
def ratTrunc (x : ℚ) : Int := Int.sign x.num * (x.num.natAbs / x.den : Nat)

/-- `quantize` from `spiht_wrapper.py`: `(arr*q_scale).astype(np.int32)` —
scalar multiply then integer truncation, elementwise. -/
def quantize (arr : List ℚ) (qScale : ℚ) : List Int :=
  arr.map fun x => ratTrunc (x * qScale)

/-- The external collaborators used by `encode_image`: `rgb_to_ipt`,
`pywt.wavedec2` (returning opaque coefficients), the shape of `coeffs[0]`
(whose entries 1 and 2 are `ll_h, ll_w`), and `pywt.coeffs_to_array`. -/
structure PywtModel (Coeffs Slices : Type) where
  rgbToIpt : NpArrayQ → NpArrayQ
  wavedec2 : NpArrayQ → String → Nat → String → Coeffs
  llShape : Coeffs → Nat × Nat
  coeffsToArray : Coeffs → NpArrayQ × Slices

/-- Errors a wrapper call can surface: a Python `ValueError`, or a condition
raised by the codec core. -/
inductive PyErr where
  | valueError : String → PyErr
  | codecErr : Spiht.Err → PyErr
deriving DecidableEq, Repr

/-- `EncodingResult` from `spiht_wrapper.py`. -/
structure EncodingResult (Slices : Type) where
  encodedBytes : List Nat
  h : Nat
  w : Nat
  c : Nat
  maxN : Nat
  llh : Nat
  llw : Nat
  wavelet : String
  quantizationScale : ℚ
  slices : Slices
  mode : String
  colorSpace : Option String
  perChannelQuantScales : Option (List ℚ)

/-- Per-channel scaling `channel_mults[:, None, None] * coeffs_arr`. -/
def chanScale (ms : List ℚ) (hw : Nat) (data : List ℚ) : List ℚ :=
  ((List.range data.length).zip data).map fun q => ms.getD (q.1 / hw) 1 * q.2

/-- `encode_image` from `spiht_wrapper.py`, line for line: the `ndim` check,
optional color-space conversion, DWT, flattening, optional per-channel
scaling, quantization, the `max_bits == None` sentinel substitution, the call
into the codec core, and the assembly of the `EncodingResult`. -/
def encodeImage {Coeffs Slices : Type} (P : PywtModel Coeffs Slices)
    (image : NpArrayQ) (wavelet : String) (level : Nat) (maxBits : Option Nat)
    (quantizationScale : ℚ) (mode : String) (colorSpace : Option String)
    (perChannelQuantScales : Option (List ℚ)) :
    Except PyErr (EncodingResult Slices) :=
  if image.ndim ≠ 3 then .error (.valueError ("image ndim must be 3: c,h,w"))
  else
    match (match colorSpace with
           | none => Except.ok image
           | some cs =>
             if cs = "ipt" then .ok (P.rgbToIpt image) else .error (PyErr.valueError cs)) with
    | .error e => .error e
    | .ok image1 =>
      let coeffs := P.wavedec2 image1 wavelet level mode
      let llh := (P.llShape coeffs).1
      let llw := (P.llShape coeffs).2
      let coeffsArr := (P.coeffsToArray coeffs).1
      let slices := (P.coeffsToArray coeffs).2
      let hh := coeffsArr.shape.getD 1 0
      let ww := coeffsArr.shape.getD 2 0
      let cc := coeffsArr.shape.getD 0 0
      let data1 := match perChannelQuantScales with
        | none => coeffsArr.data
        | some ms => chanScale ms (hh * ww) coeffsArr.data
      let qarr := quantize data1 quantizationScale
      let mb := match maxBits with
        | none => 99999999999999999
        | some b => b
      match Spiht.encode ⟨cc, hh, ww, llh, llw⟩ qarr mb with
      | .error e => .error (.codecErr e)
      | .ok res =>
        .ok ⟨res.1, hh, ww, cc, res.2, llh, llw, wavelet, quantizationScale,
             slices, mode, colorSpace, perChannelQuantScales⟩

end Wrapper

namespace Spiht

/-- All bits of the decoder's remaining input are zero. -/
def AllFalse (s : DecS) : Prop := ∀ b ∈ s.1, b = false

/-- Zero-run invariant: nothing has become significant, the reconstruction
array is still all-zero, and the remaining input is all-zero. -/
def ZP (g : Geom) (st : St DecS) : Prop :=
  st.lsp = [] ∧ st.s.2 = List.replicate g.size 0 ∧ AllFalse st.s

/-- Reached-positions invariant: a nonzero reconstruction value exists only
at positions that have been moved to LSP by a significance decision. -/
def RI (g : Geom) (st : St DecS) : Prop :=
  ∀ i, st.s.2.getD i 0 ≠ 0 → ∃ p, p ∈ st.lsp ∧ idx g p = i

/-- Length invariant of the reconstruction array. -/
def RL (g : Geom) (st : St DecS) : Prop := st.s.2.length = g.size

/-- Valid geometry as a proposition: the root subband has even sides of at
least 2 and `(h, w)` arise from `(ll_h, ll_w)` by the same number of
doublings. -/
def GV (g : Geom) : Prop :=
  2 ≤ g.llh ∧ 2 ≤ g.llw ∧ g.llh % 2 = 0 ∧ g.llw % 2 = 0 ∧
    ∃ k, g.h = g.llh * 2 ^ k ∧ g.w = g.llw * 2 ^ k

/-- The parent position of a non-root position (proof device: the spatial
orientation forest has unique parents). -/
def parentF (g : Geom) (q : Nat × Nat) : Nat × Nat :=
  if q.1 < 2 * g.llh ∧ q.2 < 2 * g.llw then
    if q.1 < g.llh then (q.1 - q.1 % 2, (q.2 - g.llw) - (q.2 - g.llw) % 2 + 1)
    else if q.2 < g.llw then ((q.1 - g.llh) - (q.1 - g.llh) % 2 + 1, q.2 - q.2 % 2)
    else ((q.1 - g.llh) - (q.1 - g.llh) % 2 + 1, (q.2 - g.llw) - (q.2 - g.llw) % 2 + 1)
  else (q.1 / 2, q.2 / 2)

/-- Row-major measure of a (row, col) position; strictly increases from
parent to child. -/
def mpos (g : Geom) (q : Nat × Nat) : Nat := q.1 * g.w + q.2

/-- The (row, col) grid `[0, hh) × [0, ww)` in row-major order. -/
def gridList (hh ww : Nat) : List (Nat × Nat) :=
  (List.range hh).flatMap fun r => (List.range ww).map fun c => (r, c)

/-- All (row, col) positions of one channel plane. -/
def allPlane (g : Geom) : List (Nat × Nat) := gridList g.h g.w

/-- The root-subband (row, col) positions. -/
def rootPlane (g : Geom) : List (Nat × Nat) := gridList g.llh g.llw

/-- Root positions that own a nonempty descendant tree. -/
def fertileRoots (g : Geom) : List (Nat × Nat) :=
  (rootPlane g).filter (fun q => !(children g q.1 q.2).isEmpty)

/-- The positions covered by a LIS entry: its descendant set (type A) or its
descendant set excluding direct children (type B), tagged with the entry's
channel. -/
def covP (g : Geom) (e : Pos × Bool) : List Pos :=
  (if e.2 then descendants g e.1.2.1 e.1.2.2 else grandDesc g e.1.2.1 e.1.2.2).map
    (fun q => (e.1.1, q.1, q.2))

/-- All coefficient positions. -/
def allPos (g : Geom) : List Pos :=
  (List.range g.c).flatMap fun k => (allPlane g).map fun q => (k, q.1, q.2)

/-- The position multiset an engine state accounts for: LIP and LSP members
plus everything covered by LIS entries. -/
def stMul {σ : Type} (g : Geom) (st : St σ) : Multiset Pos :=
  (st.lip : Multiset Pos) + (st.lsp : Multiset Pos) +
    ((st.lis.flatMap (covP g) : List Pos) : Multiset Pos)

/-- The decoder's reconstruction value at flat index `j` (0 out of range). -/
def slotD (st : St DecS) (j : Nat) : Int := st.s.2.getD j 0

/-- Slot bound at plane `n` of a run with top plane `mn`: the accumulated
magnitude stays below `2^(mn+1)` by a margin of `2^n` and is a multiple of
`2^n` (only the powers `2^mn … 2^n` have been accumulated so far). -/
def SB (mn n : Nat) (v : Int) : Prop :=
  v.natAbs ≤ 2 ^ (mn + 1) - 2 ^ n ∧ 2 ^ n ∣ v.natAbs

/-- Effect summary of a decoder sorting phase at plane `n` relative to an LSP
snapshot `L`: snapshot members stay in LSP with untouched slots, and every
slot is either untouched or freshly sign-set to magnitude `2^n`. -/
def SortStep (g : Geom) (n : Nat) (L : List Pos) (st st' : St DecS) : Prop :=
  (∀ q ∈ L, q ∈ st'.lsp) ∧
    (∀ q ∈ L, slotD st' (idx g q) = slotD st (idx g q)) ∧
    (∀ j, slotD st' j = slotD st j ∨ (slotD st' j).natAbs = 2 ^ n)

/-- The value a SPIHT decoder reconstructs for a coefficient `v` once all
planes down to `m` are processed: magnitude truncated below bit `m`, with the
sign of `v`. -/
def truncI (m : Nat) (v : Int) : Int :=
  if v < 0 then -((v.natAbs / 2 ^ m * 2 ^ m : Nat) : Int)
  else ((v.natAbs / 2 ^ m * 2 ^ m : Nat) : Int)

/-- Mid-sorting-pass simulation invariant at plane `n` (proof device for the
round-trip): the encoder state is live, accumulated LIP entries are
insignificant at `n`, the old LSP snapshot is intact, every LSP member is
significant at `n`, and the decoder's array holds the `n+1` truncation on the
snapshot, the `n` truncation on fresh LSP members, and zero elsewhere. -/
def SimSort (g : Geom) (arr : List Int) (n : Nat) (lspOld : List Pos)
    (st : St (List Bool)) (rec : List Int) : Prop :=
  st.halted = false ∧
  (∀ q ∈ st.lip, (getv g arr q).natAbs < 2 ^ n) ∧
  (∀ q ∈ lspOld, q ∈ st.lsp) ∧
  (∀ q ∈ st.lsp, 2 ^ n ≤ (getv g arr q).natAbs) ∧
  rec.length = g.size ∧
  (∀ p ∈ allPos g, rec.getD (idx g p) 0 =
    if p ∈ lspOld then truncI (n + 1) (getv g arr p)
    else if p ∈ st.lsp then truncI n (getv g arr p) else 0)

/-- Plane-boundary simulation invariant before plane `m - 1` (equivalently
after plane `m`): work-list value bounds, the decoder array holding the `m`
truncation exactly on LSP, and the exact multiset partition. -/
def PlaneInv (g : Geom) (arr : List Int) (m : Nat) (st : St (List Bool))
    (rec : List Int) : Prop :=
  st.halted = false ∧
  (∀ q ∈ st.lip, (getv g arr q).natAbs < 2 ^ m) ∧
  (∀ e ∈ st.lis, ∀ x ∈ covP g e, (getv g arr x).natAbs < 2 ^ m) ∧
  (∀ q ∈ st.lsp, 2 ^ m ≤ (getv g arr q).natAbs) ∧
  rec.length = g.size ∧
  (∀ p ∈ allPos g, rec.getD (idx g p) 0 =
    if p ∈ st.lsp then truncI m (getv g arr p) else 0) ∧
  stMul g st = (↑(allPos g) : Multiset Pos)

end Spiht

/-! ## Theorems about the claims -/

theorem log2fuel_eq_log2 (fuel n : Nat) (h : n ≤ fuel) : Spiht.log2fuel fuel n = Nat.log2 n := by
  induction fuel generalizing n with
  | zero =>
    have hn : n = 0 := Nat.le_zero.mp h
    subst hn
    rw [Nat.log2]
    rfl
  | succ f ih =>
    rw [Spiht.log2fuel, Nat.log2]
    by_cases h2 : 2 ≤ n
    · rw [if_pos h2, if_pos h2, ih (n / 2) (by omega)]
    · rw [if_neg h2, if_neg h2]

theorem natLog2_eq_log2 (n : Nat) : Spiht.natLog2 n = Nat.log2 n :=
  log2fuel_eq_log2 n n le_rfl

/-- C7: encoding and decoding are deterministic — the codec core is a pure
function of its inputs (no hidden or process-wide state, §3 Lifecycle), so
two encode calls with the same array, geometry and budget yield byte-identical
bitstreams and equal `max_n`, and two decode calls yield identical arrays. -/
theorem claim7_determinism (g : Spiht.Geom) (arr : List Int) (b : Nat)
    (g2 : Spiht.Geom) (bytes : List Nat) (mn : Nat) :
    Spiht.encode g arr b = Spiht.encode g arr b ∧
    Spiht.decode g2 bytes mn = Spiht.decode g2 bytes mn :=
  ⟨rfl, rfl⟩

set_option maxRecDepth 100000 in
/-- C3: the encoder returns `max_n = floor(log2(max_abs_coefficient))`, and
on the boundary scenario — shape (1, 8, 8), `ll_h = ll_w = 2`, a single `5`
in the root subband, everything else 0, unlimited budget — encoding returns
`max_n = 2` and decoding reproduces the array exactly. -/
theorem claim3_boundary_scenario :
    (∀ (g : Spiht.Geom) (arr : List Int) (b : Nat),
      (Spiht.encodeRaw g arr b).2 = Nat.log2 (Spiht.maxAbs arr)) ∧
    Spiht.encode ⟨1, 8, 8, 2, 2⟩ ((5 : Int) :: List.replicate 63 0) 99999999999999999 =
      .ok ([128, 0, 4], 2) ∧
    Spiht.decode ⟨1, 8, 8, 2, 2⟩ [128, 0, 4] 2 =
      .ok ((5 : Int) :: List.replicate 63 0) := by
  refine ⟨fun g arr b => natLog2_eq_log2 (Spiht.maxAbs arr), ?_, ?_⟩ <;> rfl

set_option maxRecDepth 100000 in
/-- C4 counterexample: decode does not detect a geometry that differs from
the encoded one when the supplied geometry is internally dyadic-consistent:
the scenario array encodes at geometry (1, 8, 8, 2, 2), yet decoding its
bytes at (1, 16, 16, 4, 4) succeeds instead of raising InvalidGeometry. -/
theorem claim4_counterexample :
    Spiht.encode ⟨1, 8, 8, 2, 2⟩ ((5 : Int) :: List.replicate 63 0) 99999999999999999 =
      .ok ([128, 0, 4], 2) ∧
    (Spiht.decode ⟨1, 16, 16, 4, 4⟩ [128, 0, 4] 2).isOk = true := by
  exact ⟨by rfl, by rfl⟩

/-- C4 (amended): encoding and decoding fail with InvalidGeometry whenever
the supplied `(ll_h, ll_w)` do not evenly partition the supplied `(h, w)`
per the dyadic pyramid (for a non-empty array); a decode geometry that is
internally consistent but different from the encoded one is not detected. -/
theorem claim4_invalid_geometry (g : Spiht.Geom) (arr : List Int) (maxBits : Nat)
    (bytes : List Nat) (maxn : Nat) (h1 : g.size ≠ 0) (h2 : Spiht.dyadicOk g = false) :
    Spiht.encode g arr maxBits = .error .invalidGeometry ∧
    Spiht.decode g bytes maxn = .error .invalidGeometry := by
  unfold Spiht.encode Spiht.decode Spiht.checkGeom
  rw [if_neg h1, if_neg (by simp [h2])]
  exact ⟨rfl, rfl⟩

/-- Witness for `claim4_invalid_geometry` at geometry (1, 8, 8, 3, 3). -/
theorem claim4_invalid_geometry_witness :
    Spiht.encode ⟨1, 8, 8, 3, 3⟩ [1, 2] 7 = .error .invalidGeometry ∧
    Spiht.decode ⟨1, 8, 8, 3, 3⟩ [255] 4 = .error .invalidGeometry :=
  claim4_invalid_geometry ⟨1, 8, 8, 3, 3⟩ [1, 2] 7 [255] 4 (by decide) (by decide)

set_option maxRecDepth 100000 in
/-- C2 counterexample: the reconstruction error is not monotone in the bit
budget.  For the array `[-5, 0, 0, 0]` at geometry (1, 2, 2, 2, 2), budget 0
yields the all-zero reconstruction (error 5), while budget 1 emits only the
significance bit of the `-5`; the decoder then reads the sign bit from the
byte padding as 0 (positive) and reconstructs `+4`, giving error 9 > 5. -/
theorem claim2_counterexample :
    (0 : Nat) < 1 ∧
    ¬ (Spiht.decErr ⟨1, 2, 2, 2, 2⟩ [-5, 0, 0, 0] 1 ≤
        Spiht.decErr ⟨1, 2, 2, 2, 2⟩ [-5, 0, 0, 0] 0) := by
  decide

/-- C2 (amended): the monotonic-improvement property holds once the smaller
budget already covers every bit the encoder would emit (both reconstructions
are then identical); below that, error can increase with budget, because a
budget cut between a significance bit and its sign bit makes the decoder take
the sign from zero-valued byte padding (see `claim2_counterexample`). -/
theorem claim2_budget_monotonicity (g : Spiht.Geom) (arr : List Int) (b1 b2 : Nat)
    (h1 : (Spiht.fullTrace g arr (Spiht.natLog2 (Spiht.maxAbs arr))).length ≤ b1)
    (h2 : b1 < b2) :
    Spiht.decErr g arr b2 ≤ Spiht.decErr g arr b1 := by
  simp only [Spiht.decErr, Spiht.encodeRaw]
  rw [List.take_of_length_le h1, List.take_of_length_le (h1.trans h2.le)]

set_option maxRecDepth 100000 in
/-- Witness for `claim2_budget_monotonicity` on the counterexample array with
budgets 13 < 14 (the full trace is 13 bits long). -/
theorem claim2_budget_monotonicity_witness :
    Spiht.decErr ⟨1, 2, 2, 2, 2⟩ [-5, 0, 0, 0] 14 ≤
      Spiht.decErr ⟨1, 2, 2, 2, 2⟩ [-5, 0, 0, 0] 13 :=
  claim2_budget_monotonicity ⟨1, 2, 2, 2, 2⟩ [-5, 0, 0, 0] 13 14 (by decide) (by decide)

/-- C8: calling `encode_image` with `max_bits = None` is equivalent to
calling it with the sentinel budget 99999999999999999 — the wrapper
substitutes exactly that sentinel for `None` before invoking the codec, so
the returned `EncodingResult` is identical, whatever the image, settings and
external collaborators. -/
theorem claim8_sentinel_budget {Coeffs Slices : Type}
    (P : Wrapper.PywtModel Coeffs Slices) (image : Wrapper.NpArrayQ)
    (wavelet : String) (level : Nat) (qs : ℚ) (mode : String)
    (colorSpace : Option String) (pcq : Option (List ℚ)) :
    Wrapper.encodeImage P image wavelet level none qs mode colorSpace pcq =
      Wrapper.encodeImage P image wavelet level (some 99999999999999999) qs mode colorSpace pcq :=
  rfl

/-- C10: for any input whose `ndim` is not 3, `encode_image` fails with
`ValueError('image ndim must be 3: c,h,w')`; the error is the same whatever
the external collaborators, color space, transform or budget — nothing else
runs and no `EncodingResult` is produced. -/
theorem claim10_ndim_check {Coeffs Slices : Type}
    (P : Wrapper.PywtModel Coeffs Slices) (image : Wrapper.NpArrayQ)
    (wavelet : String) (level : Nat) (maxBits : Option Nat) (qs : ℚ) (mode : String)
    (colorSpace : Option String) (pcq : Option (List ℚ)) (h : image.ndim ≠ 3) :
    Wrapper.encodeImage P image wavelet level maxBits qs mode colorSpace pcq =
      .error (.valueError ("image ndim must be 3: c,h,w")) := by
  unfold Wrapper.encodeImage
  rw [if_pos h]

/-- Witness for `claim10_ndim_check`: a 2-dimensional input with concrete
trivial collaborators. -/
theorem claim10_ndim_check_witness :
    Wrapper.encodeImage
      (⟨id, fun _ _ _ _ => (), fun _ => (0, 0), fun _ => (⟨0, [], []⟩, ())⟩ :
        Wrapper.PywtModel Unit Unit)
      ⟨2, [3, 3], []⟩ ("haar") 1 none 50 ("reflect") none none =
      .error (.valueError ("image ndim must be 3: c,h,w")) :=
  claim10_ndim_check _ _ _ _ _ _ _ _ _ (by decide)

/-! ## Supporting lemmas: zero runs and reached positions -/

theorem foldl_max_zero {α : Type} (l : List α) (f : α → Nat) (m : Nat)
    (h : ∀ q ∈ l, f q = 0) : l.foldl (fun a q => max a (f q)) m = m := by
  induction l generalizing m with
  | nil => rfl
  | cons x xs ih =>
    have hx : f x = 0 := h x (List.mem_cons_self x xs)
    simp only [List.foldl_cons, hx, Nat.max_zero]
    exact ih m (fun q hq => h q (List.mem_cons_of_mem x hq))

theorem getD_zero_of_all (l : List Int) (h : ∀ v ∈ l, v = 0) (i : Nat) : l.getD i 0 = 0 := by
  induction l generalizing i with
  | nil => cases i <;> rfl
  | cons x xs ih =>
    cases i with
    | zero => exact h x (List.mem_cons_self x xs)
    | succ j => exact ih (fun v hv => h v (List.mem_cons_of_mem x hv)) j

theorem getv_all_zero (g : Spiht.Geom) (arr : List Int) (h : ∀ v ∈ arr, v = 0) (p : Spiht.Pos) :
    Spiht.getv g arr p = 0 :=
  getD_zero_of_all arr h _

theorem maxAbs_all_zero (arr : List Int) (h : ∀ v ∈ arr, v = 0) : Spiht.maxAbs arr = 0 := by
  unfold Spiht.maxAbs
  have : ∀ v ∈ arr, v.natAbs = 0 := fun v hv => by rw [h v hv]; rfl
  exact foldl_max_zero arr (fun v => v.natAbs) 0 this

theorem byteOf_all_false (l : List Bool) (h : ∀ x ∈ l, x = false) : Spiht.byteOf l = 0 := by
  unfold Spiht.byteOf
  induction l with
  | nil => rfl
  | cons x xs ih =>
    have hx : x = false := h x (List.mem_cons_self x xs)
    simp only [List.foldl_cons, hx, if_neg Bool.false_ne_true]
    exact ih (fun q hq => h q (List.mem_cons_of_mem x hq))

theorem packAux_all_zero (fuel : Nat) (bits : List Bool) (h : ∀ x ∈ bits, x = false) :
    ∀ y ∈ Spiht.packAux fuel bits, y = 0 := by
  induction fuel generalizing bits with
  | zero => intro y hy; simp [Spiht.packAux] at hy
  | succ f ih =>
    intro y hy
    cases bits with
    | nil => simp [Spiht.packAux] at hy
    | cons b bs =>
      rw [Spiht.packAux] at hy
      rcases List.mem_cons.mp hy with hy | hy
      · subst hy
        apply byteOf_all_false
        intro x hx
        rcases List.mem_append.mp hx with hx | hx
        · exact h x (List.take_subset _ _ hx)
        · exact List.eq_of_mem_replicate hx
      · exact ih ((b :: bs).drop 8) (fun x hx => h x (List.drop_subset _ _ hx)) y hy
      · simp

theorem unpack_all_false (bytes : List Nat) (h : ∀ y ∈ bytes, y = 0) :
    ∀ b ∈ Spiht.unpack bytes, b = false := by
  intro b hb
  unfold Spiht.unpack at hb
  rcases List.mem_flatMap.mp hb with ⟨y, hy, hmem⟩
  rw [h y hy] at hmem
  have hz : Spiht.bitsOfByte 0 = List.replicate 8 false := rfl
  rw [hz] at hmem
  exact List.eq_of_mem_replicate hmem


theorem zp_testPos (g : Spiht.Geom) (n : Nat) (p : Spiht.Pos) (st : Spiht.St Spiht.DecS)
    (h : Spiht.ZP g st) : Spiht.ZP g (Spiht.testPos (Spiht.decOracle g) n p st) := by
  obtain ⟨lip, lis, lsp, halted, rest, rec⟩ := st
  obtain ⟨h1, h2, h3⟩ := h
  cases halted with
  | true => exact ⟨h1, h2, h3⟩
  | false =>
    cases rest with
    | nil => exact ⟨h1, h2, h3⟩
    | cons b t =>
      have hb : b = false := h3 b (List.mem_cons_self b t)
      subst hb
      refine ⟨h1, h2, fun x hx => h3 x (List.mem_cons_of_mem false hx)⟩

theorem zp_lipPass (g : Spiht.Geom) (n : Nat) (pending : List Spiht.Pos)
    (st : Spiht.St Spiht.DecS) (h : Spiht.ZP g st) :
    Spiht.ZP g (Spiht.lipPass (Spiht.decOracle g) n pending st) := by
  induction pending generalizing st with
  | nil => exact h
  | cons p rest ih => exact ih _ (zp_testPos g n p st h)

theorem zp_foldChildren (g : Spiht.Geom) (n : Nat) (k : Nat) (l : List (Nat × Nat))
    (st : Spiht.St Spiht.DecS) (h : Spiht.ZP g st) :
    Spiht.ZP g (l.foldl (fun acc q => Spiht.testPos (Spiht.decOracle g) n (k, q.1, q.2) acc) st) := by
  induction l generalizing st with
  | nil => exact h
  | cons q rest ih => exact ih _ (zp_testPos g n (k, q.1, q.2) st h)

theorem zp_lisPass (g : Spiht.Geom) (n : Nat) (fuel : Nat)
    (pending : List (Spiht.Pos × Bool)) (st : Spiht.St Spiht.DecS) (h : Spiht.ZP g st) :
    Spiht.ZP g (Spiht.lisPass g (Spiht.decOracle g) n fuel pending st) := by
  induction fuel generalizing pending st with
  | zero => exact h
  | succ f ih =>
    obtain ⟨lip, lis, lsp, halted, rest, rec⟩ := st
    obtain ⟨h1, h2, h3⟩ := h
    cases pending with
    | nil => exact ⟨h1, h2, h3⟩
    | cons e prest =>
      obtain ⟨p, isA⟩ := e
      cases halted with
      | true => exact ⟨h1, h2, h3⟩
      | false =>
        cases rest with
        | nil => exact ⟨h1, h2, h3⟩
        | cons b t =>
          have hb : b = false := h3 b (List.mem_cons_self b t)
          subst hb
          exact ih prest _ ⟨h1, h2, fun x hx => h3 x (List.mem_cons_of_mem false hx)⟩

theorem zp_planeStep (g : Spiht.Geom) (n : Nat) (st : Spiht.St Spiht.DecS)
    (h : Spiht.ZP g st) : Spiht.ZP g (Spiht.planeStep g (Spiht.decOracle g) n st) := by
  unfold Spiht.planeStep
  rw [h.1]
  exact zp_lisPass g n _ _ _ (zp_lipPass g n _ _ ⟨rfl, h.2.1, h.2.2⟩)

theorem zp_planesRun (g : Spiht.Geom) (i : Nat) (st : Spiht.St Spiht.DecS)
    (h : Spiht.ZP g st) : Spiht.ZP g (Spiht.planesRun g (Spiht.decOracle g) i st) := by
  induction i generalizing st with
  | zero => exact h
  | succ j ih => exact ih _ (zp_planeStep g j st h)

theorem ez_testPos (g : Spiht.Geom) (arr : List Int) (hz : ∀ p, Spiht.getv g arr p = 0)
    (n : Nat) (p : Spiht.Pos) (st : Spiht.St (List Bool))
    (h : (∀ x ∈ st.s, x = false) ∧ st.lsp = []) :
    (∀ x ∈ (Spiht.testPos (Spiht.encOracle g arr) n p st).s, x = false) ∧
      (Spiht.testPos (Spiht.encOracle g arr) n p st).lsp = [] := by
  obtain ⟨lip, lis, lsp, halted, s⟩ := st
  obtain ⟨h1, h2⟩ := h
  cases halted with
  | true => exact ⟨h1, h2⟩
  | false =>
    have hs : Spiht.significant n (Spiht.getv g arr p) = false := by
      simp [Spiht.significant, hz p]
    simp only [Spiht.testPos, Spiht.encOracle, hs]
    refine ⟨fun x hx => ?_, h2⟩
    rcases List.mem_append.mp hx with hx | hx
    · exact h1 x hx
    · simpa using hx

theorem ez_lipPass (g : Spiht.Geom) (arr : List Int) (hz : ∀ p, Spiht.getv g arr p = 0)
    (n : Nat) (pending : List Spiht.Pos) (st : Spiht.St (List Bool))
    (h : (∀ x ∈ st.s, x = false) ∧ st.lsp = []) :
    (∀ x ∈ (Spiht.lipPass (Spiht.encOracle g arr) n pending st).s, x = false) ∧
      (Spiht.lipPass (Spiht.encOracle g arr) n pending st).lsp = [] := by
  induction pending generalizing st with
  | nil => exact h
  | cons p rest ih => exact ih _ (ez_testPos g arr hz n p st h)

theorem ez_lisPass (g : Spiht.Geom) (arr : List Int) (hz : ∀ p, Spiht.getv g arr p = 0)
    (n : Nat) (fuel : Nat) (pending : List (Spiht.Pos × Bool)) (st : Spiht.St (List Bool))
    (h : (∀ x ∈ st.s, x = false) ∧ st.lsp = []) :
    (∀ x ∈ (Spiht.lisPass g (Spiht.encOracle g arr) n fuel pending st).s, x = false) ∧
      (Spiht.lisPass g (Spiht.encOracle g arr) n fuel pending st).lsp = [] := by
  induction fuel generalizing pending st with
  | zero => exact h
  | succ f ih =>
    obtain ⟨lip, lis, lsp, halted, s⟩ := st
    obtain ⟨h1, h2⟩ := h
    cases pending with
    | nil => exact ⟨h1, h2⟩
    | cons e prest =>
      obtain ⟨p, isA⟩ := e
      cases halted with
      | true => exact ⟨h1, h2⟩
      | false =>
        have hd : Spiht.dmax g arr p.1 p.2.1 p.2.2 = 0 :=
          foldl_max_zero _ _ 0 (fun q _ => by rw [hz (p.1, q.1, q.2)]; rfl)
        have hl : Spiht.lmax g arr p.1 p.2.1 p.2.2 = 0 :=
          foldl_max_zero _ _ 0 (fun q _ => by rw [hz (p.1, q.1, q.2)]; rfl)
        have hb : (decide (2 ^ n ≤ (if isA then Spiht.dmax g arr p.1 p.2.1 p.2.2
            else Spiht.lmax g arr p.1 p.2.1 p.2.2))) = false := by
          cases isA <;> simp [hd, hl]
        simp only [Spiht.lisPass, Spiht.encOracle, hb]
        refine ih prest _ ⟨fun x hx => ?_, h2⟩
        rcases List.mem_append.mp hx with hx | hx
        · exact h1 x hx
        · simpa using hx

theorem ez_planeStep (g : Spiht.Geom) (arr : List Int) (hz : ∀ p, Spiht.getv g arr p = 0)
    (n : Nat) (st : Spiht.St (List Bool))
    (h : (∀ x ∈ st.s, x = false) ∧ st.lsp = []) :
    (∀ x ∈ (Spiht.planeStep g (Spiht.encOracle g arr) n st).s, x = false) ∧
      (Spiht.planeStep g (Spiht.encOracle g arr) n st).lsp = [] := by
  unfold Spiht.planeStep
  rw [h.2]
  exact ez_lisPass g arr hz n _ _ _ (ez_lipPass g arr hz n _ _ ⟨h.1, rfl⟩)

theorem ez_planesRun (g : Spiht.Geom) (arr : List Int) (hz : ∀ p, Spiht.getv g arr p = 0)
    (i : Nat) (st : Spiht.St (List Bool))
    (h : (∀ x ∈ st.s, x = false) ∧ st.lsp = []) :
    (∀ x ∈ (Spiht.planesRun g (Spiht.encOracle g arr) i st).s, x = false) ∧
      (Spiht.planesRun g (Spiht.encOracle g arr) i st).lsp = [] := by
  induction i generalizing st with
  | zero => exact h
  | succ j ih => exact ih _ (ez_planeStep g arr hz j st h)

theorem fullTrace_all_false (g : Spiht.Geom) (arr : List Int)
    (hz : ∀ p, Spiht.getv g arr p = 0) (mn : Nat) :
    ∀ x ∈ Spiht.fullTrace g arr mn, x = false := by
  unfold Spiht.fullTrace
  exact (ez_planesRun g arr hz (mn + 1) _ ⟨fun x hx => (List.not_mem_nil x hx).elim, rfl⟩).1

/-- C6: an all-zero coefficient array encodes, at any bit budget ≥ 0, to a
bitstream that decodes back to the all-zero array of the same shape: a zero
coefficient never becomes significant, every emitted decision bit is zero,
and the decoder reading zero bits never writes a value. -/
theorem claim6_all_zero (g : Spiht.Geom) (b : Nat) (hg : Spiht.checkGeom g = none) :
    ∃ bytes, Spiht.encode g (List.replicate g.size 0) b = .ok (bytes, 0) ∧
      Spiht.decode g bytes 0 = .ok (List.replicate g.size 0) := by
  have hz : ∀ p, Spiht.getv g (List.replicate g.size (0 : Int)) p = 0 :=
    getv_all_zero g _ (fun v hv => List.eq_of_mem_replicate hv)
  have hm0 : Spiht.maxAbs (List.replicate g.size (0 : Int)) = 0 :=
    maxAbs_all_zero _ (fun v hv => List.eq_of_mem_replicate hv)
  refine ⟨(Spiht.encodeRaw g (List.replicate g.size 0) b).1, ?_, ?_⟩
  · unfold Spiht.encode
    rw [hg]
    simp [Spiht.encodeRaw, hm0]
    rfl
  · unfold Spiht.decode
    rw [hg]
    have htr := fullTrace_all_false g (List.replicate g.size 0) hz
    have hby : ∀ y ∈ (Spiht.encodeRaw g (List.replicate g.size 0) b).1, y = 0 := by
      intro y hy
      simp only [Spiht.encodeRaw] at hy
      exact packAux_all_zero _ _
        (fun x hx => htr _ x (List.take_subset _ _ hx)) y hy
    have hstream := unpack_all_false _ hby
    have hfinal := zp_planesRun g 1
      (Spiht.initSt g (Spiht.unpack (Spiht.encodeRaw g (List.replicate g.size 0) b).1,
        List.replicate g.size 0)) ⟨rfl, rfl, hstream⟩
    unfold Spiht.decodeRaw Spiht.decodeRun
    exact congrArg Except.ok hfinal.2.1

/-- Witness for `claim6_all_zero` at geometry (1, 2, 2, 2, 2), budget 3. -/
theorem claim6_all_zero_witness :
    ∃ bytes, Spiht.encode ⟨1, 2, 2, 2, 2⟩ (List.replicate (Spiht.Geom.size ⟨1, 2, 2, 2, 2⟩) 0) 3 =
        .ok (bytes, 0) ∧
      Spiht.decode ⟨1, 2, 2, 2, 2⟩ bytes 0 =
        .ok (List.replicate (Spiht.Geom.size ⟨1, 2, 2, 2, 2⟩) 0) :=
  claim6_all_zero ⟨1, 2, 2, 2, 2⟩ 3 (by rfl)

/-! ## LSP growth and reached-position lemmas (any oracle) -/

theorem testPos_lsp_ext {σ : Type} (O : Spiht.Oracle σ) (n : Nat) (p : Spiht.Pos)
    (st : Spiht.St σ) : ∃ t, (Spiht.testPos O n p st).lsp = st.lsp ++ t := by
  obtain ⟨lip, lis, lsp, halted, s⟩ := st
  cases halted with
  | true => exact ⟨[], by simp [Spiht.testPos]⟩
  | false =>
    simp only [Spiht.testPos]
    cases hsig : O.sigBit n p s with
    | none => exact ⟨[], by simp⟩
    | some v =>
      obtain ⟨b, s1⟩ := v
      cases b with
      | false => exact ⟨[], by simp⟩
      | true =>
        cases hsign : O.signBit n p s1 with
        | none => exact ⟨[], by simp [hsign]⟩
        | some v2 => exact ⟨[p], by rcases v2 with ⟨b2, s2⟩; simp [hsign]⟩

theorem lipPass_lsp_ext {σ : Type} (O : Spiht.Oracle σ) (n : Nat)
    (pending : List Spiht.Pos) (st : Spiht.St σ) :
    ∃ t, (Spiht.lipPass O n pending st).lsp = st.lsp ++ t := by
  induction pending generalizing st with
  | nil => exact ⟨[], by simp [Spiht.lipPass]⟩
  | cons p rest ih =>
    obtain ⟨t1, h1⟩ := testPos_lsp_ext O n p st
    obtain ⟨t2, h2⟩ := ih (Spiht.testPos O n p st)
    exact ⟨t1 ++ t2, by simp [Spiht.lipPass, h2, h1]⟩

theorem foldChildren_lsp_ext {σ : Type} (O : Spiht.Oracle σ) (n : Nat) (k : Nat)
    (l : List (Nat × Nat)) (st : Spiht.St σ) :
    ∃ t, (l.foldl (fun acc q => Spiht.testPos O n (k, q.1, q.2) acc) st).lsp = st.lsp ++ t := by
  induction l generalizing st with
  | nil => exact ⟨[], by simp⟩
  | cons q rest ih =>
    obtain ⟨t1, h1⟩ := testPos_lsp_ext O n (k, q.1, q.2) st
    obtain ⟨t2, h2⟩ := ih (Spiht.testPos O n (k, q.1, q.2) st)
    exact ⟨t1 ++ t2, by simp [h2, h1]⟩

theorem lisPass_lsp_ext {σ : Type} (g : Spiht.Geom) (O : Spiht.Oracle σ) (n : Nat)
    (fuel : Nat) (pending : List (Spiht.Pos × Bool)) (st : Spiht.St σ) :
    ∃ t, (Spiht.lisPass g O n fuel pending st).lsp = st.lsp ++ t := by
  induction fuel generalizing pending st with
  | zero => exact ⟨[], by simp [Spiht.lisPass]⟩
  | succ f ih =>
    cases pending with
    | nil => exact ⟨[], by simp [Spiht.lisPass]⟩
    | cons e prest =>
      obtain ⟨p, isA⟩ := e
      by_cases hh : st.halted
      · exact ⟨[], by simp [Spiht.lisPass, hh]⟩
      · simp only [Spiht.lisPass, if_neg hh]
        cases hset : O.setBit n p isA st.s with
        | none => exact ⟨[], by simp⟩
        | some v =>
          obtain ⟨b, s1⟩ := v
          cases b with
          | false =>
            obtain ⟨t, ht⟩ := ih prest { st with s := s1, lis := st.lis ++ [(p, isA)] }
            exact ⟨t, by simpa using ht⟩
          | true =>
            cases isA with
            | true =>
              obtain ⟨t1, h1⟩ := foldChildren_lsp_ext O n p.1 (Spiht.children g p.2.1 p.2.2)
                { st with s := s1 }
              by_cases hgd : (Spiht.grandDesc g p.2.1 p.2.2).isEmpty = true
              · obtain ⟨t2, h2⟩ := ih prest ((Spiht.children g p.2.1 p.2.2).foldl
                  (fun acc q => Spiht.testPos O n (p.1, q.1, q.2) acc) { st with s := s1 })
                refine ⟨t1 ++ t2, ?_⟩
                simp [hgd, h2, h1]
              · obtain ⟨t2, h2⟩ := ih (prest ++ [(p, false)])
                  ((Spiht.children g p.2.1 p.2.2).foldl
                    (fun acc q => Spiht.testPos O n (p.1, q.1, q.2) acc) { st with s := s1 })
                refine ⟨t1 ++ t2, ?_⟩
                simp [hgd, h2, h1]
            | false =>
              obtain ⟨t, ht⟩ := ih
                (prest ++ (Spiht.children g p.2.1 p.2.2).map (fun q => ((p.1, q.1, q.2), true)))
                { st with s := s1 }
              exact ⟨t, by simpa using ht⟩

theorem refinePass_lsp_eq {σ : Type} (O : Spiht.Oracle σ) (n : Nat)
    (pending : List Spiht.Pos) (st : Spiht.St σ) :
    (Spiht.refinePass O n pending st).lsp = st.lsp := by
  induction pending generalizing st with
  | nil => rfl
  | cons p rest ih =>
    by_cases hh : st.halted
    · simp [Spiht.refinePass, hh]
    · simp only [Spiht.refinePass, if_neg hh]
      cases hr : O.refBit n p st.s with
      | none => rfl
      | some v => exact ih _

theorem planeStep_lsp_ext {σ : Type} (g : Spiht.Geom) (O : Spiht.Oracle σ) (n : Nat)
    (st : Spiht.St σ) : ∃ t, (Spiht.planeStep g O n st).lsp = st.lsp ++ t := by
  unfold Spiht.planeStep
  obtain ⟨t1, h1⟩ := lipPass_lsp_ext O n st.lip { st with lip := [] }
  obtain ⟨t2, h2⟩ := lisPass_lsp_ext g O n
    (Spiht.lisFuel g (Spiht.lipPass O n st.lip { st with lip := [] }).lis)
    (Spiht.lipPass O n st.lip { st with lip := [] }).lis
    { Spiht.lipPass O n st.lip { st with lip := [] } with lis := [] }
  rw [refinePass_lsp_eq]
  exact ⟨t1 ++ t2, by simp only [h2]; simp only [h1]; simp⟩

theorem getD_set_cases (l : List Int) (j i : Nat) (v : Int)
    (h : (l.set j v).getD i 0 ≠ 0) : i = j ∨ l.getD i 0 ≠ 0 := by
  by_cases hij : i = j
  · exact .inl hij
  · right
    rw [List.getD_eq_getElem?_getD, List.getElem?_set_ne (by omega)] at h
    rw [List.getD_eq_getElem?_getD]
    exact h

theorem ri_testPos (g : Spiht.Geom) (n : Nat) (p : Spiht.Pos) (st : Spiht.St Spiht.DecS)
    (h : Spiht.RI g st ∧ Spiht.RL g st) :
    Spiht.RI g (Spiht.testPos (Spiht.decOracle g) n p st) ∧
      Spiht.RL g (Spiht.testPos (Spiht.decOracle g) n p st) := by
  obtain ⟨lip, lis, lsp, halted, rest, rec⟩ := st
  obtain ⟨h1, h2⟩ := h
  cases halted with
  | true => exact ⟨h1, h2⟩
  | false =>
    cases rest with
    | nil => exact ⟨h1, h2⟩
    | cons b t =>
      cases b with
      | false => exact ⟨h1, h2⟩
      | true =>
        cases t with
        | nil => exact ⟨h1, h2⟩
        | cons b2 t2 =>
          constructor
          · intro i hi
            simp only [Spiht.testPos, Spiht.decOracle, Spiht.popBit] at hi ⊢
            rcases getD_set_cases _ _ _ _ hi with hij | hold
            · exact ⟨p, by simp, hij.symm⟩
            · obtain ⟨q, hq, hqi⟩ := h1 i hold
              exact ⟨q, by simp [List.mem_append]; exact Or.inl hq, hqi⟩
          · simp only [Spiht.RL, Spiht.testPos, Spiht.decOracle, Spiht.popBit]
            simpa [List.length_set] using h2

theorem ri_lipPass (g : Spiht.Geom) (n : Nat) (pending : List Spiht.Pos)
    (st : Spiht.St Spiht.DecS) (h : Spiht.RI g st ∧ Spiht.RL g st) :
    Spiht.RI g (Spiht.lipPass (Spiht.decOracle g) n pending st) ∧
      Spiht.RL g (Spiht.lipPass (Spiht.decOracle g) n pending st) := by
  induction pending generalizing st with
  | nil => exact h
  | cons p rest ih => exact ih _ (ri_testPos g n p st h)

theorem ri_foldChildren (g : Spiht.Geom) (n : Nat) (k : Nat) (l : List (Nat × Nat))
    (st : Spiht.St Spiht.DecS) (h : Spiht.RI g st ∧ Spiht.RL g st) :
    Spiht.RI g (l.foldl (fun acc q => Spiht.testPos (Spiht.decOracle g) n (k, q.1, q.2) acc) st) ∧
      Spiht.RL g (l.foldl (fun acc q => Spiht.testPos (Spiht.decOracle g) n (k, q.1, q.2) acc) st) := by
  induction l generalizing st with
  | nil => exact h
  | cons q rest ih => exact ih _ (ri_testPos g n (k, q.1, q.2) st h)

theorem ri_lisPass (g : Spiht.Geom) (n : Nat) (fuel : Nat)
    (pending : List (Spiht.Pos × Bool)) (st : Spiht.St Spiht.DecS)
    (h : Spiht.RI g st ∧ Spiht.RL g st) :
    Spiht.RI g (Spiht.lisPass g (Spiht.decOracle g) n fuel pending st) ∧
      Spiht.RL g (Spiht.lisPass g (Spiht.decOracle g) n fuel pending st) := by
  induction fuel generalizing pending st with
  | zero => exact h
  | succ f ih =>
    cases pending with
    | nil => exact h
    | cons e prest =>
      obtain ⟨p, isA⟩ := e
      by_cases hh : st.halted
      · simpa [Spiht.lisPass, hh] using h
      · simp only [Spiht.lisPass, if_neg hh]
        cases hset : (Spiht.decOracle g).setBit n p isA st.s with
        | none => exact h
        | some v =>
          obtain ⟨b, s1⟩ := v
          have hs1 : s1.2 = st.s.2 := by
            rcases hss : st.s with ⟨rest, rec⟩
            rw [hss] at hset
            cases rest with
            | nil => simp [Spiht.decOracle, Spiht.popBit] at hset
            | cons x xs =>
              simp only [Spiht.decOracle, Spiht.popBit, Option.some.injEq,
                Prod.mk.injEq] at hset
              rw [← hset.2]
          have hbase : Spiht.RI g { st with s := s1 } ∧ Spiht.RL g { st with s := s1 } := by
            constructor
            · intro i hi
              rw [show ({ st with s := s1 } : Spiht.St Spiht.DecS).s.2 = st.s.2 from hs1] at hi
              exact h.1 i hi
            · show s1.2.length = g.size
              rw [hs1]
              exact h.2
          cases b with
          | false => exact ih prest _ ⟨hbase.1, hbase.2⟩
          | true =>
            cases isA with
            | true =>
              by_cases hgd : (Spiht.grandDesc g p.2.1 p.2.2).isEmpty = true
              · simp only [hgd, if_true]
                exact ih prest _ (ri_foldChildren g n p.1 _ _ hbase)
              · simp only [hgd, if_false]
                exact ih (prest ++ [(p, false)]) _ (ri_foldChildren g n p.1 _ _ hbase)
            | false => exact ih _ _ hbase

theorem ri_refinePass (g : Spiht.Geom) (n : Nat) (pending : List Spiht.Pos)
    (st : Spiht.St Spiht.DecS) (hsub : ∀ p ∈ pending, p ∈ st.lsp)
    (h : Spiht.RI g st ∧ Spiht.RL g st) :
    Spiht.RI g (Spiht.refinePass (Spiht.decOracle g) n pending st) ∧
      Spiht.RL g (Spiht.refinePass (Spiht.decOracle g) n pending st) := by
  induction pending generalizing st with
  | nil => exact h
  | cons p rest ih =>
    by_cases hh : st.halted
    · simpa [Spiht.refinePass, hh] using h
    · simp only [Spiht.refinePass, if_neg hh]
      rcases hss : st.s with ⟨inbits, rec⟩
      cases inbits with
      | nil =>
        simp only [Spiht.decOracle, hss]
        constructor
        · intro i hi
          apply h.1 i
          rw [hss]
          exact hi
        · have := h.2
          rw [Spiht.RL, hss] at this
          exact this
      | cons b t =>
        simp only [Spiht.decOracle, hss]
        refine ih _ (fun q hq => hsub q (List.mem_cons_of_mem p hq)) ⟨?_, ?_⟩
        · intro i hi
          simp only at hi
          cases b with
          | false => exact h.1 i (by rw [hss]; exact hi)
          | true =>
            simp only [if_true] at hi
            rcases getD_set_cases _ _ _ _ hi with hij | hold
            · exact ⟨p, hsub p (List.mem_cons_self p rest), hij.symm⟩
            · exact h.1 i (by rw [hss]; exact hold)
        · show (if b = true then _ else rec).length = g.size
          have hlen : rec.length = g.size := by
            have := h.2
            rw [Spiht.RL, hss] at this
            exact this
          cases b with
          | false => simpa using hlen
          | true => simpa [List.length_set] using hlen

theorem ri_planeStep (g : Spiht.Geom) (n : Nat) (st : Spiht.St Spiht.DecS)
    (h : Spiht.RI g st ∧ Spiht.RL g st) :
    Spiht.RI g (Spiht.planeStep g (Spiht.decOracle g) n st) ∧
      Spiht.RL g (Spiht.planeStep g (Spiht.decOracle g) n st) := by
  unfold Spiht.planeStep
  obtain ⟨t1, h1⟩ := lipPass_lsp_ext (Spiht.decOracle g) n st.lip { st with lip := [] }
  obtain ⟨t2, h2⟩ := lisPass_lsp_ext g (Spiht.decOracle g) n
    (Spiht.lisFuel g
      (Spiht.lipPass (Spiht.decOracle g) n st.lip { st with lip := [] }).lis)
    (Spiht.lipPass (Spiht.decOracle g) n st.lip { st with lip := [] }).lis
    { Spiht.lipPass (Spiht.decOracle g) n st.lip { st with lip := [] } with lis := [] }
  refine ri_refinePass g n st.lsp _ ?_ (ri_lisPass g n _ _ _ (ri_lipPass g n _ _ h))
  intro p hp
  rw [h2]
  simp only
  rw [h1]
  simp [hp]

theorem ri_planesRun (g : Spiht.Geom) (i : Nat) (st : Spiht.St Spiht.DecS)
    (h : Spiht.RI g st ∧ Spiht.RL g st) :
    Spiht.RI g (Spiht.planesRun g (Spiht.decOracle g) i st) ∧
      Spiht.RL g (Spiht.planesRun g (Spiht.decOracle g) i st) := by
  induction i generalizing st with
  | zero => exact h
  | succ j ih => exact ih _ (ri_planeStep g j st h)

/-- C5: for every byte buffer — malformed or truncated included — and valid
geometry, decoding never raises a distinguishable error: it returns an array
of the full size, and any position never reached by a significance decision
(never moved to LSP) still holds its initial zero value (equivalently, a
nonzero decoded value exists only at positions in the final LSP). -/
theorem claim5_malformed_tolerance (g : Spiht.Geom) (bytes : List Nat) (mn : Nat)
    (hg : Spiht.checkGeom g = none) :
    Spiht.decode g bytes mn = .ok (Spiht.decodeRaw g bytes mn) ∧
    (Spiht.decodeRaw g bytes mn).length = g.size ∧
    (∀ i, (Spiht.decodeRaw g bytes mn).getD i 0 ≠ 0 →
      ∃ p, p ∈ (Spiht.decodeRun g bytes mn).lsp ∧ Spiht.idx g p = i) := by
  have hinit : Spiht.RI g (Spiht.initSt g (Spiht.unpack bytes, List.replicate g.size 0)) ∧
      Spiht.RL g (Spiht.initSt g (Spiht.unpack bytes, List.replicate g.size 0)) := by
    constructor
    · intro i hi
      exact absurd (getD_zero_of_all _ (fun v hv => List.eq_of_mem_replicate hv) i) hi
    · simp [Spiht.RL, Spiht.initSt]
  have hfin := ri_planesRun g (mn + 1) _ hinit
  refine ⟨by unfold Spiht.decode; rw [hg], hfin.2, fun i hi => hfin.1 i hi⟩

/-- Witness for `claim5_malformed_tolerance`: a one-byte garbage buffer at
geometry (1, 2, 2, 2, 2) with an inflated `max_n`. -/
theorem claim5_malformed_tolerance_witness :
    Spiht.decode ⟨1, 2, 2, 2, 2⟩ [171] 7 = .ok (Spiht.decodeRaw ⟨1, 2, 2, 2, 2⟩ [171] 7) ∧
    (Spiht.decodeRaw ⟨1, 2, 2, 2, 2⟩ [171] 7).length = Spiht.Geom.size ⟨1, 2, 2, 2, 2⟩ ∧
    (∀ i, (Spiht.decodeRaw ⟨1, 2, 2, 2, 2⟩ [171] 7).getD i 0 ≠ 0 →
      ∃ p, p ∈ (Spiht.decodeRun ⟨1, 2, 2, 2, 2⟩ [171] 7).lsp ∧ Spiht.idx ⟨1, 2, 2, 2, 2⟩ p = i) :=
  claim5_malformed_tolerance ⟨1, 2, 2, 2, 2⟩ [171] 7 (by rfl)

/-! ## Tree-addressing lemmas -/

theorem GV_of_checkGeom (g : Spiht.Geom) (hg : Spiht.checkGeom g = none) :
    Spiht.GV g ∧ g.size ≠ 0 := by
  unfold Spiht.checkGeom at hg
  by_cases hz : g.size = 0
  · simp [hz] at hg
  · refine ⟨?_, hz⟩
    rw [if_neg hz] at hg
    by_cases hd : Spiht.dyadicOk g
    · unfold Spiht.dyadicOk at hd
      simp only [Bool.and_eq_true, decide_eq_true_eq, List.any_eq_true, List.mem_range,
        beq_iff_eq] at hd
      obtain ⟨⟨⟨⟨h1, h2⟩, h3⟩, h4⟩, k, _, hk1, hk2⟩ := hd
      exact ⟨by omega, by omega, h3, h4, k, hk1, hk2⟩
    · simp [hd] at hg

theorem llh_le_h (g : Spiht.Geom) (hgv : Spiht.GV g) : g.llh ≤ g.h ∧ g.llw ≤ g.w := by
  obtain ⟨h1, h2, _, _, k, hk1, hk2⟩ := hgv
  have hp : 1 ≤ 2 ^ k := Nat.one_le_two_pow
  constructor
  · calc g.llh = g.llh * 1 := by ring
    _ ≤ g.llh * 2 ^ k := by exact Nat.mul_le_mul_left _ hp
    _ = g.h := hk1.symm
  · calc g.llw = g.llw * 1 := by ring
    _ ≤ g.llw * 2 ^ k := by exact Nat.mul_le_mul_left _ hp
    _ = g.w := hk2.symm

theorem mem_childBlock (h w ro co : Nat) (q : Nat × Nat) :
    q ∈ Spiht.childBlock h w ro co ↔
      ((q.1 = ro ∨ q.1 = ro + 1) ∧ (q.2 = co ∨ q.2 = co + 1) ∧ q.1 < h ∧ q.2 < w) := by
  obtain ⟨q1, q2⟩ := q
  simp [Spiht.childBlock, List.mem_filter, Prod.ext_iff]
  omega

/-- Children are in range, are not roots, have a strictly larger row-major
measure, and identify their parent. -/
theorem children_elim (g : Spiht.Geom) (hgv : Spiht.GV g) (r c : Nat) (q : Nat × Nat)
    (hq : q ∈ Spiht.children g r c) :
    q.1 < g.h ∧ q.2 < g.w ∧ Spiht.mpos g (r, c) < Spiht.mpos g q ∧
      ¬(q.1 < g.llh ∧ q.2 < g.llw) ∧ Spiht.parentF g q = (r, c) ∧ r < g.h ∧ c < g.w := by
  obtain ⟨hllh, hllw, heh, hew, k, hk1, hk2⟩ := hgv
  have hle : g.llh ≤ g.h ∧ g.llw ≤ g.w := llh_le_h g ⟨hllh, hllw, heh, hew, k, hk1, hk2⟩
  obtain ⟨q1, q2⟩ := q
  unfold Spiht.children at hq
  by_cases hroot : r < g.llh ∧ c < g.llw
  · rw [if_pos hroot] at hq
    by_cases hstar : r % 2 = 0 ∧ c % 2 = 0
    · simp [hstar] at hq
    · rw [if_neg hstar] at hq
      rw [mem_childBlock] at hq
      obtain ⟨hq1, hq2, hqh, hqw⟩ := hq
      simp only at hq1 hq2 hqh hqw
      simp only [Spiht.mpos, Spiht.parentF]
      rcases Nat.mod_two_eq_zero_or_one r with hr | hr <;>
        rcases Nat.mod_two_eq_zero_or_one c with hc | hc
      · exact absurd ⟨hr, hc⟩ hstar
      · -- r even, c odd: HL quadrant
        rw [if_neg (by omega)] at hq1
        rw [if_pos (by omega)] at hq2
        have e1 : (r + 1) * g.w = r * g.w + g.w := by ring
        rcases hq1 with h1 | h1 <;> rcases hq2 with h2 | h2 <;> subst h1 <;> subst h2 <;>
          (refine ⟨hqh, hqw, by omega, by omega, ?_, by omega, by omega⟩;
           rw [if_pos (by omega), if_pos (by omega)];
           simp only [Prod.mk.injEq]; omega)
      · -- r odd, c even: LH quadrant
        rw [if_pos (by omega)] at hq1
        rw [if_neg (by omega)] at hq2
        have e1 : (g.llh + (r - 1)) * g.w = g.llh * g.w + (r - 1) * g.w := by
          rw [Nat.add_mul]
        have e2 : (g.llh + (r - 1) + 1) * g.w = g.llh * g.w + (r - 1) * g.w + g.w := by
          rw [Nat.add_mul, Nat.add_mul, Nat.one_mul]
        have e3 : r * g.w = (r - 1) * g.w + g.w := by
          rw [← Nat.succ_pred_eq_of_pos (by omega : 0 < r), Nat.succ_mul]
          simp
        have e4 : 2 * g.w ≤ g.llh * g.w := Nat.mul_le_mul_right g.w hllh
        rcases hq1 with h1 | h1 <;> rcases hq2 with h2 | h2 <;> subst h1 <;> subst h2 <;>
          (refine ⟨hqh, hqw, by omega, by omega, ?_, by omega, by omega⟩;
           rw [if_pos (by omega), if_neg (by omega), if_pos (by omega)];
           simp only [Prod.mk.injEq]; omega)
      · -- r odd, c odd: HH quadrant
        rw [if_pos (by omega)] at hq1
        rw [if_pos (by omega)] at hq2
        have e1 : (g.llh + (r - 1)) * g.w = g.llh * g.w + (r - 1) * g.w := by
          rw [Nat.add_mul]
        have e2 : (g.llh + (r - 1) + 1) * g.w = g.llh * g.w + (r - 1) * g.w + g.w := by
          rw [Nat.add_mul, Nat.add_mul, Nat.one_mul]
        have e3 : r * g.w = (r - 1) * g.w + g.w := by
          rw [← Nat.succ_pred_eq_of_pos (by omega : 0 < r), Nat.succ_mul]
          simp
        have e4 : 2 * g.w ≤ g.llh * g.w := Nat.mul_le_mul_right g.w hllh
        rcases hq1 with h1 | h1 <;> rcases hq2 with h2 | h2 <;> subst h1 <;> subst h2 <;>
          (refine ⟨hqh, hqw, by omega, by omega, ?_, by omega, by omega⟩;
           rw [if_pos (by omega), if_neg (by omega), if_neg (by omega)];
           simp only [Prod.mk.injEq]; omega)
  · rw [if_neg hroot] at hq
    rw [mem_childBlock] at hq
    obtain ⟨hq1, hq2, hqh, hqw⟩ := hq
    simp only at hq1 hq2 hqh hqw
    simp only [Spiht.mpos, Spiht.parentF]
    have e1 : (2 * r) * g.w = 2 * (r * g.w) := by ring
    have e2 : (2 * r + 1) * g.w = 2 * (r * g.w) + g.w := by ring
    rcases not_and_or.mp hroot with hcase | hcase
    · have e3 : g.llh * g.w ≤ r * g.w := Nat.mul_le_mul_right g.w (by omega)
      have e4 : 2 * g.w ≤ g.llh * g.w := Nat.mul_le_mul_right g.w hllh
      rcases hq1 with h1 | h1 <;> rcases hq2 with h2 | h2 <;> subst h1 <;> subst h2 <;>
        (refine ⟨hqh, hqw, by omega, by omega, ?_, by omega, by omega⟩;
         rw [if_neg (by omega)];
         simp only [Prod.mk.injEq]; omega)
    · have e3 : g.llw * 1 ≤ g.llw * g.w := Nat.mul_le_mul_left g.llw (by omega)
      have e4 : r * g.w ≤ 2 * (r * g.w) := by omega
      rcases hq1 with h1 | h1 <;> rcases hq2 with h2 | h2 <;> subst h1 <;> subst h2 <;>
        (refine ⟨hqh, hqw, by omega, by omega, ?_, by omega, by omega⟩;
         rw [if_neg (by omega)];
         simp only [Prod.mk.injEq]; omega)

/-- Every in-range non-root position is a child of its `parentF`. -/
theorem parentF_children (g : Spiht.Geom) (hgv : Spiht.GV g) (q1 q2 : Nat)
    (h1 : q1 < g.h) (h2 : q2 < g.w) (hnr : ¬(q1 < g.llh ∧ q2 < g.llw)) :
    (q1, q2) ∈ Spiht.children g (Spiht.parentF g (q1, q2)).1 (Spiht.parentF g (q1, q2)).2 := by
  obtain ⟨hllh, hllw, heh, hew, k, hk1, hk2⟩ := hgv
  have hle : g.llh ≤ g.h ∧ g.llw ≤ g.w := llh_le_h g ⟨hllh, hllw, heh, hew, k, hk1, hk2⟩
  simp only [Spiht.parentF]
  by_cases hc1 : q1 < 2 * g.llh ∧ q2 < 2 * g.llw
  · rw [if_pos hc1]
    by_cases hA : q1 < g.llh
    · rw [if_pos hA]
      simp only [Spiht.children]
      rw [if_pos (by constructor <;> omega)]
      rw [if_neg (by omega)]
      rw [if_neg (by omega), if_pos (by omega)]
      rw [mem_childBlock]
      simp only
      omega
    · rw [if_neg hA]
      by_cases hB : q2 < g.llw
      · rw [if_pos hB]
        simp only [Spiht.children]
        rw [if_pos (by constructor <;> omega)]
        rw [if_neg (by omega)]
        rw [if_pos (by omega), if_neg (by omega)]
        rw [mem_childBlock]
        simp only
        omega
      · rw [if_neg hB]
        simp only [Spiht.children]
        rw [if_pos (by constructor <;> omega)]
        rw [if_neg (by omega)]
        rw [if_pos (by omega), if_pos (by omega)]
        rw [mem_childBlock]
        simp only
        omega
  · rw [if_neg hc1]
    simp only [Spiht.children]
    rw [if_neg (by omega)]
    rw [mem_childBlock]
    simp only
    omega

theorem flatMap_congr' {α β : Type} (l : List α) (f f2 : α → List β)
    (h : ∀ a ∈ l, f a = f2 a) : l.flatMap f = l.flatMap f2 := by
  induction l with
  | nil => rfl
  | cons x xs ih =>
    simp only [List.flatMap_cons]
    rw [h x (List.mem_cons_self x xs), ih (fun a ha => h a (List.mem_cons_of_mem x ha))]

theorem count_flatMap' {α β : Type} [DecidableEq β] (l : List α) (f : α → List β) (b : β) :
    Multiset.count b (↑(l.flatMap f) : Multiset β) =
      (l.map (fun a => Multiset.count b (↑(f a) : Multiset β))).sum := by
  induction l with
  | nil => rfl
  | cons x xs ih =>
    simp only [List.flatMap_cons, List.map_cons, List.sum_cons, ← ih]
    rw [← Multiset.coe_add, Multiset.count_add]

theorem count_grid (hh ww : Nat) (a b : Nat) :
    Multiset.count ((a, b) : Nat × Nat) (↑(Spiht.gridList hh ww) : Multiset (Nat × Nat)) =
      if a < hh ∧ b < ww then 1 else 0 := by
  have hrow : ∀ (r : Nat) (n : Nat),
      Multiset.count ((a, b) : Nat × Nat)
        (↑((List.range n).map fun c => ((r, c) : Nat × Nat)) : Multiset (Nat × Nat)) =
        if a = r ∧ b < n then 1 else 0 := by
    intro r n
    induction n with
    | zero => simp
    | succ m ih =>
      rw [List.range_succ, List.map_append, ← Multiset.coe_add, Multiset.count_add, ih]
      simp only [List.map_cons, List.map_nil, Multiset.coe_singleton, Multiset.count_singleton]
      have : (((a, b) : Nat × Nat) = (r, m)) ↔ (a = r ∧ b = m) := by
        constructor
        · intro hp
          exact ⟨congrArg Prod.fst hp, congrArg Prod.snd hp⟩
        · rintro ⟨hp1, hp2⟩
          subst hp1
          subst hp2
          rfl
      rw [if_congr this rfl rfl]
      split_ifs <;> omega
  unfold Spiht.gridList
  induction hh with
  | zero => simp
  | succ H ih =>
    rw [List.range_succ, List.flatMap_append, ← Multiset.coe_add, Multiset.count_add, ih]
    simp only [List.flatMap_cons, List.flatMap_nil, List.append_nil]
    rw [hrow H ww]
    split_ifs <;> omega

theorem childBlock_nodup (h w ro co : Nat) : (Spiht.childBlock h w ro co).Nodup := by
  apply List.Nodup.filter
  simp [List.nodup_cons, Prod.ext_iff]

theorem children_nodup (g : Spiht.Geom) (r c : Nat) : (Spiht.children g r c).Nodup := by
  unfold Spiht.children
  split_ifs <;> first
  | exact List.nodup_nil
  | exact childBlock_nodup _ _ _ _

theorem children_out (g : Spiht.Geom) (hgv : Spiht.GV g) (r c : Nat)
    (h : ¬(r < g.h ∧ c < g.w)) : Spiht.children g r c = [] := by
  rw [List.eq_nil_iff_forall_not_mem]
  intro q hq
  exact h ⟨(children_elim g hgv r c q hq).2.2.2.2.2.1, (children_elim g hgv r c q hq).2.2.2.2.2.2⟩

theorem mpos_lt_of_inrange (g : Spiht.Geom) (r c : Nat) (h1 : r < g.h) (h2 : c < g.w) :
    Spiht.mpos g (r, c) < g.h * g.w := by
  have hmm : (r + 1) * g.w ≤ g.h * g.w := Nat.mul_le_mul_right g.w h1
  have e : (r + 1) * g.w = r * g.w + g.w := by ring
  show r * g.w + c < g.h * g.w
  omega

theorem descAux_stable (g : Spiht.Geom) (hgv : Spiht.GV g) :
    ∀ (f1 f2 r c : Nat), g.h * g.w ≤ f1 + Spiht.mpos g (r, c) →
      g.h * g.w ≤ f2 + Spiht.mpos g (r, c) →
      Spiht.descAux g f1 r c = Spiht.descAux g f2 r c := by
  intro f1
  induction f1 using Nat.strong_induction_on with
  | _ f1 ih =>
    intro f2 r c h1 h2
    have hchild : ∀ q ∈ Spiht.children g r c,
        Spiht.mpos g (r, c) + 1 ≤ Spiht.mpos g q ∧ q.1 < g.h ∧ q.2 < g.w := by
      intro q hq
      have := children_elim g hgv r c q hq
      exact ⟨this.2.2.1, this.1, this.2.1⟩
    have hempty : g.h * g.w ≤ Spiht.mpos g (r, c) → Spiht.children g r c = [] := by
      intro hm
      apply children_out g hgv
      intro ⟨hr, hc⟩
      exact absurd (mpos_lt_of_inrange g r c hr hc) (by omega)
    cases f1 with
    | zero =>
      cases f2 with
      | zero => rfl
      | succ s =>
        rw [Spiht.descAux, Spiht.descAux, hempty (by omega)]
        rfl
    | succ a =>
      cases f2 with
      | zero =>
        rw [Spiht.descAux, Spiht.descAux, hempty (by omega)]
        rfl
      | succ b =>
        rw [Spiht.descAux, Spiht.descAux]
        apply flatMap_congr'
        intro q hq
        obtain ⟨hm, hh, hw⟩ := hchild q hq
        rw [ih a (by omega) b q.1 q.2 (by simp only [Spiht.mpos] at hm h1 h2 ⊢; omega)
          (by simp only [Spiht.mpos] at hm h1 h2 ⊢; omega)]

theorem descendants_unfold (g : Spiht.Geom) (hgv : Spiht.GV g) (r c : Nat) :
    Spiht.descendants g r c =
      (Spiht.children g r c).flatMap (fun q => q :: Spiht.descendants g q.1 q.2) := by
  have hpos : 0 < g.h * g.w := by
    have hl := llh_le_h g hgv
    have h2 := hgv.1
    have h3 := hgv.2.1
    have hh : 0 < g.h := by omega
    have hw : 0 < g.w := by omega
    positivity
  unfold Spiht.descendants
  obtain ⟨s, hs⟩ : ∃ s, g.h * g.w = s + 1 := ⟨g.h * g.w - 1, by omega⟩
  rw [hs, Spiht.descAux]
  apply flatMap_congr'
  intro q hq
  have := children_elim g hgv r c q hq
  congr 1
  rw [← hs]
  exact descAux_stable g hgv s (g.h * g.w) q.1 q.2
    (by have h2 := this.2.2.1; simp only [Spiht.mpos] at h2 ⊢; omega)
    (by have := mpos_lt_of_inrange g q.1 q.2 this.1 this.2.1; omega)

theorem desc_out (g : Spiht.Geom) (r c : Nat) (h : Spiht.children g r c = []) :
    Spiht.descendants g r c = [] := by
  unfold Spiht.descendants
  cases hf : g.h * g.w with
  | zero => rfl
  | succ s => rw [Spiht.descAux, h]; rfl

theorem desc_inrange (g : Spiht.Geom) (hgv : Spiht.GV g) :
    ∀ (fuel r c : Nat) (q : Nat × Nat), q ∈ Spiht.descAux g fuel r c →
      q.1 < g.h ∧ q.2 < g.w ∧ ¬(q.1 < g.llh ∧ q.2 < g.llw) := by
  intro fuel
  induction fuel with
  | zero => intro r c q hq; simp [Spiht.descAux] at hq
  | succ f ih =>
    intro r c q hq
    rw [Spiht.descAux] at hq
    rcases List.mem_flatMap.mp hq with ⟨σ, hσ, hmem⟩
    rcases List.mem_cons.mp hmem with heq | hrec
    · subst heq
      have := children_elim g hgv r c q hσ
      exact ⟨this.1, this.2.1, this.2.2.2.1⟩
    · exact ih σ.1 σ.2 q hrec

theorem mem_descendants (g : Spiht.Geom) (hgv : Spiht.GV g) (r c : Nat) (q : Nat × Nat)
    (hq : q ∈ Spiht.descendants g r c) :
    q.1 < g.h ∧ q.2 < g.w ∧ ¬(q.1 < g.llh ∧ q.2 < g.llw) :=
  desc_inrange g hgv (g.h * g.w) r c q hq

theorem count_eq_sum_ind {α : Type} [DecidableEq α] (a : α) (l : List α) :
    Multiset.count a (↑l : Multiset α) = (l.map (fun x => if a = x then 1 else 0)).sum := by
  induction l with
  | nil => rfl
  | cons x xs ih =>
    rw [← Multiset.cons_coe, Multiset.count_cons, ih]
    simp only [List.map_cons, List.sum_cons]
    split_ifs <;> omega

theorem sum_map_add' {α : Type} (l : List α) (f f2 : α → Nat) :
    (l.map (fun x => f x + f2 x)).sum = (l.map f).sum + (l.map f2).sum := by
  induction l with
  | nil => rfl
  | cons x xs ih => simp [ih]; omega

theorem count_desc_split (g : Spiht.Geom) (hgv : Spiht.GV g) (y : Nat × Nat) (x1 x2 : Nat) :
    Multiset.count y (↑(Spiht.descendants g x1 x2) : Multiset (Nat × Nat)) =
      Multiset.count y (↑(Spiht.children g x1 x2) : Multiset (Nat × Nat)) +
      ((Spiht.children g x1 x2).map
        (fun σ => Multiset.count y (↑(Spiht.descendants g σ.1 σ.2) : Multiset (Nat × Nat)))).sum := by
  rw [descendants_unfold g hgv, count_flatMap']
  have : ∀ σ : Nat × Nat,
      Multiset.count y (↑(σ :: Spiht.descendants g σ.1 σ.2) : Multiset (Nat × Nat)) =
        (if y = σ then 1 else 0) +
          Multiset.count y (↑(Spiht.descendants g σ.1 σ.2) : Multiset (Nat × Nat)) := by
    intro σ
    rw [← Multiset.cons_coe, Multiset.count_cons]
    split_ifs <;> omega
  rw [List.map_congr_left (fun σ _ => this σ), sum_map_add', ← count_eq_sum_ind]

theorem count_children (g : Spiht.Geom) (hgv : Spiht.GV g) (q1 q2 : Nat)
    (h1 : q1 < g.h) (h2 : q2 < g.w) (hnr : ¬(q1 < g.llh ∧ q2 < g.llw)) (x1 x2 : Nat) :
    Multiset.count ((q1, q2) : Nat × Nat) (↑(Spiht.children g x1 x2) : Multiset (Nat × Nat)) =
      if Spiht.parentF g (q1, q2) = (x1, x2) then 1 else 0 := by
  by_cases hp : Spiht.parentF g (q1, q2) = (x1, x2)
  · rw [if_pos hp]
    have hmem : ((q1, q2) : Nat × Nat) ∈ Spiht.children g x1 x2 := by
      have := parentF_children g hgv q1 q2 h1 h2 hnr
      rw [hp] at this
      exact this
    exact Multiset.count_eq_one_of_mem ((Multiset.coe_nodup).mpr (children_nodup g x1 x2)) hmem
  · rw [if_neg hp]
    rw [Multiset.count_eq_zero]
    intro hmem
    rw [Multiset.mem_coe] at hmem
    exact hp ((children_elim g hgv x1 x2 (q1, q2) hmem).2.2.2.2.1)

theorem parentF_inrange (g : Spiht.Geom) (hgv : Spiht.GV g) (q1 q2 : Nat)
    (h1 : q1 < g.h) (h2 : q2 < g.w) (hnr : ¬(q1 < g.llh ∧ q2 < g.llw)) :
    (Spiht.parentF g (q1, q2)).1 < g.h ∧ (Spiht.parentF g (q1, q2)).2 < g.w ∧
      Spiht.mpos g (Spiht.parentF g (q1, q2)) < Spiht.mpos g (q1, q2) := by
  have hmem := parentF_children g hgv q1 q2 h1 h2 hnr
  have := children_elim g hgv _ _ _ hmem
  refine ⟨this.2.2.2.2.2.1, this.2.2.2.2.2.2, ?_⟩
  have hm := this.2.2.1
  rwa [show ((Spiht.parentF g (q1, q2)).1, (Spiht.parentF g (q1, q2)).2) =
    Spiht.parentF g (q1, q2) from rfl] at hm

theorem count_desc_eq (g : Spiht.Geom) (hgv : Spiht.GV g) (q1 q2 : Nat)
    (h1 : q1 < g.h) (h2 : q2 < g.w) (hnr : ¬(q1 < g.llh ∧ q2 < g.llw)) :
    ∀ x : Nat × Nat,
      Multiset.count ((q1, q2) : Nat × Nat)
          (↑(Spiht.descendants g x.1 x.2) : Multiset (Nat × Nat)) =
        (if Spiht.parentF g (q1, q2) = x then 1 else 0) +
          Multiset.count (Spiht.parentF g (q1, q2))
            (↑(Spiht.descendants g x.1 x.2) : Multiset (Nat × Nat)) := by
  have hpi := parentF_inrange g hgv q1 q2 h1 h2 hnr
  have H : ∀ (d : Nat) (x : Nat × Nat), g.h * g.w - Spiht.mpos g x ≤ d →
      Multiset.count ((q1, q2) : Nat × Nat)
          (↑(Spiht.descendants g x.1 x.2) : Multiset (Nat × Nat)) =
        (if Spiht.parentF g (q1, q2) = x then 1 else 0) +
          Multiset.count (Spiht.parentF g (q1, q2))
            (↑(Spiht.descendants g x.1 x.2) : Multiset (Nat × Nat)) := by
    intro d
    induction d with
    | zero =>
      intro x hd
      obtain ⟨x1, x2⟩ := x
      have hout : ¬(x1 < g.h ∧ x2 < g.w) := by
        intro ⟨ha, hb⟩
        have := mpos_lt_of_inrange g x1 x2 ha hb
        omega
      have hnil : Spiht.descendants g x1 x2 = [] :=
        desc_out g x1 x2 (children_out g hgv x1 x2 hout)
      rw [hnil]
      have hne : Spiht.parentF g (q1, q2) ≠ (x1, x2) := by
        intro he
        have e1 := congrArg Prod.fst he
        have e2 := congrArg Prod.snd he
        simp only at e1 e2
        exact hout ⟨by omega, by omega⟩
      rw [if_neg hne]
      simp
    | succ dd ih =>
      intro x hd
      obtain ⟨x1, x2⟩ := x
      by_cases hx : x1 < g.h ∧ x2 < g.w
      · rw [count_desc_split g hgv (q1, q2) x1 x2,
          count_desc_split g hgv (Spiht.parentF g (q1, q2)) x1 x2]
        have hstep : ∀ σ ∈ Spiht.children g x1 x2,
            Multiset.count ((q1, q2) : Nat × Nat)
                (↑(Spiht.descendants g σ.1 σ.2) : Multiset (Nat × Nat)) =
              (if Spiht.parentF g (q1, q2) = σ then 1 else 0) +
                Multiset.count (Spiht.parentF g (q1, q2))
                  (↑(Spiht.descendants g σ.1 σ.2) : Multiset (Nat × Nat)) := by
          intro σ hσ
          have hel := children_elim g hgv x1 x2 σ hσ
          have hm := hel.2.2.1
          have := ih σ (by
            have hσr : σ = (σ.1, σ.2) := rfl
            simp only [Spiht.mpos] at hd hm ⊢
            omega)
          simpa using this
        rw [List.map_congr_left hstep, sum_map_add']
        rw [← count_eq_sum_ind (Spiht.parentF g (q1, q2)) (Spiht.children g x1 x2)]
        rw [count_children g hgv q1 q2 h1 h2 hnr x1 x2]
      · have hnil : Spiht.descendants g x1 x2 = [] :=
          desc_out g x1 x2 (children_out g hgv x1 x2 hx)
        rw [hnil]
        have hne : Spiht.parentF g (q1, q2) ≠ (x1, x2) := by
          intro he
          have e1 := congrArg Prod.fst he
          have e2 := congrArg Prod.snd he
          simp only at e1 e2
          exact hx ⟨by omega, by omega⟩
        rw [if_neg hne]
        simp
  exact fun x => H (g.h * g.w) x (by omega)

theorem count_filter' {α : Type} [DecidableEq α] (a : α) (l : List α) (p : α → Bool) :
    Multiset.count a (↑(l.filter p) : Multiset α) =
      if p a then Multiset.count a (↑l : Multiset α) else 0 := by
  induction l with
  | nil => simp
  | cons x xs ih =>
    by_cases hx : p x
    · rw [List.filter_cons_of_pos hx, ← Multiset.cons_coe, ← Multiset.cons_coe,
        Multiset.count_cons, Multiset.count_cons, ih]
      split_ifs with h1 h2 <;> simp_all
    · rw [List.filter_cons_of_neg hx, ← Multiset.cons_coe, Multiset.count_cons, ih]
      split_ifs with h1 h2 <;> simp_all

theorem mem_grid (hh ww : Nat) (q : Nat × Nat) :
    q ∈ Spiht.gridList hh ww ↔ (q.1 < hh ∧ q.2 < ww) := by
  obtain ⟨a, b⟩ := q
  unfold Spiht.gridList
  simp [List.mem_flatMap, List.mem_map, List.mem_range]

theorem desc_no_root (g : Spiht.Geom) (hgv : Spiht.GV g) (ρ : Nat × Nat) (q : Nat × Nat)
    (hmem : q ∈ Spiht.descendants g ρ.1 ρ.2) : ¬(q.1 < g.llh ∧ q.2 < g.llw) :=
  (mem_descendants g hgv ρ.1 ρ.2 q hmem).2.2

theorem count_fertile_desc (g : Spiht.Geom) (hgv : Spiht.GV g) :
    ∀ (M : Nat) (q1 q2 : Nat), Spiht.mpos g (q1, q2) ≤ M → q1 < g.h → q2 < g.w →
      ¬(q1 < g.llh ∧ q2 < g.llw) →
      Multiset.count ((q1, q2) : Nat × Nat)
        (↑((Spiht.fertileRoots g).flatMap (fun ρ => Spiht.descendants g ρ.1 ρ.2)) :
          Multiset (Nat × Nat)) = 1 := by
  intro M
  induction M with
  | zero =>
    intro q1 q2 hm h1 h2 hnr
    exfalso
    apply hnr
    have hw : 0 < g.w := by
      have h3 := llh_le_h g hgv
      have h4 := hgv.2.1
      omega
    have hle : q1 ≤ q1 * g.w := Nat.le_mul_of_pos_right q1 hw
    have h5 := hgv.1
    have h6 := hgv.2.1
    simp only [Spiht.mpos] at hm
    omega
  | succ M ih =>
    intro q1 q2 hm h1 h2 hnr
    rw [count_flatMap']
    have hstep : ∀ ρ ∈ Spiht.fertileRoots g,
        Multiset.count ((q1, q2) : Nat × Nat)
            (↑(Spiht.descendants g ρ.1 ρ.2) : Multiset (Nat × Nat)) =
          (if Spiht.parentF g (q1, q2) = ρ then 1 else 0) +
            Multiset.count (Spiht.parentF g (q1, q2))
              (↑(Spiht.descendants g ρ.1 ρ.2) : Multiset (Nat × Nat)) :=
      fun ρ _ => count_desc_eq g hgv q1 q2 h1 h2 hnr ρ
    rw [List.map_congr_left hstep, sum_map_add']
    rw [← count_eq_sum_ind (Spiht.parentF g (q1, q2)) (Spiht.fertileRoots g)]
    rw [← count_flatMap']
    have hpi := parentF_inrange g hgv q1 q2 h1 h2 hnr
    have hqchild := parentF_children g hgv q1 q2 h1 h2 hnr
    by_cases hroot : (Spiht.parentF g (q1, q2)).1 < g.llh ∧ (Spiht.parentF g (q1, q2)).2 < g.llw
    · have hfert : Multiset.count (Spiht.parentF g (q1, q2))
          (↑(Spiht.fertileRoots g) : Multiset (Nat × Nat)) = 1 := by
        unfold Spiht.fertileRoots
        rw [count_filter']
        have hne2 : Spiht.children g (Spiht.parentF g (q1, q2)).1
            (Spiht.parentF g (q1, q2)).2 ≠ [] := by
          intro hnil
          rw [hnil] at hqchild
          exact List.not_mem_nil _ hqchild
        have hpne : (!(Spiht.children g (Spiht.parentF g (q1, q2)).1
            (Spiht.parentF g (q1, q2)).2).isEmpty) = true := by
          cases hcl : Spiht.children g (Spiht.parentF g (q1, q2)).1
            (Spiht.parentF g (q1, q2)).2 with
          | nil => exact absurd hcl hne2
          | cons y ys => rfl
        rw [if_pos hpne]
        unfold Spiht.rootPlane
        have : Spiht.parentF g (q1, q2) =
            ((Spiht.parentF g (q1, q2)).1, (Spiht.parentF g (q1, q2)).2) := rfl
        rw [this, count_grid]
        rw [if_pos hroot]
      have hzero : Multiset.count (Spiht.parentF g (q1, q2))
          (↑((Spiht.fertileRoots g).flatMap (fun ρ => Spiht.descendants g ρ.1 ρ.2)) :
            Multiset (Nat × Nat)) = 0 := by
        rw [Multiset.count_eq_zero]
        intro hmem
        rw [Multiset.mem_coe, List.mem_flatMap] at hmem
        obtain ⟨ρ, _, hd⟩ := hmem
        exact desc_no_root g hgv ρ _ hd hroot
      omega
    · have hfert : Multiset.count (Spiht.parentF g (q1, q2))
          (↑(Spiht.fertileRoots g) : Multiset (Nat × Nat)) = 0 := by
        rw [Multiset.count_eq_zero]
        intro hmem
        rw [Multiset.mem_coe] at hmem
        unfold Spiht.fertileRoots at hmem
        have := List.mem_of_mem_filter hmem
        rw [Spiht.rootPlane] at this
        exact hroot ((mem_grid g.llh g.llw _).mp this)
      have hind := ih (Spiht.parentF g (q1, q2)).1 (Spiht.parentF g (q1, q2)).2
        (by
          have := hpi.2.2
          simp only [Spiht.mpos] at hm this ⊢
          omega)
        hpi.1 hpi.2.1 hroot
      have : ((Spiht.parentF g (q1, q2)).1, (Spiht.parentF g (q1, q2)).2) =
          Spiht.parentF g (q1, q2) := rfl
      rw [this] at hind
      omega

/-- The plane-level partition: the root subband together with the descendant
sets of the fertile roots covers every position exactly once. -/
theorem plane_partition (g : Spiht.Geom) (hgv : Spiht.GV g) (q1 q2 : Nat) :
    Multiset.count ((q1, q2) : Nat × Nat) (↑(Spiht.rootPlane g) : Multiset (Nat × Nat)) +
      Multiset.count ((q1, q2) : Nat × Nat)
        (↑((Spiht.fertileRoots g).flatMap (fun ρ => Spiht.descendants g ρ.1 ρ.2)) :
          Multiset (Nat × Nat)) =
      Multiset.count ((q1, q2) : Nat × Nat) (↑(Spiht.allPlane g) : Multiset (Nat × Nat)) := by
  have hle := llh_le_h g hgv
  rw [show Spiht.allPlane g = Spiht.gridList g.h g.w from rfl, count_grid]
  rw [show Spiht.rootPlane g = Spiht.gridList g.llh g.llw from rfl, count_grid]
  by_cases hin : q1 < g.h ∧ q2 < g.w
  · by_cases hr : q1 < g.llh ∧ q2 < g.llw
    · have hz : Multiset.count ((q1, q2) : Nat × Nat)
          (↑((Spiht.fertileRoots g).flatMap (fun ρ => Spiht.descendants g ρ.1 ρ.2)) :
            Multiset (Nat × Nat)) = 0 := by
        rw [Multiset.count_eq_zero]
        intro hmem
        rw [Multiset.mem_coe, List.mem_flatMap] at hmem
        obtain ⟨ρ, _, hd⟩ := hmem
        exact desc_no_root g hgv ρ _ hd hr
      rw [hz, if_pos hr, if_pos hin]
    · rw [count_fertile_desc g hgv (Spiht.mpos g (q1, q2)) q1 q2 le_rfl hin.1 hin.2 hr,
        if_neg hr, if_pos hin]
  · have hnr : ¬(q1 < g.llh ∧ q2 < g.llw) := by omega
    have hz : Multiset.count ((q1, q2) : Nat × Nat)
        (↑((Spiht.fertileRoots g).flatMap (fun ρ => Spiht.descendants g ρ.1 ρ.2)) :
          Multiset (Nat × Nat)) = 0 := by
      rw [Multiset.count_eq_zero]
      intro hmem
      rw [Multiset.mem_coe, List.mem_flatMap] at hmem
      obtain ⟨ρ, _, hd⟩ := hmem
      have := mem_descendants g hgv ρ.1 ρ.2 _ hd
      exact hin ⟨this.1, this.2.1⟩
    rw [hz, if_neg hnr, if_neg hin]

theorem filter_flatMap' {α β : Type} (l : List α) (f : α → List β) (p : β → Bool) :
    (l.flatMap f).filter p = l.flatMap (fun a => (f a).filter p) := by
  induction l with
  | nil => rfl
  | cons x xs ih => simp [List.flatMap_cons, List.filter_append, ih]

theorem count_chanMap (g : Spiht.Geom) (k k2 : Nat) (a b : Nat) (l : List (Nat × Nat)) :
    Multiset.count ((k, a, b) : Spiht.Pos)
        (↑(l.map (fun q => ((k2, q.1, q.2) : Spiht.Pos))) : Multiset Spiht.Pos) =
      if k = k2 then Multiset.count ((a, b) : Nat × Nat) (↑l : Multiset (Nat × Nat)) else 0 := by
  induction l with
  | nil => simp
  | cons x xs ih =>
    simp only [List.map_cons, ← Multiset.cons_coe, Multiset.count_cons, ih]
    have : (((k, a, b) : Spiht.Pos) = (k2, x.1, x.2)) ↔ (k = k2 ∧ ((a, b) : Nat × Nat) = x) := by
      obtain ⟨x1, x2⟩ := x
      constructor
      · intro hp
        have e1 := congrArg (fun z => z.1) hp
        have e2 := congrArg (fun z => z.2.1) hp
        have e3 := congrArg (fun z => z.2.2) hp
        simp only at e1 e2 e3
        subst e1
        subst e2
        subst e3
        exact ⟨rfl, rfl⟩
      · rintro ⟨hk, hx⟩
        subst hk
        have e1 := congrArg Prod.fst hx
        have e2 := congrArg Prod.snd hx
        simp only at e1 e2
        subst e1
        subst e2
        rfl
    rw [if_congr this rfl rfl]
    split_ifs with hA hB <;> simp_all

theorem sum_range_ind (n : Nat) (k : Nat) (A : Nat) :
    ((List.range n).map (fun j => if k = j then A else 0)).sum = if k < n then A else 0 := by
  induction n with
  | zero => simp
  | succ m ih =>
    rw [List.range_succ, List.map_append, List.sum_append, ih]
    simp only [List.map_cons, List.map_nil, List.sum_cons, List.sum_nil]
    split_ifs <;> omega

theorem initLip_eq (g : Spiht.Geom) :
    Spiht.initLip g =
      (List.range g.c).flatMap
        (fun k => (Spiht.rootPlane g).map (fun q => ((k, q.1, q.2) : Spiht.Pos))) := by
  unfold Spiht.initLip Spiht.rootPlane Spiht.gridList
  apply flatMap_congr'
  intro k _
  rw [List.map_flatMap]
  apply flatMap_congr'
  intro r _
  rw [List.map_map]
  rfl

theorem flatMap_assoc' {α β γ : Type} (l : List α) (f : α → List β) (g2 : β → List γ) :
    (l.flatMap f).flatMap g2 = l.flatMap (fun a => (f a).flatMap g2) := by
  induction l with
  | nil => rfl
  | cons x xs ih => simp [List.flatMap_cons, List.flatMap_append, ih]

theorem initLisCov_eq (g : Spiht.Geom) :
    (Spiht.initLis g).flatMap (Spiht.covP g) =
      (List.range g.c).flatMap
        (fun k => ((Spiht.fertileRoots g).flatMap (fun ρ => Spiht.descendants g ρ.1 ρ.2)).map
          (fun q => ((k, q.1, q.2) : Spiht.Pos))) := by
  unfold Spiht.initLis
  rw [List.flatMap_map]
  rw [initLip_eq, filter_flatMap']
  rw [flatMap_assoc']
  apply flatMap_congr'
  intro k _
  rw [List.filter_map]
  have hpred : ∀ q ∈ Spiht.rootPlane g,
      ((fun p => !(Spiht.children g p.2.1 p.2.2).isEmpty) ∘
        (fun q => ((k, q.1, q.2) : Spiht.Pos))) q =
        (fun q => !(Spiht.children g q.1 q.2).isEmpty) q := fun q _ => rfl
  rw [List.filter_congr hpred]
  rw [List.map_flatMap, List.flatMap_map]
  rfl

theorem count_allPos (g : Spiht.Geom) (k a b : Nat) :
    Multiset.count ((k, a, b) : Spiht.Pos) (↑(Spiht.allPos g) : Multiset Spiht.Pos) =
      if k < g.c ∧ a < g.h ∧ b < g.w then 1 else 0 := by
  unfold Spiht.allPos
  rw [count_flatMap']
  have hc : ∀ j ∈ List.range g.c,
      Multiset.count ((k, a, b) : Spiht.Pos)
          (↑((Spiht.allPlane g).map (fun q => ((j, q.1, q.2) : Spiht.Pos))) :
            Multiset Spiht.Pos) =
        if k = j then Multiset.count ((a, b) : Nat × Nat)
          (↑(Spiht.allPlane g) : Multiset (Nat × Nat)) else 0 :=
    fun j _ => count_chanMap g k j a b (Spiht.allPlane g)
  rw [List.map_congr_left hc, sum_range_ind]
  rw [show Spiht.allPlane g = Spiht.gridList g.h g.w from rfl, count_grid]
  split_ifs <;> omega

/-- The initial engine state accounts for every coefficient position exactly
once: LIP holds the roots and the initial type-A LIS entries cover all
remaining positions. -/
theorem init_partition {σ : Type} (g : Spiht.Geom) (hgv : Spiht.GV g) (s0 : σ) :
    Spiht.stMul g (Spiht.initSt g s0) = (↑(Spiht.allPos g) : Multiset Spiht.Pos) := by
  refine Multiset.ext.mpr fun p => ?_
  obtain ⟨k, a, b⟩ := p
  unfold Spiht.stMul Spiht.initSt
  simp only [Multiset.count_add]
  rw [count_allPos]
  rw [show (([] : List Spiht.Pos) : Multiset Spiht.Pos) = 0 from rfl]
  rw [Multiset.count_zero]
  rw [initLip_eq, initLisCov_eq]
  rw [count_flatMap', count_flatMap']
  have h1 : ∀ j ∈ List.range g.c,
      Multiset.count ((k, a, b) : Spiht.Pos)
          (↑((Spiht.rootPlane g).map (fun q => ((j, q.1, q.2) : Spiht.Pos))) :
            Multiset Spiht.Pos) =
        if k = j then Multiset.count ((a, b) : Nat × Nat)
          (↑(Spiht.rootPlane g) : Multiset (Nat × Nat)) else 0 :=
    fun j _ => count_chanMap g k j a b _
  have h2 : ∀ j ∈ List.range g.c,
      Multiset.count ((k, a, b) : Spiht.Pos)
          (↑(((Spiht.fertileRoots g).flatMap (fun ρ => Spiht.descendants g ρ.1 ρ.2)).map
            (fun q => ((j, q.1, q.2) : Spiht.Pos))) : Multiset Spiht.Pos) =
        if k = j then Multiset.count ((a, b) : Nat × Nat)
          (↑((Spiht.fertileRoots g).flatMap (fun ρ => Spiht.descendants g ρ.1 ρ.2)) :
            Multiset (Nat × Nat)) else 0 :=
    fun j _ => count_chanMap g k j a b _
  rw [List.map_congr_left h1, List.map_congr_left h2, sum_range_ind, sum_range_ind]
  have hpp := plane_partition g hgv a b
  unfold Spiht.allPlane at hpp
  rw [count_grid] at hpp
  by_cases hin : a < g.h ∧ b < g.w
  · rw [if_pos hin] at hpp
    split_ifs with hA hB <;> omega
  · rw [if_neg hin] at hpp
    split_ifs with hA hB <;> omega

theorem coe_flatMap_cons {α β : Type} (l : List α) (f : α → List β) (e : α → β) :
    (↑(l.flatMap (fun q => e q :: f q)) : Multiset β) =
      ↑(l.map e) + (↑(l.flatMap f) : Multiset β) := by
  induction l with
  | nil => rfl
  | cons x xs ih =>
    simp only [List.flatMap_cons, List.map_cons, ← Multiset.coe_add, ← Multiset.cons_coe, ih]
    rw [Multiset.cons_add, Multiset.cons_add]
    congr 1
    rw [add_left_comm]

/-- A type-A cover splits into the direct children plus the type-B cover. -/
theorem covP_split (g : Spiht.Geom) (hgv : Spiht.GV g) (p : Spiht.Pos) :
    (↑(Spiht.covP g (p, true)) : Multiset Spiht.Pos) =
      ↑((Spiht.children g p.2.1 p.2.2).map (fun q => ((p.1, q.1, q.2) : Spiht.Pos))) +
        (↑(Spiht.covP g (p, false)) : Multiset Spiht.Pos) := by
  show (↑((Spiht.descendants g p.2.1 p.2.2).map (fun q => ((p.1, q.1, q.2) : Spiht.Pos))) :
      Multiset Spiht.Pos) = _
  rw [descendants_unfold g hgv, List.map_flatMap]
  have : ∀ q : Nat × Nat,
      ((q :: Spiht.descendants g q.1 q.2).map (fun s => ((p.1, s.1, s.2) : Spiht.Pos))) =
        ((p.1, q.1, q.2) : Spiht.Pos) ::
          (Spiht.descendants g q.1 q.2).map (fun s => ((p.1, s.1, s.2) : Spiht.Pos)) :=
    fun q => rfl
  rw [flatMap_congr' _ _ _ (fun q _ => this q)]
  rw [coe_flatMap_cons]
  congr 1
  show (↑((Spiht.children g p.2.1 p.2.2).flatMap
      (fun q => (Spiht.descendants g q.1 q.2).map (fun s => ((p.1, s.1, s.2) : Spiht.Pos)))) :
        Multiset Spiht.Pos) =
    (↑((Spiht.grandDesc g p.2.1 p.2.2).map fun q => ((p.1, q.1, q.2) : Spiht.Pos)) :
      Multiset Spiht.Pos)
  rw [Spiht.grandDesc, List.map_flatMap]

/-- A type-B cover splits into the type-A covers of the direct children. -/
theorem covP_B_split (g : Spiht.Geom) (p : Spiht.Pos) :
    (↑(Spiht.covP g (p, false)) : Multiset Spiht.Pos) =
      ↑(((Spiht.children g p.2.1 p.2.2).map
          (fun q => (((p.1, q.1, q.2) : Spiht.Pos), true))).flatMap (Spiht.covP g)) := by
  rw [List.flatMap_map]
  show (↑((Spiht.grandDesc g p.2.1 p.2.2).map fun q => ((p.1, q.1, q.2) : Spiht.Pos)) :
    Multiset Spiht.Pos) = _
  rw [Spiht.grandDesc, List.map_flatMap]
  rfl

theorem testPos_halted {σ : Type} (O : Spiht.Oracle σ) (n : Nat) (p : Spiht.Pos)
    (st : Spiht.St σ) (h : (Spiht.testPos O n p st).halted = false) : st.halted = false := by
  by_cases hh : st.halted
  · simp [Spiht.testPos, hh] at h
  · simpa using hh

theorem lipPass_halted {σ : Type} (O : Spiht.Oracle σ) (n : Nat) (pending : List Spiht.Pos)
    (st : Spiht.St σ) (h : (Spiht.lipPass O n pending st).halted = false) :
    st.halted = false := by
  induction pending generalizing st with
  | nil => exact h
  | cons p rest ih => exact testPos_halted O n p st (ih _ h)

theorem foldChildren_halted {σ : Type} (O : Spiht.Oracle σ) (n : Nat) (k : Nat)
    (l : List (Nat × Nat)) (st : Spiht.St σ)
    (h : (l.foldl (fun acc q => Spiht.testPos O n (k, q.1, q.2) acc) st).halted = false) :
    st.halted = false := by
  induction l generalizing st with
  | nil => exact h
  | cons q rest ih => exact testPos_halted O n (k, q.1, q.2) st (ih _ h)

theorem lisPass_halted {σ : Type} (g : Spiht.Geom) (O : Spiht.Oracle σ) (n : Nat)
    (fuel : Nat) (pending : List (Spiht.Pos × Bool)) (st : Spiht.St σ)
    (h : (Spiht.lisPass g O n fuel pending st).halted = false) : st.halted = false := by
  induction fuel generalizing pending st with
  | zero => simp [Spiht.lisPass] at h
  | succ f ih =>
    cases pending with
    | nil => exact h
    | cons e prest =>
      obtain ⟨p, isA⟩ := e
      by_cases hh : st.halted
      · simp [Spiht.lisPass, hh] at h
      · simpa using hh

theorem refinePass_halted {σ : Type} (O : Spiht.Oracle σ) (n : Nat)
    (pending : List Spiht.Pos) (st : Spiht.St σ)
    (h : (Spiht.refinePass O n pending st).halted = false) : st.halted = false := by
  induction pending generalizing st with
  | nil => exact h
  | cons p rest ih =>
    by_cases hh : st.halted
    · simp [Spiht.refinePass, hh] at h
    · simpa using hh

theorem planeStep_halted {σ : Type} (g : Spiht.Geom) (O : Spiht.Oracle σ) (n : Nat)
    (st : Spiht.St σ) (h : (Spiht.planeStep g O n st).halted = false) : st.halted = false := by
  unfold Spiht.planeStep at h
  have h3 := refinePass_halted O n _ _ h
  have h5 := lisPass_halted g O n _ _ _ h3
  have h7 := lipPass_halted O n _ _ h5
  exact h7

theorem stMul_lip_append {σ : Type} (g : Spiht.Geom) (st : Spiht.St σ) (p : Spiht.Pos)
    (s1 : σ) :
    Spiht.stMul g { st with s := s1, lip := st.lip ++ [p] } = Spiht.stMul g st + {p} := by
  unfold Spiht.stMul
  simp only
  rw [← Multiset.coe_add]
  rw [show (([p] : List Spiht.Pos) : Multiset Spiht.Pos) = {p} from rfl]
  abel

theorem stMul_lsp_append {σ : Type} (g : Spiht.Geom) (st : Spiht.St σ) (p : Spiht.Pos)
    (s1 : σ) :
    Spiht.stMul g { st with s := s1, lsp := st.lsp ++ [p] } = Spiht.stMul g st + {p} := by
  unfold Spiht.stMul
  simp only
  rw [← Multiset.coe_add]
  rw [show (([p] : List Spiht.Pos) : Multiset Spiht.Pos) = {p} from rfl]
  abel

theorem stMul_lis_append {σ : Type} (g : Spiht.Geom) (st : Spiht.St σ)
    (e : Spiht.Pos × Bool) (s1 : σ) :
    Spiht.stMul g { st with s := s1, lis := st.lis ++ [e] } =
      Spiht.stMul g st + ↑(Spiht.covP g e) := by
  unfold Spiht.stMul
  simp only
  rw [List.flatMap_append, ← Multiset.coe_add]
  simp only [List.flatMap_cons, List.flatMap_nil, List.append_nil]
  abel

theorem stMul_keep {σ : Type} (g : Spiht.Geom) (st : Spiht.St σ) (x : Bool) (s1 : σ) :
    Spiht.stMul g { st with s := s1, halted := x } = Spiht.stMul g st := rfl

theorem stMul_s {σ : Type} (g : Spiht.Geom) (st : Spiht.St σ) (s1 : σ) :
    Spiht.stMul g { st with s := s1 } = Spiht.stMul g st := rfl

theorem testPos_mul {σ : Type} (g : Spiht.Geom) (O : Spiht.Oracle σ) (n : Nat) (p : Spiht.Pos)
    (st : Spiht.St σ) :
    Spiht.stMul g (Spiht.testPos O n p st) ≤ Spiht.stMul g st + {p} ∧
      ((Spiht.testPos O n p st).halted = false →
        Spiht.stMul g (Spiht.testPos O n p st) = Spiht.stMul g st + {p}) := by
  by_cases hh : st.halted
  · rw [show Spiht.testPos O n p st = st by simp [Spiht.testPos, hh]]
    exact ⟨le_add_right le_rfl, fun hf => absurd hh (by simp [hf])⟩
  · simp only [Spiht.testPos, if_neg hh]
    cases hsig : O.sigBit n p st.s with
    | none =>
      constructor
      · exact le_of_eq (stMul_keep g st true st.s) |>.trans (le_add_right le_rfl)
      · intro hf
        simp at hf
    | some v =>
      obtain ⟨b, s1⟩ := v
      cases b with
      | false =>
        simp only [Bool.false_eq_true, if_false]
        rw [stMul_lip_append]
        exact ⟨le_rfl, fun _ => rfl⟩
      | true =>
        simp only [if_true]
        cases hsign : O.signBit n p s1 with
        | none =>
          constructor
          · exact le_of_eq rfl |>.trans (le_add_right le_rfl)
          · intro hf
            simp at hf
        | some v2 =>
          obtain ⟨b2, s2⟩ := v2
          rw [stMul_lsp_append]
          exact ⟨le_rfl, fun _ => rfl⟩

theorem lipPass_mul {σ : Type} (g : Spiht.Geom) (O : Spiht.Oracle σ) (n : Nat)
    (pending : List Spiht.Pos) (st : Spiht.St σ) :
    Spiht.stMul g (Spiht.lipPass O n pending st) ≤ Spiht.stMul g st + ↑pending ∧
      ((Spiht.lipPass O n pending st).halted = false →
        Spiht.stMul g (Spiht.lipPass O n pending st) = Spiht.stMul g st + ↑pending) := by
  induction pending generalizing st with
  | nil => simp [Spiht.lipPass]
  | cons p rest ih =>
    obtain ⟨ih1, ih2⟩ := ih (Spiht.testPos O n p st)
    obtain ⟨t1, t2⟩ := testPos_mul g O n p st
    have hlist : (↑(p :: rest) : Multiset Spiht.Pos) = {p} + ↑rest := by
      rw [← Multiset.cons_coe, Multiset.singleton_add]
    constructor
    · calc Spiht.stMul g (Spiht.lipPass O n (p :: rest) st) ≤
          Spiht.stMul g (Spiht.testPos O n p st) + ↑rest := ih1
        _ ≤ (Spiht.stMul g st + {p}) + ↑rest := add_le_add_right t1 _
        _ = Spiht.stMul g st + ↑(p :: rest) := by rw [hlist]; abel
    · intro hf
      have hf1 : (Spiht.testPos O n p st).halted = false :=
        lipPass_halted O n rest _ hf
      calc Spiht.stMul g (Spiht.lipPass O n (p :: rest) st) =
          Spiht.stMul g (Spiht.testPos O n p st) + ↑rest := ih2 hf
        _ = (Spiht.stMul g st + {p}) + ↑rest := by rw [t2 hf1]
        _ = Spiht.stMul g st + ↑(p :: rest) := by rw [hlist]; abel

theorem foldChildren_mul {σ : Type} (g : Spiht.Geom) (O : Spiht.Oracle σ) (n : Nat) (k : Nat)
    (l : List (Nat × Nat)) (st : Spiht.St σ) :
    Spiht.stMul g (l.foldl (fun acc q => Spiht.testPos O n (k, q.1, q.2) acc) st) ≤
        Spiht.stMul g st + ↑(l.map (fun q => ((k, q.1, q.2) : Spiht.Pos))) ∧
      ((l.foldl (fun acc q => Spiht.testPos O n (k, q.1, q.2) acc) st).halted = false →
        Spiht.stMul g (l.foldl (fun acc q => Spiht.testPos O n (k, q.1, q.2) acc) st) =
          Spiht.stMul g st + ↑(l.map (fun q => ((k, q.1, q.2) : Spiht.Pos)))) := by
  induction l generalizing st with
  | nil => simp
  | cons q rest ih =>
    obtain ⟨ih1, ih2⟩ := ih (Spiht.testPos O n (k, q.1, q.2) st)
    obtain ⟨t1, t2⟩ := testPos_mul g O n (k, q.1, q.2) st
    have hlist : (↑((q :: rest).map (fun s => ((k, s.1, s.2) : Spiht.Pos))) :
        Multiset Spiht.Pos) = {((k, q.1, q.2) : Spiht.Pos)} +
          ↑(rest.map (fun s => ((k, s.1, s.2) : Spiht.Pos))) := by
      rw [List.map_cons, ← Multiset.cons_coe, Multiset.singleton_add]
    constructor
    · calc Spiht.stMul g _ ≤
          Spiht.stMul g (Spiht.testPos O n (k, q.1, q.2) st) +
            ↑(rest.map (fun s => ((k, s.1, s.2) : Spiht.Pos))) := ih1
        _ ≤ (Spiht.stMul g st + {((k, q.1, q.2) : Spiht.Pos)}) +
            ↑(rest.map (fun s => ((k, s.1, s.2) : Spiht.Pos))) := add_le_add_right t1 _
        _ = _ := by rw [hlist]; abel
    · intro hf
      have hf1 : (Spiht.testPos O n (k, q.1, q.2) st).halted = false :=
        foldChildren_halted O n k rest _ hf
      calc Spiht.stMul g _ =
          Spiht.stMul g (Spiht.testPos O n (k, q.1, q.2) st) +
            ↑(rest.map (fun s => ((k, s.1, s.2) : Spiht.Pos))) := ih2 hf
        _ = (Spiht.stMul g st + {((k, q.1, q.2) : Spiht.Pos)}) +
            ↑(rest.map (fun s => ((k, s.1, s.2) : Spiht.Pos))) := by rw [t2 hf1]
        _ = _ := by rw [hlist]; abel

theorem lisPass_mul {σ : Type} (g : Spiht.Geom) (hgv : Spiht.GV g) (O : Spiht.Oracle σ)
    (n : Nat) (fuel : Nat) (pending : List (Spiht.Pos × Bool)) (st : Spiht.St σ) :
    Spiht.stMul g (Spiht.lisPass g O n fuel pending st) ≤
        Spiht.stMul g st + ↑(pending.flatMap (Spiht.covP g)) ∧
      ((Spiht.lisPass g O n fuel pending st).halted = false →
        Spiht.stMul g (Spiht.lisPass g O n fuel pending st) =
          Spiht.stMul g st + ↑(pending.flatMap (Spiht.covP g))) := by
  induction fuel generalizing pending st with
  | zero =>
    constructor
    · exact le_add_right le_rfl
    · intro hf
      simp [Spiht.lisPass] at hf
  | succ f ih =>
    cases pending with
    | nil => simp [Spiht.lisPass]
    | cons e prest =>
      obtain ⟨p, isA⟩ := e
      by_cases hh : st.halted
      · rw [show Spiht.lisPass g O n (f + 1) ((p, isA) :: prest) st = st by
          simp [Spiht.lisPass, hh]]
        exact ⟨le_add_right le_rfl, fun hf => absurd hh (by simp [hf])⟩
      · simp only [Spiht.lisPass, if_neg hh]
        have hcons : (↑(((p, isA) :: prest).flatMap (Spiht.covP g)) : Multiset Spiht.Pos) =
            ↑(Spiht.covP g (p, isA)) + ↑(prest.flatMap (Spiht.covP g)) := by
          rw [List.flatMap_cons, ← Multiset.coe_add]
        cases hset : O.setBit n p isA st.s with
        | none =>
          constructor
          · exact le_add_right le_rfl
          · intro hf
            simp at hf
        | some v =>
          obtain ⟨b, s1⟩ := v
          cases b with
          | false =>
            simp only [Bool.false_eq_true, if_false]
            obtain ⟨ih1, ih2⟩ := ih prest { st with s := s1, lis := st.lis ++ [(p, isA)] }
            rw [stMul_lis_append] at ih1 ih2
            constructor
            · refine ih1.trans (le_of_eq ?_)
              rw [hcons]
              abel
            · intro hf
              rw [ih2 hf, hcons]
              abel
          | true =>
            simp only [if_true]
            cases isA with
            | true =>
              have hsplit := covP_split g hgv p
              obtain ⟨f1, f2⟩ := foldChildren_mul g O n p.1 (Spiht.children g p.2.1 p.2.2)
                { st with s := s1 }
              by_cases hgd : (Spiht.grandDesc g p.2.1 p.2.2).isEmpty = true
              · rw [if_pos hgd]
                have hgd0 : (↑(Spiht.covP g (p, false)) : Multiset Spiht.Pos) = 0 := by
                  unfold Spiht.covP
                  simp only [if_neg (by simp : ¬(false = true))]
                  rw [List.isEmpty_iff] at hgd
                  rw [show Spiht.grandDesc g p.2.1 p.2.2 = [] from hgd]
                  rfl
                obtain ⟨ih1, ih2⟩ := ih prest ((Spiht.children g p.2.1 p.2.2).foldl
                  (fun acc q => Spiht.testPos O n (p.1, q.1, q.2) acc) { st with s := s1 })
                constructor
                · refine ih1.trans ?_
                  refine (add_le_add_right f1 _).trans (le_of_eq ?_)
                  rw [hcons, hsplit, hgd0, stMul_s]
                  abel
                · intro hf
                  have e2 := f2 (lisPass_halted g O n f prest _ hf)
                  have e1 := ih2 hf
                  rw [e2] at e1
                  refine e1.trans ?_
                  rw [hcons, hsplit, hgd0, stMul_s]
                  abel
              · rw [if_neg hgd]
                obtain ⟨ih1, ih2⟩ := ih (prest ++ [(p, false)])
                  ((Spiht.children g p.2.1 p.2.2).foldl
                    (fun acc q => Spiht.testPos O n (p.1, q.1, q.2) acc) { st with s := s1 })
                have happ : (↑((prest ++ [(p, false)]).flatMap (Spiht.covP g)) :
                    Multiset Spiht.Pos) =
                    ↑(prest.flatMap (Spiht.covP g)) + ↑(Spiht.covP g (p, false)) := by
                  rw [List.flatMap_append, ← Multiset.coe_add]
                  simp only [List.flatMap_cons, List.flatMap_nil, List.append_nil]
                constructor
                · refine ih1.trans ?_
                  refine (add_le_add_right f1 _).trans (le_of_eq ?_)
                  rw [happ, hcons, hsplit, stMul_s]
                  abel
                · intro hf
                  have e2 := f2 (lisPass_halted g O n f _ _ hf)
                  have e1 := ih2 hf
                  rw [e2] at e1
                  refine e1.trans ?_
                  rw [happ, hcons, hsplit, stMul_s]
                  abel
            | false =>
              have hsplit := covP_B_split g p
              obtain ⟨ih1, ih2⟩ := ih (prest ++ (Spiht.children g p.2.1 p.2.2).map
                (fun q => (((p.1, q.1, q.2) : Spiht.Pos), true))) { st with s := s1 }
              have happ : (↑((prest ++ (Spiht.children g p.2.1 p.2.2).map
                  (fun q => (((p.1, q.1, q.2) : Spiht.Pos), true))).flatMap (Spiht.covP g)) :
                  Multiset Spiht.Pos) =
                  ↑(prest.flatMap (Spiht.covP g)) + ↑(Spiht.covP g (p, false)) := by
                rw [List.flatMap_append, ← Multiset.coe_add, hsplit]
              constructor
              · refine ih1.trans (le_of_eq ?_)
                rw [happ, hcons, stMul_s]
                abel
              · intro hf
                refine (ih2 hf).trans ?_
                rw [happ, hcons, stMul_s]
                abel

theorem refinePass_mul {σ : Type} (g : Spiht.Geom) (O : Spiht.Oracle σ) (n : Nat)
    (pending : List Spiht.Pos) (st : Spiht.St σ) :
    Spiht.stMul g (Spiht.refinePass O n pending st) = Spiht.stMul g st := by
  induction pending generalizing st with
  | nil => rfl
  | cons p rest ih =>
    by_cases hh : st.halted
    · simp [Spiht.refinePass, hh]
    · simp only [Spiht.refinePass, if_neg hh]
      cases hr : O.refBit n p st.s with
      | none => rfl
      | some v => rw [ih]; rfl

theorem stMul_clear_lip {σ : Type} (g : Spiht.Geom) (st : Spiht.St σ) :
    Spiht.stMul g { st with lip := [] } + ↑st.lip = Spiht.stMul g st := by
  unfold Spiht.stMul
  simp only
  rw [show ((([] : List Spiht.Pos)) : Multiset Spiht.Pos) = 0 from rfl]
  abel

theorem stMul_clear_lis {σ : Type} (g : Spiht.Geom) (st : Spiht.St σ) :
    Spiht.stMul g { st with lis := [] } + ↑(st.lis.flatMap (Spiht.covP g)) =
      Spiht.stMul g st := by
  unfold Spiht.stMul
  simp only [List.flatMap_nil]
  rw [show ((([] : List Spiht.Pos)) : Multiset Spiht.Pos) = 0 from rfl]
  abel

theorem planeStep_mul {σ : Type} (g : Spiht.Geom) (hgv : Spiht.GV g) (O : Spiht.Oracle σ)
    (n : Nat) (st : Spiht.St σ) :
    Spiht.stMul g (Spiht.planeStep g O n st) ≤ Spiht.stMul g st ∧
      ((Spiht.planeStep g O n st).halted = false →
        Spiht.stMul g (Spiht.planeStep g O n st) = Spiht.stMul g st) := by
  unfold Spiht.planeStep
  obtain ⟨l1, l2⟩ := lipPass_mul g O n st.lip { st with lip := [] }
  obtain ⟨m1, m2⟩ := lisPass_mul g hgv O n
    (Spiht.lisFuel g (Spiht.lipPass O n st.lip { st with lip := [] }).lis)
    (Spiht.lipPass O n st.lip { st with lip := [] }).lis
    { Spiht.lipPass O n st.lip { st with lip := [] } with lis := [] }
  rw [refinePass_mul]
  have hclear2 := stMul_clear_lis g (Spiht.lipPass O n st.lip { st with lip := [] })
  constructor
  · refine m1.trans ?_
    rw [hclear2]
    refine l1.trans (le_of_eq ?_)
    rw [stMul_clear_lip]
  · intro hf
    have hfL := refinePass_halted O n _ _ hf
    have hfP := lisPass_halted g O n _ _ _ hfL
    have hfP2 : (Spiht.lipPass O n st.lip { st with lip := [] }).halted = false := hfP
    rw [m2 hfL, hclear2, l2 hfP2, stMul_clear_lip]

theorem planesRun_halted {σ : Type} (g : Spiht.Geom) (O : Spiht.Oracle σ) (i : Nat)
    (st : Spiht.St σ) (h : (Spiht.planesRun g O i st).halted = false) : st.halted = false := by
  induction i generalizing st with
  | zero => exact h
  | succ j ih => exact planeStep_halted g O j st (ih _ h)

theorem planesRun_mul {σ : Type} (g : Spiht.Geom) (hgv : Spiht.GV g) (O : Spiht.Oracle σ)
    (i : Nat) (st : Spiht.St σ) :
    Spiht.stMul g (Spiht.planesRun g O i st) ≤ Spiht.stMul g st ∧
      ((Spiht.planesRun g O i st).halted = false →
        Spiht.stMul g (Spiht.planesRun g O i st) = Spiht.stMul g st) := by
  induction i generalizing st with
  | zero => exact ⟨le_rfl, fun _ => rfl⟩
  | succ j ih =>
    obtain ⟨p1, p2⟩ := planeStep_mul g hgv O j st
    obtain ⟨i1, i2⟩ := ih (Spiht.planeStep g O j st)
    constructor
    · exact i1.trans p1
    · intro hf
      have hf1 : (Spiht.planesRun g O j (Spiht.planeStep g O j st)).halted = false := hf
      show Spiht.stMul g (Spiht.planesRun g O j (Spiht.planeStep g O j st)) = _
      rw [i2 hf1, p2 (planesRun_halted g O j _ hf1)]

/-! ## Decoder value bounds (claim C9 groundwork) -/

theorem mem_allPos (g : Spiht.Geom) (p : Spiht.Pos) :
    p ∈ Spiht.allPos g ↔ p.1 < g.c ∧ p.2.1 < g.h ∧ p.2.2 < g.w := by
  obtain ⟨k, a, b⟩ := p
  have h := count_allPos g k a b
  constructor
  · intro hm
    have hpos : 0 < Multiset.count ((k, a, b) : Spiht.Pos)
        (↑(Spiht.allPos g) : Multiset Spiht.Pos) :=
      Multiset.count_pos.mpr (Multiset.mem_coe.mpr hm)
    rw [h] at hpos
    split_ifs at hpos with hcond
    · exact hcond
    · omega
  · intro hcond
    have hpos : 0 < Multiset.count ((k, a, b) : Spiht.Pos)
        (↑(Spiht.allPos g) : Multiset Spiht.Pos) := by
      rw [h, if_pos hcond]
      omega
    exact Multiset.mem_coe.mp (Multiset.count_pos.mp hpos)

theorem addMulLt_inj (A x y m m2 : Nat) (hm : m < A) (hm2 : m2 < A)
    (h : x * A + m = y * A + m2) : x = y ∧ m = m2 := by
  rcases Nat.lt_trichotomy x y with hlt | heq | hgt
  · exfalso
    have h1 : (x + 1) * A ≤ y * A := mul_le_mul_right' hlt A
    have h2 : (x + 1) * A = x * A + A := by ring
    omega
  · subst heq
    omega
  · exfalso
    have h1 : (y + 1) * A ≤ x * A := mul_le_mul_right' hgt A
    have h2 : (y + 1) * A = y * A + A := by ring
    omega

/-- The flat index is injective on in-range positions. -/
theorem idx_inj (g : Spiht.Geom) (p q : Spiht.Pos)
    (hp : p ∈ Spiht.allPos g) (hq : q ∈ Spiht.allPos g)
    (h : Spiht.idx g p = Spiht.idx g q) : p = q := by
  obtain ⟨k, a, b⟩ := p
  obtain ⟨k2, a2, b2⟩ := q
  rw [mem_allPos] at hp hq
  obtain ⟨hk, ha, hb⟩ := hp
  obtain ⟨hk2, ha2, hb2⟩ := hq
  simp only [Spiht.idx] at h
  have hmw : a * g.w + b < g.h * g.w := by
    have := mpos_lt_of_inrange g a b ha hb
    simpa [Spiht.mpos] using this
  have hmw2 : a2 * g.w + b2 < g.h * g.w := by
    have := mpos_lt_of_inrange g a2 b2 ha2 hb2
    simpa [Spiht.mpos] using this
  have h12 := addMulLt_inj (g.h * g.w) k k2 (a * g.w + b) (a2 * g.w + b2) hmw hmw2 (by omega)
  obtain ⟨hkk, hm'⟩ := h12
  have h34 := addMulLt_inj g.w a a2 b b2 hb hb2 hm'
  obtain ⟨haa, hbb⟩ := h34
  subst hkk
  subst haa
  subst hbb
  rfl

theorem count_allPos_le_one (g : Spiht.Geom) (p : Spiht.Pos) :
    Multiset.count p (↑(Spiht.allPos g) : Multiset Spiht.Pos) ≤ 1 := by
  obtain ⟨k, a, b⟩ := p
  rw [count_allPos]
  split_ifs <;> omega

/-- A position whose singleton is still accounted for beside the state is
in range and cannot already sit in LSP. -/
theorem avail_facts {σ : Type} (g : Spiht.Geom) (p : Spiht.Pos) (st : Spiht.St σ)
    (C : Multiset Spiht.Pos)
    (H1 : {p} + Spiht.stMul g st + C ≤ (↑(Spiht.allPos g) : Multiset Spiht.Pos)) :
    p ∈ Spiht.allPos g ∧ p ∉ st.lsp := by
  have hc := Multiset.count_le_of_le p H1
  rw [Multiset.count_add, Multiset.count_add, Multiset.count_singleton_self] at hc
  have hle := count_allPos_le_one g p
  constructor
  · have hpos : 0 < Multiset.count p (↑(Spiht.allPos g) : Multiset Spiht.Pos) := by omega
    exact Multiset.mem_coe.mp (Multiset.count_pos.mp hpos)
  · intro hmem
    have hpos : 0 < Multiset.count p ((st.lsp : List Spiht.Pos) : Multiset Spiht.Pos) :=
      Multiset.count_pos.mpr (Multiset.mem_coe.mpr hmem)
    have hsp : 1 ≤ Multiset.count p (Spiht.stMul g st) := by
      unfold Spiht.stMul
      rw [Multiset.count_add, Multiset.count_add]
      omega
    omega

theorem lsp_mem_allPos {σ : Type} (g : Spiht.Geom) (st : Spiht.St σ)
    (H1 : Spiht.stMul g st ≤ (↑(Spiht.allPos g) : Multiset Spiht.Pos)) :
    ∀ q ∈ st.lsp, q ∈ Spiht.allPos g := by
  intro q hq
  have hc := Multiset.count_le_of_le q H1
  have hpos : 0 < Multiset.count q ((st.lsp : List Spiht.Pos) : Multiset Spiht.Pos) :=
    Multiset.count_pos.mpr (Multiset.mem_coe.mpr hq)
  have hsp : 1 ≤ Multiset.count q (Spiht.stMul g st) := by
    unfold Spiht.stMul
    rw [Multiset.count_add, Multiset.count_add]
    omega
  have hall : 0 < Multiset.count q (↑(Spiht.allPos g) : Multiset Spiht.Pos) := by omega
  exact Multiset.mem_coe.mp (Multiset.count_pos.mp hall)

theorem lsp_nodup {σ : Type} (g : Spiht.Geom) (st : Spiht.St σ)
    (H1 : Spiht.stMul g st ≤ (↑(Spiht.allPos g) : Multiset Spiht.Pos)) :
    st.lsp.Nodup := by
  rw [← Multiset.coe_nodup, Multiset.nodup_iff_count_le_one]
  intro q
  have hc := Multiset.count_le_of_le q H1
  have hle := count_allPos_le_one g q
  have hsp : Multiset.count q ((st.lsp : List Spiht.Pos) : Multiset Spiht.Pos) ≤
      Multiset.count q (Spiht.stMul g st) := by
    unfold Spiht.stMul
    rw [Multiset.count_add, Multiset.count_add]
    omega
  omega

theorem lsp_idx_nodup {σ : Type} (g : Spiht.Geom) (st : Spiht.St σ)
    (H1 : Spiht.stMul g st ≤ (↑(Spiht.allPos g) : Multiset Spiht.Pos)) :
    (st.lsp.map (Spiht.idx g)).Nodup := by
  refine (lsp_nodup g st H1).map_on ?_
  intro x hx y hy hxy
  exact idx_inj g x y (lsp_mem_allPos g st H1 x hx) (lsp_mem_allPos g st H1 y hy) hxy

theorem getD_set_ne (l : List Int) (j i : Nat) (v : Int) (h : i ≠ j) :
    (l.set j v).getD i 0 = l.getD i 0 := by
  rw [List.getD_eq_getElem?_getD, List.getElem?_set_ne (by omega),
    ← List.getD_eq_getElem?_getD]

theorem getD_set_or (l : List Int) (j i : Nat) (v : Int) :
    (l.set j v).getD i 0 = l.getD i 0 ∨ (l.set j v).getD i 0 = v := by
  by_cases hij : i = j
  · subst hij
    by_cases hlen : i < l.length
    · right
      rw [List.getD_eq_getElem _ _ (by simpa using hlen)]
      simp
    · left
      rw [List.getD_eq_default _ _ (by simpa using (Nat.le_of_not_lt hlen)),
        List.getD_eq_default _ _ (Nat.le_of_not_lt hlen)]
  · exact .inl (getD_set_ne l j i v hij)

theorem sb_zero (mn n : Nat) : Spiht.SB mn n 0 :=
  ⟨Nat.zero_le _, Dvd.intro 0 rfl⟩

theorem sb_mono (mn n : Nat) (v : Int) (h : Spiht.SB mn (n + 1) v) : Spiht.SB mn n v := by
  obtain ⟨h1, h2⟩ := h
  constructor
  · have hp : 2 ^ n ≤ 2 ^ (n + 1) := Nat.pow_le_pow_right (by omega) (by omega)
    omega
  · exact dvd_trans (pow_dvd_pow 2 (Nat.le_succ n)) h2

theorem sb_pow (mn n : Nat) (v : Int) (hmn : n ≤ mn) (h : v.natAbs = 2 ^ n) :
    Spiht.SB mn n v := by
  constructor
  · rw [h]
    have h1 : 2 ^ (n + 1) ≤ 2 ^ (mn + 1) := Nat.pow_le_pow_right (by omega) (by omega)
    have h2 : 2 ^ (n + 1) = 2 * 2 ^ n := by rw [pow_succ]; ring
    omega
  · rw [h]

theorem refNatAbs (v : Int) (n : Nat) :
    (if v < 0 then v - 2 ^ n else v + 2 ^ n).natAbs = v.natAbs + 2 ^ n := by
  have hc : ((2 ^ n : Nat) : Int) = (2 : Int) ^ n := by push_cast; ring
  have hp : (0 : Int) < (2 : Int) ^ n := by positivity
  split_ifs with h <;> omega

theorem signNatAbs (b : Bool) (n : Nat) :
    (if b then -(2 ^ n : Int) else (2 ^ n : Int)).natAbs = 2 ^ n := by
  cases b <;> simp [Int.natAbs_pow]

theorem sortStep_refl (g : Spiht.Geom) (n : Nat) (L : List Spiht.Pos)
    (st : Spiht.St Spiht.DecS) (H2 : ∀ q ∈ L, q ∈ st.lsp) :
    Spiht.SortStep g n L st st :=
  ⟨H2, fun _ _ => rfl, fun _ => .inl rfl⟩

theorem sortStep_trans (g : Spiht.Geom) (n : Nat) (L : List Spiht.Pos)
    (st1 st2 st3 : Spiht.St Spiht.DecS)
    (h1 : Spiht.SortStep g n L st1 st2) (h2 : Spiht.SortStep g n L st2 st3) :
    Spiht.SortStep g n L st1 st3 := by
  obtain ⟨a1, b1, c1⟩ := h1
  obtain ⟨a2, b2, c2⟩ := h2
  refine ⟨a2, fun q hq => (b2 q hq).trans (b1 q hq), fun j => ?_⟩
  rcases c2 j with he | hv
  · rw [he]
    exact c1 j
  · exact .inr hv

theorem sortStep_cast (g : Spiht.Geom) (n : Nat) (L : List Spiht.Pos)
    (st0 st1 st2 : Spiht.St Spiht.DecS) (hs : st1.s.2 = st0.s.2)
    (h : Spiht.SortStep g n L st1 st2) : Spiht.SortStep g n L st0 st2 := by
  obtain ⟨a, b, c⟩ := h
  have hv : ∀ j, Spiht.slotD st1 j = Spiht.slotD st0 j := fun j => by
    unfold Spiht.slotD
    rw [hs]
  exact ⟨a, fun q hq => (b q hq).trans (hv _), fun j => (c j).imp (fun e => e.trans (hv j)) id⟩

/-- One decoder significance test: LSP-snapshot slots are untouched and any
written slot holds magnitude exactly `2^n`. -/
theorem dec_testPos_sort (g : Spiht.Geom) (n : Nat) (p : Spiht.Pos)
    (st : Spiht.St Spiht.DecS) (L : List Spiht.Pos) (C : Multiset Spiht.Pos)
    (H1 : {p} + Spiht.stMul g st + C ≤ (↑(Spiht.allPos g) : Multiset Spiht.Pos))
    (H2 : ∀ q ∈ L, q ∈ st.lsp) (HR : ∀ q ∈ L, q ∈ Spiht.allPos g) :
    Spiht.SortStep g n L st (Spiht.testPos (Spiht.decOracle g) n p st) := by
  obtain ⟨hpA, hpL⟩ := avail_facts g p st C H1
  obtain ⟨lip, lis, lsp, halted, stream, rec⟩ := st
  cases halted with
  | true => exact sortStep_refl _ _ _ _ H2
  | false =>
    cases stream with
    | nil =>
      have he : Spiht.testPos (Spiht.decOracle g) n p
          ⟨lip, lis, lsp, false, ([], rec)⟩ = ⟨lip, lis, lsp, true, ([], rec)⟩ := rfl
      rw [he]
      exact ⟨H2, fun q hq => rfl, fun j => .inl rfl⟩
    | cons b t =>
      cases b with
      | false =>
        have he : Spiht.testPos (Spiht.decOracle g) n p
            ⟨lip, lis, lsp, false, (false :: t, rec)⟩ =
            ⟨lip ++ [p], lis, lsp, false, (t, rec)⟩ := rfl
        rw [he]
        exact ⟨H2, fun q hq => rfl, fun j => .inl rfl⟩
      | true =>
        cases t with
        | nil =>
          have he : Spiht.testPos (Spiht.decOracle g) n p
              ⟨lip, lis, lsp, false, ([true], rec)⟩ =
              ⟨lip, lis, lsp, true, ([], rec)⟩ := rfl
          rw [he]
          exact ⟨H2, fun q hq => rfl, fun j => .inl rfl⟩
        | cons b2 t2 =>
          have he : Spiht.testPos (Spiht.decOracle g) n p
              ⟨lip, lis, lsp, false, (true :: b2 :: t2, rec)⟩ =
              ⟨lip, lis, lsp ++ [p], false,
                (t2, rec.set (Spiht.idx g p)
                  (if b2 then -(2 ^ n : Int) else (2 ^ n : Int)))⟩ := rfl
          rw [he]
          refine ⟨fun q hq => List.mem_append_left _ (H2 q hq), fun q hq => ?_, fun j => ?_⟩
          · have hne : Spiht.idx g q ≠ Spiht.idx g p :=
              fun hEq => hpL (idx_inj g q p (HR q hq) hpA hEq ▸ H2 q hq)
            exact getD_set_ne rec (Spiht.idx g p) (Spiht.idx g q) _ hne
          · rcases getD_set_or rec (Spiht.idx g p) j
              (if b2 then -(2 ^ n : Int) else (2 ^ n : Int)) with hsame | hnew
            · exact .inl hsame
            · refine .inr ?_
              show ((rec.set (Spiht.idx g p)
                (if b2 then -(2 ^ n : Int) else (2 ^ n : Int))).getD j 0).natAbs = 2 ^ n
              rw [hnew]
              exact signNatAbs b2 n

/-- The decoder LIP pass is a sorting phase in the sense of `SortStep`. -/
theorem dec_lipPass_sort (g : Spiht.Geom) (n : Nat) (pending : List Spiht.Pos)
    (st : Spiht.St Spiht.DecS) (L : List Spiht.Pos) (C : Multiset Spiht.Pos)
    (H1 : ↑pending + Spiht.stMul g st + C ≤ (↑(Spiht.allPos g) : Multiset Spiht.Pos))
    (H2 : ∀ q ∈ L, q ∈ st.lsp) (HR : ∀ q ∈ L, q ∈ Spiht.allPos g) :
    Spiht.SortStep g n L st (Spiht.lipPass (Spiht.decOracle g) n pending st) := by
  revert H1 H2
  induction pending generalizing st C with
  | nil =>
    intro _ H2
    exact sortStep_refl _ _ _ _ H2
  | cons p rest ih =>
    intro H1 H2
    have hsplit : (↑(p :: rest) : Multiset Spiht.Pos) = {p} + ↑rest := by
      rw [← Multiset.cons_coe, Multiset.singleton_add]
    have H1p : {p} + Spiht.stMul g st + (C + ↑rest) ≤ ↑(Spiht.allPos g) := by
      refine le_trans (le_of_eq ?_) H1
      rw [hsplit]
      abel
    have S1 := dec_testPos_sort g n p st L (C + ↑rest) H1p H2 HR
    have H1r : ↑rest + Spiht.stMul g (Spiht.testPos (Spiht.decOracle g) n p st) + C ≤
        (↑(Spiht.allPos g) : Multiset Spiht.Pos) := by
      have hm := (testPos_mul g (Spiht.decOracle g) n p st).1
      calc (↑rest : Multiset Spiht.Pos) +
            Spiht.stMul g (Spiht.testPos (Spiht.decOracle g) n p st) + C
          ≤ ↑rest + (Spiht.stMul g st + {p}) + C := by
            exact add_le_add_right (add_le_add_left hm _) C
        _ = ↑(p :: rest) + Spiht.stMul g st + C := by rw [hsplit]; abel
        _ ≤ ↑(Spiht.allPos g) := H1
    exact sortStep_trans g n L st _ _ S1 (ih _ C H1r S1.1)

/-- The decoder child-test fold of a significant type-A entry is a sorting
phase. -/
theorem dec_foldChildren_sort (g : Spiht.Geom) (n : Nat) (k : Nat) (l : List (Nat × Nat))
    (st : Spiht.St Spiht.DecS) (L : List Spiht.Pos) (C : Multiset Spiht.Pos)
    (H1 : ↑(l.map (fun q => ((k, q.1, q.2) : Spiht.Pos))) + Spiht.stMul g st + C ≤
      (↑(Spiht.allPos g) : Multiset Spiht.Pos))
    (H2 : ∀ q ∈ L, q ∈ st.lsp) (HR : ∀ q ∈ L, q ∈ Spiht.allPos g) :
    Spiht.SortStep g n L st
      (l.foldl (fun acc q => Spiht.testPos (Spiht.decOracle g) n (k, q.1, q.2) acc) st) := by
  revert H1 H2
  induction l generalizing st C with
  | nil =>
    intro _ H2
    exact sortStep_refl _ _ _ _ H2
  | cons q rest ih =>
    intro H1 H2
    have hsplit : (↑((q :: rest).map (fun s => ((k, s.1, s.2) : Spiht.Pos))) :
        Multiset Spiht.Pos) = {((k, q.1, q.2) : Spiht.Pos)} +
          ↑(rest.map (fun s => ((k, s.1, s.2) : Spiht.Pos))) := by
      rw [List.map_cons, ← Multiset.cons_coe, Multiset.singleton_add]
    have H1p : {((k, q.1, q.2) : Spiht.Pos)} + Spiht.stMul g st +
        (C + ↑(rest.map (fun s => ((k, s.1, s.2) : Spiht.Pos)))) ≤ ↑(Spiht.allPos g) := by
      refine le_trans (le_of_eq ?_) H1
      rw [hsplit]
      abel
    have S1 := dec_testPos_sort g n (k, q.1, q.2) st L _ H1p H2 HR
    have H1r : ↑(rest.map (fun s => ((k, s.1, s.2) : Spiht.Pos))) +
        Spiht.stMul g (Spiht.testPos (Spiht.decOracle g) n (k, q.1, q.2) st) + C ≤
        (↑(Spiht.allPos g) : Multiset Spiht.Pos) := by
      have hm := (testPos_mul g (Spiht.decOracle g) n (k, q.1, q.2) st).1
      calc ↑(rest.map (fun s => ((k, s.1, s.2) : Spiht.Pos))) +
            Spiht.stMul g (Spiht.testPos (Spiht.decOracle g) n (k, q.1, q.2) st) + C
          ≤ ↑(rest.map (fun s => ((k, s.1, s.2) : Spiht.Pos))) +
            (Spiht.stMul g st + {((k, q.1, q.2) : Spiht.Pos)}) + C := by
            exact add_le_add_right (add_le_add_left hm _) C
        _ = ↑((q :: rest).map (fun s => ((k, s.1, s.2) : Spiht.Pos))) +
            Spiht.stMul g st + C := by rw [hsplit]; abel
        _ ≤ ↑(Spiht.allPos g) := H1
    exact sortStep_trans g n L st _ _ S1 (ih _ C H1r S1.1)

/-- The decoder LIS pass is a sorting phase in the sense of `SortStep`. -/
theorem dec_lisPass_sort (g : Spiht.Geom) (hgv : Spiht.GV g) (n : Nat) (fuel : Nat)
    (pending : List (Spiht.Pos × Bool)) (st : Spiht.St Spiht.DecS)
    (L : List Spiht.Pos) (C : Multiset Spiht.Pos)
    (H1 : ↑(pending.flatMap (Spiht.covP g)) + Spiht.stMul g st + C ≤
      (↑(Spiht.allPos g) : Multiset Spiht.Pos))
    (H2 : ∀ q ∈ L, q ∈ st.lsp) (HR : ∀ q ∈ L, q ∈ Spiht.allPos g) :
    Spiht.SortStep g n L st (Spiht.lisPass g (Spiht.decOracle g) n fuel pending st) := by
  revert H1 H2
  induction fuel generalizing pending st C with
  | zero =>
    intro _ H2
    exact ⟨H2, fun q hq => rfl, fun j => .inl rfl⟩
  | succ f ih =>
    intro H1 H2
    cases pending with
    | nil => exact sortStep_refl _ _ _ _ H2
    | cons e rest =>
      obtain ⟨p, isA⟩ := e
      obtain ⟨lip, lis, lsp, halted, stream, rec⟩ := st
      cases halted with
      | true =>
        have he : Spiht.lisPass g (Spiht.decOracle g) n (f + 1) ((p, isA) :: rest)
            ⟨lip, lis, lsp, true, (stream, rec)⟩ =
            ⟨lip, lis, lsp, true, (stream, rec)⟩ := rfl
        rw [he]
        exact sortStep_refl _ _ _ _ H2
      | false =>
        cases stream with
        | nil =>
          have he : Spiht.lisPass g (Spiht.decOracle g) n (f + 1) ((p, isA) :: rest)
              ⟨lip, lis, lsp, false, ([], rec)⟩ =
              ⟨lip, lis, lsp, true, ([], rec)⟩ := rfl
          rw [he]
          exact ⟨H2, fun q hq => rfl, fun j => .inl rfl⟩
        | cons b t =>
          have hcov : (↑(((p, isA) :: rest).flatMap (Spiht.covP g)) : Multiset Spiht.Pos) =
              ↑(Spiht.covP g (p, isA)) + ↑(rest.flatMap (Spiht.covP g)) := by
            rw [List.flatMap_cons, Multiset.coe_add]
          cases b with
          | false =>
            have he : Spiht.lisPass g (Spiht.decOracle g) n (f + 1) ((p, isA) :: rest)
                ⟨lip, lis, lsp, false, (false :: t, rec)⟩ =
                Spiht.lisPass g (Spiht.decOracle g) n f rest
                  ⟨lip, lis ++ [(p, isA)], lsp, false, (t, rec)⟩ := rfl
            rw [he]
            refine sortStep_cast g n L ⟨lip, lis, lsp, false, (false :: t, rec)⟩
              ⟨lip, lis ++ [(p, isA)], lsp, false, (t, rec)⟩ _ rfl ?_
            refine ih rest _ C ?_ H2
            have hm : Spiht.stMul g (⟨lip, lis ++ [(p, isA)], lsp, false, (t, rec)⟩ :
                Spiht.St Spiht.DecS) =
                Spiht.stMul g
                    (⟨lip, lis, lsp, false, (false :: t, rec)⟩ : Spiht.St Spiht.DecS) +
                  ↑(Spiht.covP g (p, isA)) :=
              stMul_lis_append g ⟨lip, lis, lsp, false, (false :: t, rec)⟩ (p, isA) (t, rec)
            calc (↑(rest.flatMap (Spiht.covP g)) : Multiset Spiht.Pos) +
                  Spiht.stMul g ⟨lip, lis ++ [(p, isA)], lsp, false, (t, rec)⟩ + C
                = ↑(((p, isA) :: rest).flatMap (Spiht.covP g)) +
                  Spiht.stMul g ⟨lip, lis, lsp, false, (false :: t, rec)⟩ + C := by
                  rw [hm, hcov]; abel
              _ ≤ ↑(Spiht.allPos g) := H1
          | true =>
            have hsmul : Spiht.stMul g
                (⟨lip, lis, lsp, false, (t, rec)⟩ : Spiht.St Spiht.DecS) =
                Spiht.stMul g
                  (⟨lip, lis, lsp, false, (true :: t, rec)⟩ : Spiht.St Spiht.DecS) := rfl
            cases isA with
            | false =>
              have he : Spiht.lisPass g (Spiht.decOracle g) n (f + 1) ((p, false) :: rest)
                  ⟨lip, lis, lsp, false, (true :: t, rec)⟩ =
                  Spiht.lisPass g (Spiht.decOracle g) n f
                    (rest ++ (Spiht.children g p.2.1 p.2.2).map
                      (fun q => (((p.1, q.1, q.2) : Spiht.Pos), true)))
                    ⟨lip, lis, lsp, false, (t, rec)⟩ := rfl
              rw [he]
              refine sortStep_cast g n L ⟨lip, lis, lsp, false, (true :: t, rec)⟩
                ⟨lip, lis, lsp, false, (t, rec)⟩ _ rfl ?_
              refine ih _ _ C ?_ H2
              have hsplit : (↑((rest ++ (Spiht.children g p.2.1 p.2.2).map
                  (fun q => (((p.1, q.1, q.2) : Spiht.Pos), true))).flatMap
                    (Spiht.covP g)) : Multiset Spiht.Pos) =
                  ↑(rest.flatMap (Spiht.covP g)) + ↑(Spiht.covP g (p, false)) := by
                rw [List.flatMap_append, covP_B_split g p, Multiset.coe_add]
              calc (↑((rest ++ (Spiht.children g p.2.1 p.2.2).map
                    (fun q => (((p.1, q.1, q.2) : Spiht.Pos), true))).flatMap
                      (Spiht.covP g)) : Multiset Spiht.Pos) +
                    Spiht.stMul g ⟨lip, lis, lsp, false, (t, rec)⟩ + C
                  = ↑(((p, false) :: rest).flatMap (Spiht.covP g)) +
                    Spiht.stMul g ⟨lip, lis, lsp, false, (true :: t, rec)⟩ + C := by
                    rw [hsplit, hcov, hsmul]; abel
                _ ≤ ↑(Spiht.allPos g) := H1
            | true =>
              have he : Spiht.lisPass g (Spiht.decOracle g) n (f + 1) ((p, true) :: rest)
                  ⟨lip, lis, lsp, false, (true :: t, rec)⟩ =
                  (if (Spiht.grandDesc g p.2.1 p.2.2).isEmpty then
                    Spiht.lisPass g (Spiht.decOracle g) n f rest
                      ((Spiht.children g p.2.1 p.2.2).foldl
                        (fun acc q => Spiht.testPos (Spiht.decOracle g) n (p.1, q.1, q.2) acc)
                        ⟨lip, lis, lsp, false, (t, rec)⟩)
                  else
                    Spiht.lisPass g (Spiht.decOracle g) n f (rest ++ [(p, false)])
                      ((Spiht.children g p.2.1 p.2.2).foldl
                        (fun acc q => Spiht.testPos (Spiht.decOracle g) n (p.1, q.1, q.2) acc)
                        ⟨lip, lis, lsp, false, (t, rec)⟩)) := rfl
              rw [he]
              have hcovsplit : (↑(((p, true) :: rest).flatMap (Spiht.covP g)) :
                  Multiset Spiht.Pos) =
                  ↑((Spiht.children g p.2.1 p.2.2).map
                      (fun q => ((p.1, q.1, q.2) : Spiht.Pos))) +
                    ↑(Spiht.covP g (p, false)) + ↑(rest.flatMap (Spiht.covP g)) := by
                rw [hcov, covP_split g hgv p]
              have HCH : ↑((Spiht.children g p.2.1 p.2.2).map
                    (fun q => ((p.1, q.1, q.2) : Spiht.Pos))) +
                  Spiht.stMul g (⟨lip, lis, lsp, false, (t, rec)⟩ : Spiht.St Spiht.DecS) +
                  (C + ↑(Spiht.covP g (p, false)) + ↑(rest.flatMap (Spiht.covP g))) ≤
                  (↑(Spiht.allPos g) : Multiset Spiht.Pos) := by
                refine le_trans (le_of_eq ?_) H1
                rw [hcovsplit, hsmul]
                abel
              have S2 := dec_foldChildren_sort g n p.1 (Spiht.children g p.2.1 p.2.2)
                ⟨lip, lis, lsp, false, (t, rec)⟩ L _ HCH H2 HR
              have hm2 := (foldChildren_mul g (Spiht.decOracle g) n p.1
                (Spiht.children g p.2.1 p.2.2) ⟨lip, lis, lsp, false, (t, rec)⟩).1
              by_cases hgd : (Spiht.grandDesc g p.2.1 p.2.2).isEmpty = true
              · rw [hgd, if_pos rfl]
                have H1r : ↑(rest.flatMap (Spiht.covP g)) +
                    Spiht.stMul g ((Spiht.children g p.2.1 p.2.2).foldl
                      (fun acc q => Spiht.testPos (Spiht.decOracle g) n (p.1, q.1, q.2) acc)
                      ⟨lip, lis, lsp, false, (t, rec)⟩) + C ≤
                    (↑(Spiht.allPos g) : Multiset Spiht.Pos) := by
                  calc ↑(rest.flatMap (Spiht.covP g)) +
                      Spiht.stMul g ((Spiht.children g p.2.1 p.2.2).foldl
                        (fun acc q => Spiht.testPos (Spiht.decOracle g) n (p.1, q.1, q.2) acc)
                        ⟨lip, lis, lsp, false, (t, rec)⟩) + C
                      ≤ ↑(rest.flatMap (Spiht.covP g)) +
                        (Spiht.stMul g (⟨lip, lis, lsp, false, (t, rec)⟩ :
                            Spiht.St Spiht.DecS) +
                          ↑((Spiht.children g p.2.1 p.2.2).map
                            (fun q => ((p.1, q.1, q.2) : Spiht.Pos)))) + C := by
                        exact add_le_add_right (add_le_add_left hm2 _) C
                    _ ≤ ↑(rest.flatMap (Spiht.covP g)) +
                        (Spiht.stMul g (⟨lip, lis, lsp, false, (t, rec)⟩ :
                            Spiht.St Spiht.DecS) +
                          ↑((Spiht.children g p.2.1 p.2.2).map
                            (fun q => ((p.1, q.1, q.2) : Spiht.Pos)))) + C +
                        ↑(Spiht.covP g (p, false)) := Multiset.le_add_right _ _
                    _ = ↑(((p, true) :: rest).flatMap (Spiht.covP g)) +
                        Spiht.stMul g ⟨lip, lis, lsp, false, (true :: t, rec)⟩ + C := by
                        rw [hcovsplit, hsmul]; abel
                    _ ≤ ↑(Spiht.allPos g) := H1
                have S3 := ih rest _ C H1r S2.1
                exact sortStep_cast g n L ⟨lip, lis, lsp, false, (true :: t, rec)⟩
                  ⟨lip, lis, lsp, false, (t, rec)⟩ _ rfl
                  (sortStep_trans g n L ⟨lip, lis, lsp, false, (t, rec)⟩ _ _ S2 S3)
              · rw [(by simpa using hgd : (Spiht.grandDesc g p.2.1 p.2.2).isEmpty = false),
                  if_neg Bool.false_ne_true]
                have hcov1 : (↑((rest ++ [(p, false)]).flatMap (Spiht.covP g)) :
                    Multiset Spiht.Pos) =
                    ↑(rest.flatMap (Spiht.covP g)) + ↑(Spiht.covP g (p, false)) := by
                  rw [List.flatMap_append, Multiset.coe_add]
                  simp only [List.flatMap_cons, List.flatMap_nil, List.append_nil]
                have H1r : ↑((rest ++ [(p, false)]).flatMap (Spiht.covP g)) +
                    Spiht.stMul g ((Spiht.children g p.2.1 p.2.2).foldl
                      (fun acc q => Spiht.testPos (Spiht.decOracle g) n (p.1, q.1, q.2) acc)
                      ⟨lip, lis, lsp, false, (t, rec)⟩) + C ≤
                    (↑(Spiht.allPos g) : Multiset Spiht.Pos) := by
                  calc ↑((rest ++ [(p, false)]).flatMap (Spiht.covP g)) +
                      Spiht.stMul g ((Spiht.children g p.2.1 p.2.2).foldl
                        (fun acc q => Spiht.testPos (Spiht.decOracle g) n (p.1, q.1, q.2) acc)
                        ⟨lip, lis, lsp, false, (t, rec)⟩) + C
                      ≤ ↑((rest ++ [(p, false)]).flatMap (Spiht.covP g)) +
                        (Spiht.stMul g (⟨lip, lis, lsp, false, (t, rec)⟩ :
                            Spiht.St Spiht.DecS) +
                          ↑((Spiht.children g p.2.1 p.2.2).map
                            (fun q => ((p.1, q.1, q.2) : Spiht.Pos)))) + C := by
                        exact add_le_add_right (add_le_add_left hm2 _) C
                    _ = ↑(((p, true) :: rest).flatMap (Spiht.covP g)) +
                        Spiht.stMul g ⟨lip, lis, lsp, false, (true :: t, rec)⟩ + C := by
                        rw [hcov1, hcovsplit, hsmul]; abel
                    _ ≤ ↑(Spiht.allPos g) := H1
                have S3 := ih (rest ++ [(p, false)]) _ C H1r S2.1
                exact sortStep_cast g n L ⟨lip, lis, lsp, false, (true :: t, rec)⟩
                  ⟨lip, lis, lsp, false, (t, rec)⟩ _ rfl
                  (sortStep_trans g n L ⟨lip, lis, lsp, false, (t, rec)⟩ _ _ S2 S3)

/-- The decoder refinement pass adds at most one `2^n` step to each slot:
slots of pairwise-distinct refined positions move from the `n+1` bound to the
`n` bound, all other slots are untouched. -/
theorem dec_refine_bound (g : Spiht.Geom) (mn n : Nat) (hmn : n ≤ mn)
    (L : List Spiht.Pos) (st : Spiht.St Spiht.DecS)
    (Hnd : (L.map (Spiht.idx g)).Nodup)
    (HL : ∀ q ∈ L, Spiht.SB mn (n + 1) (Spiht.slotD st (Spiht.idx g q)))
    (HJ : ∀ j, Spiht.SB mn n (Spiht.slotD st j)) :
    ∀ j, Spiht.SB mn n (Spiht.slotD (Spiht.refinePass (Spiht.decOracle g) n L st) j) := by
  revert Hnd HL HJ
  induction L generalizing st with
  | nil =>
    intro _ _ HJ
    exact HJ
  | cons q rest ih =>
    intro Hnd HL HJ
    obtain ⟨lip, lis, lsp, halted, stream, rec⟩ := st
    cases halted with
    | true => exact HJ
    | false =>
      cases stream with
      | nil =>
        have he : Spiht.refinePass (Spiht.decOracle g) n (q :: rest)
            ⟨lip, lis, lsp, false, ([], rec)⟩ = ⟨lip, lis, lsp, true, ([], rec)⟩ := rfl
        rw [he]
        exact HJ
      | cons b t =>
        cases b with
        | false =>
          have he : Spiht.refinePass (Spiht.decOracle g) n (q :: rest)
              ⟨lip, lis, lsp, false, (false :: t, rec)⟩ =
              Spiht.refinePass (Spiht.decOracle g) n rest
                ⟨lip, lis, lsp, false, (t, rec)⟩ := rfl
          rw [he]
          exact ih ⟨lip, lis, lsp, false, (t, rec)⟩ (List.Nodup.of_cons Hnd)
            (fun r hr => HL r (List.mem_cons_of_mem q hr)) HJ
        | true =>
          have he : Spiht.refinePass (Spiht.decOracle g) n (q :: rest)
              ⟨lip, lis, lsp, false, (true :: t, rec)⟩ =
              Spiht.refinePass (Spiht.decOracle g) n rest
                ⟨lip, lis, lsp, false,
                  (t, rec.set (Spiht.idx g q)
                    (if rec.getD (Spiht.idx g q) 0 < 0 then
                      rec.getD (Spiht.idx g q) 0 - 2 ^ n
                    else rec.getD (Spiht.idx g q) 0 + 2 ^ n))⟩ := rfl
          rw [he]
          have hqs : Spiht.SB mn (n + 1) (rec.getD (Spiht.idx g q) 0) :=
            HL q (List.mem_cons_self q rest)
          obtain ⟨hb, hd⟩ := hqs
          have hnotin : Spiht.idx g q ∉ rest.map (Spiht.idx g) :=
            (List.nodup_cons.mp Hnd).1
          refine ih _ (List.Nodup.of_cons Hnd) ?_ ?_
          · intro r hr
            have hne : Spiht.idx g r ≠ Spiht.idx g q := by
              intro hEq
              exact hnotin (hEq ▸ List.mem_map_of_mem (Spiht.idx g) hr)
            show Spiht.SB mn (n + 1)
              ((rec.set (Spiht.idx g q)
                (if rec.getD (Spiht.idx g q) 0 < 0 then
                  rec.getD (Spiht.idx g q) 0 - 2 ^ n
                else rec.getD (Spiht.idx g q) 0 + 2 ^ n)).getD (Spiht.idx g r) 0)
            rw [getD_set_ne rec (Spiht.idx g q) (Spiht.idx g r) _ hne]
            exact HL r (List.mem_cons_of_mem q hr)
          · intro j
            rcases getD_set_or rec (Spiht.idx g q) j
              (if rec.getD (Spiht.idx g q) 0 < 0 then
                rec.getD (Spiht.idx g q) 0 - 2 ^ n
              else rec.getD (Spiht.idx g q) 0 + 2 ^ n) with hsame | hnew
            · show Spiht.SB mn n
                ((rec.set (Spiht.idx g q)
                  (if rec.getD (Spiht.idx g q) 0 < 0 then
                    rec.getD (Spiht.idx g q) 0 - 2 ^ n
                  else rec.getD (Spiht.idx g q) 0 + 2 ^ n)).getD j 0)
              rw [hsame]
              exact HJ j
            · show Spiht.SB mn n
                ((rec.set (Spiht.idx g q)
                  (if rec.getD (Spiht.idx g q) 0 < 0 then
                    rec.getD (Spiht.idx g q) 0 - 2 ^ n
                  else rec.getD (Spiht.idx g q) 0 + 2 ^ n)).getD j 0)
              rw [hnew]
              constructor
              · rw [refNatAbs]
                have h1 : 2 ^ (n + 1) = 2 * 2 ^ n := by rw [pow_succ]; ring
                have h2 : 2 ^ (n + 1) ≤ 2 ^ (mn + 1) :=
                  Nat.pow_le_pow_right (by omega) (by omega)
                omega
              · rw [refNatAbs]
                obtain ⟨m, hm⟩ := hd
                exact ⟨2 * m + 1, by rw [hm, pow_succ]; ring⟩

/-- A full decoder bit plane moves all slots from the `n+1` bound to the `n`
bound, provided the state is still accounted for inside the position set. -/
theorem dec_planeStep_bound (g : Spiht.Geom) (hgv : Spiht.GV g) (mn n : Nat)
    (st : Spiht.St Spiht.DecS)
    (H1 : Spiht.stMul g st ≤ (↑(Spiht.allPos g) : Multiset Spiht.Pos))
    (HJ : ∀ j, Spiht.SB mn (n + 1) (Spiht.slotD st j))
    (hmn : n ≤ mn) :
    ∀ j, Spiht.SB mn n (Spiht.slotD (Spiht.planeStep g (Spiht.decOracle g) n st) j) := by
  have HR : ∀ q ∈ st.lsp, q ∈ Spiht.allPos g := lsp_mem_allPos g st H1
  have H1a : (↑st.lip : Multiset Spiht.Pos) + Spiht.stMul g { st with lip := [] } +
      (0 : Multiset Spiht.Pos) ≤ ↑(Spiht.allPos g) := by
    rw [add_zero]
    calc (↑st.lip : Multiset Spiht.Pos) + Spiht.stMul g { st with lip := [] }
        = Spiht.stMul g st := by rw [add_comm]; exact stMul_clear_lip g st
      _ ≤ ↑(Spiht.allPos g) := H1
  have S1 := dec_lipPass_sort g n st.lip { st with lip := [] } st.lsp 0 H1a
    (fun q hq => hq) HR
  have hm1 : Spiht.stMul g (Spiht.lipPass (Spiht.decOracle g) n st.lip
      { st with lip := [] }) ≤ Spiht.stMul g st := by
    have h := (lipPass_mul g (Spiht.decOracle g) n st.lip { st with lip := [] }).1
    calc Spiht.stMul g (Spiht.lipPass (Spiht.decOracle g) n st.lip { st with lip := [] })
        ≤ Spiht.stMul g { st with lip := [] } + ↑st.lip := h
      _ = Spiht.stMul g st := stMul_clear_lip g st
  have H1b : ↑((Spiht.lipPass (Spiht.decOracle g) n st.lip
        { st with lip := [] }).lis.flatMap (Spiht.covP g)) +
      Spiht.stMul g { Spiht.lipPass (Spiht.decOracle g) n st.lip
        { st with lip := [] } with lis := [] } + (0 : Multiset Spiht.Pos) ≤
      ↑(Spiht.allPos g) := by
    rw [add_zero]
    calc ↑((Spiht.lipPass (Spiht.decOracle g) n st.lip
          { st with lip := [] }).lis.flatMap (Spiht.covP g)) +
        Spiht.stMul g { Spiht.lipPass (Spiht.decOracle g) n st.lip
          { st with lip := [] } with lis := [] }
        = Spiht.stMul g (Spiht.lipPass (Spiht.decOracle g) n st.lip
            { st with lip := [] }) := by
          rw [add_comm]
          exact stMul_clear_lis g _
      _ ≤ ↑(Spiht.allPos g) := hm1.trans H1
  have S2 := dec_lisPass_sort g hgv n (Spiht.lisFuel g
      (Spiht.lipPass (Spiht.decOracle g) n st.lip { st with lip := [] }).lis)
    (Spiht.lipPass (Spiht.decOracle g) n st.lip { st with lip := [] }).lis
    { Spiht.lipPass (Spiht.decOracle g) n st.lip { st with lip := [] } with lis := [] }
    st.lsp 0 H1b (fun q hq => S1.1 q hq) HR
  have S12 : Spiht.SortStep g n st.lsp st
      (Spiht.lisPass g (Spiht.decOracle g) n (Spiht.lisFuel g
          (Spiht.lipPass (Spiht.decOracle g) n st.lip { st with lip := [] }).lis)
        (Spiht.lipPass (Spiht.decOracle g) n st.lip { st with lip := [] }).lis
        { Spiht.lipPass (Spiht.decOracle g) n st.lip { st with lip := [] } with
          lis := [] }) :=
    sortStep_trans g n st.lsp st _ _
      (sortStep_cast g n st.lsp st { st with lip := [] } _ rfl S1)
      (sortStep_cast g n st.lsp
        (Spiht.lipPass (Spiht.decOracle g) n st.lip { st with lip := [] })
        { Spiht.lipPass (Spiht.decOracle g) n st.lip { st with lip := [] } with
          lis := [] } _ rfl S2)
  have Hnd := lsp_idx_nodup g st H1
  have HL2 : ∀ q ∈ st.lsp, Spiht.SB mn (n + 1)
      (Spiht.slotD (Spiht.lisPass g (Spiht.decOracle g) n (Spiht.lisFuel g
          (Spiht.lipPass (Spiht.decOracle g) n st.lip { st with lip := [] }).lis)
        (Spiht.lipPass (Spiht.decOracle g) n st.lip { st with lip := [] }).lis
        { Spiht.lipPass (Spiht.decOracle g) n st.lip { st with lip := [] } with
          lis := [] }) (Spiht.idx g q)) := by
    intro q hq
    rw [S12.2.1 q hq]
    exact HJ _
  have HJ2 : ∀ j, Spiht.SB mn n
      (Spiht.slotD (Spiht.lisPass g (Spiht.decOracle g) n (Spiht.lisFuel g
          (Spiht.lipPass (Spiht.decOracle g) n st.lip { st with lip := [] }).lis)
        (Spiht.lipPass (Spiht.decOracle g) n st.lip { st with lip := [] }).lis
        { Spiht.lipPass (Spiht.decOracle g) n st.lip { st with lip := [] } with
          lis := [] }) j) := by
    intro j
    rcases S12.2.2 j with he | hv
    · rw [he]
      exact sb_mono mn n _ (HJ j)
    · exact sb_pow mn n _ hmn hv
  exact dec_refine_bound g mn n hmn st.lsp _ Hnd HL2 HJ2

/-- Running the decoder plane loop from fuel `i` takes all slots from the `i`
bound to the final bound `2^(mn+1) - 1`. -/
theorem dec_planesRun_bound (g : Spiht.Geom) (hgv : Spiht.GV g) (mn i : Nat)
    (st : Spiht.St Spiht.DecS)
    (H1 : Spiht.stMul g st ≤ (↑(Spiht.allPos g) : Multiset Spiht.Pos))
    (hi : i ≤ mn + 1)
    (HJ : ∀ j, Spiht.SB mn i (Spiht.slotD st j)) :
    ∀ j, Spiht.SB mn 0
      (Spiht.slotD (Spiht.planesRun g (Spiht.decOracle g) i st) j) := by
  revert H1 hi HJ
  induction i generalizing st with
  | zero =>
    intro _ _ HJ
    exact HJ
  | succ k ih =>
    intro H1 hi HJ
    have H1' : Spiht.stMul g (Spiht.planeStep g (Spiht.decOracle g) k st) ≤
        ↑(Spiht.allPos g) :=
      ((planeStep_mul g hgv (Spiht.decOracle g) k st).1).trans H1
    have HJ' := dec_planeStep_bound g hgv mn k st H1 HJ (by omega)
    exact ih (Spiht.planeStep g (Spiht.decOracle g) k st) H1' (by omega) HJ'

/-- Any decoded reconstruction value is below `2^(max_n + 1)`, for every byte
buffer (the decoder never overflows on adversarial input). -/
theorem decodeRaw_bound (g : Spiht.Geom) (hg : Spiht.checkGeom g = none)
    (bytes : List Nat) (mn : Nat) :
    ∀ v ∈ Spiht.decodeRaw g bytes mn, v.natAbs ≤ 2 ^ (mn + 1) - 1 := by
  obtain ⟨hgv, _⟩ := GV_of_checkGeom g hg
  have H1 : Spiht.stMul g (Spiht.initSt g
      ((Spiht.unpack bytes, List.replicate g.size (0 : Int)) : Spiht.DecS)) ≤
      (↑(Spiht.allPos g) : Multiset Spiht.Pos) :=
    le_of_eq (init_partition g hgv _)
  have HJ : ∀ j, Spiht.SB mn (mn + 1)
      (Spiht.slotD (Spiht.initSt g
        ((Spiht.unpack bytes, List.replicate g.size (0 : Int)) : Spiht.DecS)) j) := by
    intro j
    show Spiht.SB mn (mn + 1) ((List.replicate g.size (0 : Int)).getD j 0)
    rw [List.getD_eq_getElem?_getD, List.getElem?_replicate]
    split_ifs <;> exact sb_zero mn (mn + 1)
  have hfin := dec_planesRun_bound g hgv mn (mn + 1) _ H1 le_rfl HJ
  intro v hv
  obtain ⟨i, hi, hvi⟩ := List.getElem_of_mem hv
  have hv2 : v = Spiht.slotD (Spiht.decodeRun g bytes mn) i := by
    show v = (Spiht.decodeRaw g bytes mn).getD i 0
    rw [List.getD_eq_getElem _ _ hi]
    exact hvi.symm
  rw [hv2]
  have h1 := (hfin i).1
  have h2 : Spiht.slotD (Spiht.decodeRun g bytes mn) i =
      Spiht.slotD (Spiht.planesRun g (Spiht.decOracle g) (mn + 1)
        (Spiht.initSt g (Spiht.unpack bytes, List.replicate g.size 0))) i := rfl
  rw [h2]
  simpa using h1

theorem foldl_max_le {α : Type} (l : List α) (f : α → Nat) (B : Nat) :
    ∀ m, m ≤ B → (∀ a ∈ l, f a ≤ B) →
      l.foldl (fun acc a => max acc (f a)) m ≤ B := by
  induction l with
  | nil =>
    intro m hm _
    exact hm
  | cons x xs ih =>
    intro m hm hl
    exact ih _ (max_le hm (hl x (List.mem_cons_self x xs)))
      (fun a ha => hl a (List.mem_cons_of_mem x ha))

theorem foldl_max_lt {α : Type} (l : List α) (f : α → Nat) (B : Nat) :
    ∀ m, m < B → (∀ a ∈ l, f a < B) →
      l.foldl (fun acc a => max acc (f a)) m < B := by
  induction l with
  | nil =>
    intro m hm _
    exact hm
  | cons x xs ih =>
    intro m hm hl
    exact ih _ (max_lt hm (hl x (List.mem_cons_self x xs)))
      (fun a ha => hl a (List.mem_cons_of_mem x ha))

theorem foldl_max_init {α : Type} (l : List α) (f : α → Nat) :
    ∀ m, m ≤ l.foldl (fun acc a => max acc (f a)) m := by
  induction l with
  | nil =>
    intro m
    exact le_rfl
  | cons x xs ih =>
    intro m
    exact le_trans (le_max_left m (f x)) (ih (max m (f x)))

theorem foldl_max_mem {α : Type} (l : List α) (f : α → Nat) :
    ∀ m, ∀ a ∈ l, f a ≤ l.foldl (fun acc a => max acc (f a)) m := by
  induction l with
  | nil =>
    intro m a ha
    cases ha
  | cons x xs ih =>
    intro m a ha
    rcases List.mem_cons.mp ha with rfl | hmem
    · exact le_trans (le_max_right m (f a)) (foldl_max_init xs f _)
    · exact ih _ a hmem

theorem getD_le_maxAbs (arr : List Int) (i : Nat) :
    (arr.getD i 0).natAbs ≤ Spiht.maxAbs arr := by
  by_cases h : i < arr.length
  · have hmem : arr.getD i 0 ∈ arr := by
      rw [List.getD_eq_getElem arr 0 h]
      exact List.getElem_mem h
    exact foldl_max_mem arr Int.natAbs 0 _ hmem
  · rw [List.getD_eq_default _ _ (Nat.le_of_not_lt h)]
    exact Nat.zero_le _

/-- The descendant-maximum compared by the encoder never exceeds the global
maximum magnitude. -/
theorem dmax_le_maxAbs (g : Spiht.Geom) (arr : List Int) (k r c : Nat) :
    Spiht.dmax g arr k r c ≤ Spiht.maxAbs arr := by
  refine foldl_max_le _ _ _ 0 (Nat.zero_le _) ?_
  intro q hq
  exact getD_le_maxAbs arr _

theorem lmax_le_maxAbs (g : Spiht.Geom) (arr : List Int) (k r c : Nat) :
    Spiht.lmax g arr k r c ≤ Spiht.maxAbs arr := by
  refine foldl_max_le _ _ _ 0 (Nat.zero_le _) ?_
  intro q hq
  exact getD_le_maxAbs arr _

theorem maxAbs_lt_of_all (arr : List Int) (B : Nat) (hB : 0 < B)
    (h : ∀ v ∈ arr, v.natAbs < B) : Spiht.maxAbs arr < B :=
  foldl_max_lt arr Int.natAbs B 0 hB h

theorem natLog2_le_of_lt (m k : Nat) (h : m < 2 ^ (k + 1)) : Spiht.natLog2 m ≤ k := by
  rw [natLog2_eq_log2]
  by_cases hm : m = 0
  · subst hm
    rw [Nat.log2_zero]
    omega
  · have := (Nat.log2_lt hm).mpr h
    omega

theorem ratTrunc_natAbs_le (y : ℚ) :
    (Wrapper.ratTrunc y).natAbs ≤ y.num.natAbs / y.den := by
  unfold Wrapper.ratTrunc
  rw [Int.natAbs_mul]
  have hs : (Int.sign y.num).natAbs ≤ 1 := by
    cases hy : y.num with
    | ofNat nn =>
      cases nn with
      | zero => exact Nat.zero_le 1
      | succ mm => exact Nat.le_refl 1
    | negSucc nn => exact Nat.le_refl 1
  calc (Int.sign y.num).natAbs * ((y.num.natAbs / y.den : Nat) : Int).natAbs
      ≤ 1 * ((y.num.natAbs / y.den : Nat) : Int).natAbs := mul_le_mul_right' hs _
    _ = y.num.natAbs / y.den := by rw [one_mul, Int.natAbs_ofNat]

theorem natAbs_cast_q (z : ℤ) : ((z.natAbs : ℕ) : ℚ) = |(z : ℚ)| :=
  (Int.cast_natAbs).trans (Int.cast_abs)

theorem ratTrunc_natAbs_lt (y : ℚ) (B : Nat) (h : |y| < (B : ℚ)) :
    (Wrapper.ratTrunc y).natAbs < B := by
  have hden : (0 : ℚ) < (y.den : ℚ) := by exact_mod_cast y.pos
  have hy : (y.num : ℚ) = y * (y.den : ℚ) :=
    (div_eq_iff (ne_of_gt hden)).mp (Rat.num_div_den y)
  have h2 : |(y.num : ℚ)| < (B : ℚ) * (y.den : ℚ) := by
    calc |(y.num : ℚ)| = |y| * |(y.den : ℚ)| := by rw [hy, abs_mul]
      _ = |y| * (y.den : ℚ) := by rw [abs_of_pos hden]
      _ < (B : ℚ) * (y.den : ℚ) := mul_lt_mul_of_pos_right h hden
  have h4 : ((y.num.natAbs : ℕ) : ℚ) < ((B * y.den : ℕ) : ℚ) := by
    rw [natAbs_cast_q]
    push_cast
    exact h2
  have h5 : y.num.natAbs < B * y.den := by exact_mod_cast h4
  have h6 : y.num.natAbs / y.den < B := (Nat.div_lt_iff_lt_mul y.pos).mpr h5
  exact lt_of_le_of_lt (ratTrunc_natAbs_le y) h6

/-- Integer truncation never increases the magnitude. -/
theorem ratTrunc_abs_le (y : ℚ) : |((Wrapper.ratTrunc y : ℤ) : ℚ)| ≤ |y| := by
  have hden : (0 : ℚ) < (y.den : ℚ) := by exact_mod_cast y.pos
  have habs : |y| = |(y.num : ℚ)| / (y.den : ℚ) := by
    conv_lhs => rw [← Rat.num_div_den y]
    rw [abs_div, abs_of_pos hden]
  calc |((Wrapper.ratTrunc y : ℤ) : ℚ)|
      = (((Wrapper.ratTrunc y).natAbs : ℕ) : ℚ) := (natAbs_cast_q _).symm
    _ ≤ ((y.num.natAbs / y.den : ℕ) : ℚ) := by
        exact_mod_cast Nat.cast_le.mpr (ratTrunc_natAbs_le y)
    _ ≤ ((y.num.natAbs : ℕ) : ℚ) / ((y.den : ℕ) : ℚ) := Nat.cast_div_le
    _ = |(y.num : ℚ)| / (y.den : ℚ) := by rw [natAbs_cast_q]
    _ = |y| := habs.symm

/-- C9: all codec numeric work is exact integer arithmetic with no overflow
for coefficient magnitudes below 2^31: quantize is a scalar multiply followed
by integer truncation whose results fit a 32-bit signed integer under the
caller contract `|x * q_scale| < 2^31`; the encoder's plane index stays at
most 30 and its descendant-maximum comparisons never exceed the global
maximum magnitude (itself below 2^31); and for any byte buffer and any plane
index at most 30 — in particular at every truncation point of the encoded
stream — every decoder reconstruction value stays below 2^31 in magnitude. -/
theorem claim9_exact_arithmetic (g : Spiht.Geom) (arrq : List ℚ) (qScale : ℚ) (b : Nat)
    (hg : Spiht.checkGeom g = none)
    (hq : ∀ x ∈ arrq, |x * qScale| < (((2 ^ 31 : Nat) : ℚ))) :
    (∀ x ∈ arrq, (Wrapper.ratTrunc (x * qScale)).natAbs < 2 ^ 31 ∧
        |((Wrapper.ratTrunc (x * qScale) : ℤ) : ℚ)| ≤ |x * qScale|) ∧
      Spiht.maxAbs (Wrapper.quantize arrq qScale) < 2 ^ 31 ∧
      (Spiht.encodeRaw g (Wrapper.quantize arrq qScale) b).2 ≤ 30 ∧
      (∀ k r c, Spiht.dmax g (Wrapper.quantize arrq qScale) k r c ≤
          Spiht.maxAbs (Wrapper.quantize arrq qScale) ∧
        Spiht.lmax g (Wrapper.quantize arrq qScale) k r c ≤
          Spiht.maxAbs (Wrapper.quantize arrq qScale)) ∧
      (∀ bytes mn, mn ≤ 30 →
        ∀ v ∈ Spiht.decodeRaw g bytes mn, v.natAbs < 2 ^ 31) := by
  have helem : ∀ x ∈ arrq, (Wrapper.ratTrunc (x * qScale)).natAbs < 2 ^ 31 :=
    fun x hx => ratTrunc_natAbs_lt (x * qScale) (2 ^ 31) (hq x hx)
  have hquant : ∀ v ∈ Wrapper.quantize arrq qScale, v.natAbs < 2 ^ 31 := by
    intro v hv
    obtain ⟨x, hx, hvx⟩ := List.mem_map.mp hv
    exact hvx ▸ helem x hx
  have hmax : Spiht.maxAbs (Wrapper.quantize arrq qScale) < 2 ^ 31 :=
    maxAbs_lt_of_all _ _ (by positivity) hquant
  refine ⟨fun x hx => ⟨helem x hx, ratTrunc_abs_le (x * qScale)⟩, hmax, ?_, ?_, ?_⟩
  · show Spiht.natLog2 (Spiht.maxAbs (Wrapper.quantize arrq qScale)) ≤ 30
    exact natLog2_le_of_lt _ 30 hmax
  · exact fun k r c => ⟨dmax_le_maxAbs g _ k r c, lmax_le_maxAbs g _ k r c⟩
  · intro bytes mn hmn v hv
    have h1 := decodeRaw_bound g hg bytes mn v hv
    have h2 : 2 ^ (mn + 1) ≤ 2 ^ 31 := Nat.pow_le_pow_right (by omega) (by omega)
    omega

theorem claim9_exact_arithmetic_witness :
    Spiht.checkGeom ⟨1, 2, 2, 2, 2⟩ = none ∧
    (∀ x ∈ ([5, -3] : List ℚ), |x * 1| < (((2 ^ 31 : Nat) : ℚ))) ∧
    (∀ v ∈ Spiht.decodeRaw ⟨1, 2, 2, 2, 2⟩ [255] 2, v.natAbs < 2 ^ 31) :=
  ⟨by decide, by simp; decide,
    (claim9_exact_arithmetic ⟨1, 2, 2, 2, 2⟩ ([5, -3] : List ℚ) 1 0 (by decide)
      (by simp; decide)).2.2.2.2 [255] 2 (by omega)⟩

/-! ## Round-trip groundwork (claim C1) -/

theorem idx_lt_size (g : Spiht.Geom) (p : Spiht.Pos) (hp : p ∈ Spiht.allPos g) :
    Spiht.idx g p < g.size := by
  obtain ⟨k, a, b⟩ := p
  rw [mem_allPos] at hp
  obtain ⟨hk, ha, hb⟩ := hp
  show k * (g.h * g.w) + a * g.w + b < g.size
  have hm : a * g.w + b < g.h * g.w := by
    have := mpos_lt_of_inrange g a b ha hb
    simpa [Spiht.mpos] using this
  have h1 : (k + 1) * (g.h * g.w) ≤ g.c * (g.h * g.w) := mul_le_mul_right' hk _
  have h2 : (k + 1) * (g.h * g.w) = k * (g.h * g.w) + g.h * g.w := by ring
  have h3 : g.size = g.c * (g.h * g.w) := by
    show g.c * g.h * g.w = g.c * (g.h * g.w)
    ring
  omega

theorem getD_set_self (l : List Int) (j : Nat) (v : Int) (h : j < l.length) :
    (l.set j v).getD j 0 = v := by
  rw [List.getD_eq_getElem _ _ (by simpa using h)]
  simp

theorem truncI_zero (v : Int) : Spiht.truncI 0 v = v := by
  unfold Spiht.truncI
  simp only [pow_zero, Nat.div_one, Nat.mul_one]
  split_ifs with hv <;> omega

theorem truncI_sig (n : Nat) (v : Int) (h1 : 2 ^ n ≤ v.natAbs)
    (h2 : v.natAbs < 2 ^ (n + 1)) :
    (if decide (v < 0) then -(2 ^ n : Int) else (2 ^ n : Int)) = Spiht.truncI n v := by
  have hdiv : v.natAbs / 2 ^ n = 1 := by
    refine Nat.div_eq_of_lt_le (by omega) ?_
    have hh : (2 : Nat) ^ (n + 1) = 2 * 2 ^ n := by rw [pow_succ]; ring
    omega
  unfold Spiht.truncI
  rw [hdiv, one_mul]
  by_cases hv : v < 0 <;> simp [hv]

theorem truncI_step (n : Nat) (v : Int) (h2 : 2 ^ (n + 1) ≤ v.natAbs) :
    (if (v.natAbs / 2 ^ n % 2 == 1) then
      (if Spiht.truncI (n + 1) v < 0 then Spiht.truncI (n + 1) v - 2 ^ n
       else Spiht.truncI (n + 1) v + 2 ^ n)
     else Spiht.truncI (n + 1) v) = Spiht.truncI n v := by
  have hpow : (2 : Nat) ^ (n + 1) = 2 ^ n * 2 := by rw [pow_succ]
  have ht : v.natAbs / 2 ^ (n + 1) = v.natAbs / 2 ^ n / 2 := by
    rw [Nat.div_div_eq_div_mul, hpow]
  have hdm : v.natAbs / 2 ^ n / 2 * 2 + v.natAbs / 2 ^ n % 2 = v.natAbs / 2 ^ n := by
    omega
  have hX : v.natAbs / 2 ^ n * 2 ^ n =
      v.natAbs / 2 ^ (n + 1) * 2 ^ (n + 1) + v.natAbs / 2 ^ n % 2 * 2 ^ n := by
    rw [ht, hpow]
    calc v.natAbs / 2 ^ n * 2 ^ n
        = (v.natAbs / 2 ^ n / 2 * 2 + v.natAbs / 2 ^ n % 2) * 2 ^ n := by rw [hdm]
      _ = v.natAbs / 2 ^ n / 2 * (2 ^ n * 2) + v.natAbs / 2 ^ n % 2 * 2 ^ n := by ring
  have hge : 2 ^ (n + 1) ≤ v.natAbs / 2 ^ (n + 1) * 2 ^ (n + 1) := by
    have h1 : 1 ≤ v.natAbs / 2 ^ (n + 1) :=
      (Nat.one_le_div_iff (Nat.pos_pow_of_pos (n + 1) (by omega))).mpr h2
    calc (2 : Nat) ^ (n + 1) = 1 * 2 ^ (n + 1) := by ring
      _ ≤ v.natAbs / 2 ^ (n + 1) * 2 ^ (n + 1) := mul_le_mul_right' h1 _
  have hposX : 0 < v.natAbs / 2 ^ (n + 1) * 2 ^ (n + 1) := by
    have hp : 0 < (2 : Nat) ^ (n + 1) := Nat.pos_pow_of_pos (n + 1) (by omega)
    omega
  have hc : ((2 ^ n : Nat) : Int) = (2 : Int) ^ n := by push_cast; ring
  have htr1 : Spiht.truncI (n + 1) v =
      (if v < 0 then -((v.natAbs / 2 ^ (n + 1) * 2 ^ (n + 1) : Nat) : Int)
       else ((v.natAbs / 2 ^ (n + 1) * 2 ^ (n + 1) : Nat) : Int)) := rfl
  have htr0 : Spiht.truncI n v =
      (if v < 0 then -((v.natAbs / 2 ^ n * 2 ^ n : Nat) : Int)
       else ((v.natAbs / 2 ^ n * 2 ^ n : Nat) : Int)) := rfl
  by_cases hv : v < 0
  · rw [if_pos hv] at htr1 htr0
    rw [htr1, htr0]
    have hneg : -((v.natAbs / 2 ^ (n + 1) * 2 ^ (n + 1) : Nat) : Int) < 0 := by omega
    by_cases hb : v.natAbs / 2 ^ n % 2 = 1
    · rw [if_pos (by simp [hb]), if_pos hneg]
      rw [hb, one_mul] at hX
      omega
    · rw [if_neg (by simp [hb])]
      have hb0 : v.natAbs / 2 ^ n % 2 = 0 := by omega
      rw [hb0, zero_mul, add_zero] at hX
      omega
  · rw [if_neg hv] at htr1 htr0
    rw [htr1, htr0]
    have hnn : ¬ (((v.natAbs / 2 ^ (n + 1) * 2 ^ (n + 1) : Nat) : Int) < 0) := by omega
    by_cases hb : v.natAbs / 2 ^ n % 2 = 1
    · rw [if_pos (by simp [hb]), if_neg hnn]
      rw [hb, one_mul] at hX
      omega
    · rw [if_neg (by simp [hb])]
      have hb0 : v.natAbs / 2 ^ n % 2 = 0 := by omega
      rw [hb0, zero_mul, add_zero] at hX
      omega

theorem children_length_le (g : Spiht.Geom) (r c : Nat) :
    (Spiht.children g r c).length ≤ 4 := by
  unfold Spiht.children
  have hcb : ∀ h w ro co, (Spiht.childBlock h w ro co).length ≤ 4 := by
    intro h w ro co
    unfold Spiht.childBlock
    have := List.length_filter_le
      (fun q => decide (q.1 < h ∧ q.2 < w))
      [(ro, co), (ro, co + 1), (ro + 1, co), (ro + 1, co + 1)]
    simpa using this
  split_ifs <;> first | exact hcb _ _ _ _ | simp

theorem desc_length_eq (g : Spiht.Geom) (hgv : Spiht.GV g) (r c : Nat) :
    (Spiht.descendants g r c).length =
      (Spiht.children g r c).length + (Spiht.grandDesc g r c).length := by
  rw [descendants_unfold g hgv r c, Spiht.grandDesc]
  rw [List.length_flatMap, List.length_flatMap]
  have h1 : (List.map (List.length ∘ fun q => q :: Spiht.descendants g q.1 q.2)
      (Spiht.children g r c)) =
      List.map (fun q => (Spiht.descendants g q.1 q.2).length + 1)
        (Spiht.children g r c) :=
    List.map_congr_left (fun q _ => by simp)
  have h2 : (List.map (List.length ∘ fun q => Spiht.descendants g q.1 q.2)
      (Spiht.children g r c)) =
      List.map (fun q => (Spiht.descendants g q.1 q.2).length)
        (Spiht.children g r c) := rfl
  rw [h1, h2, sum_map_add' (Spiht.children g r c)
    (fun q => (Spiht.descendants g q.1 q.2).length) (fun _ => 1)]
  have h3 : (List.map (fun _ : Nat × Nat => (1 : Nat)) (Spiht.children g r c)).sum =
      (Spiht.children g r c).length := by simp
  rw [h3]
  omega

theorem packAux_nil (f : Nat) : Spiht.packAux f [] = [] := by
  cases f <;> rfl

theorem bitsOfByte_byteOf : ∀ a b c d e f g2 h2 : Bool,
    Spiht.bitsOfByte (Spiht.byteOf [a, b, c, d, e, f, g2, h2]) =
      [a, b, c, d, e, f, g2, h2] := by
  decide

theorem bitsOfByte_byteOf_len (l : List Bool) (h : l.length = 8) :
    Spiht.bitsOfByte (Spiht.byteOf l) = l := by
  rcases l with _ | ⟨a, l⟩
  · simp at h
  rcases l with _ | ⟨b, l⟩
  · simp at h
  rcases l with _ | ⟨c, l⟩
  · simp at h
  rcases l with _ | ⟨d, l⟩
  · simp at h
  rcases l with _ | ⟨e, l⟩
  · simp at h
  rcases l with _ | ⟨f, l⟩
  · simp at h
  rcases l with _ | ⟨g2, l⟩
  · simp at h
  rcases l with _ | ⟨h2, l⟩
  · simp at h
  rcases l with _ | ⟨i, l⟩
  · exact bitsOfByte_byteOf a b c d e f g2 h2
  · simp at h

theorem unpack_packAux (fuel : Nat) : ∀ bits : List Bool, bits.length ≤ fuel →
    ∃ γ, Spiht.unpack (Spiht.packAux fuel bits) = bits ++ γ := by
  induction fuel using Nat.strong_induction_on with
  | _ fuel ih =>
    intro bits hlen
    cases fuel with
    | zero =>
      have : bits = [] := List.eq_nil_of_length_eq_zero (by omega)
      subst this
      exact ⟨[], rfl⟩
    | succ f =>
      cases bits with
      | nil => exact ⟨[], rfl⟩
      | cons x rest =>
        have hunf : Spiht.packAux (f + 1) (x :: rest) =
            Spiht.byteOf ((x :: rest).take 8 ++
              List.replicate (8 - ((x :: rest).take 8).length) false) ::
              Spiht.packAux f ((x :: rest).drop 8) := rfl
        rw [hunf]
        have hchunklen : (((x :: rest).take 8) ++
            List.replicate (8 - ((x :: rest).take 8).length) false).length = 8 := by
          rw [List.length_append, List.length_replicate]
          have : ((x :: rest).take 8).length ≤ 8 := by
            rw [List.length_take]
            omega
          omega
        have hbyte := bitsOfByte_byteOf_len _ hchunklen
        show ∃ γ, Spiht.bitsOfByte (Spiht.byteOf _) ++
          Spiht.unpack (Spiht.packAux f ((x :: rest).drop 8)) = (x :: rest) ++ γ
        rw [hbyte]
        by_cases hle : 8 ≤ (x :: rest).length
        · have htl : ((x :: rest).take 8).length = 8 := by
            rw [List.length_take]
            omega
          obtain ⟨γ, hγ⟩ := ih f (by omega) ((x :: rest).drop 8)
            (by rw [List.length_drop]; simp only [List.length_cons] at hlen ⊢; omega)
          refine ⟨γ, ?_⟩
          rw [htl]
          simp only [Nat.sub_self, List.replicate_zero, List.append_nil]
          rw [hγ, ← List.append_assoc, List.take_append_drop]
        · have hdrop : (x :: rest).drop 8 = [] :=
            List.drop_eq_nil_of_le (by omega)
          have htake : (x :: rest).take 8 = x :: rest :=
            List.take_of_length_le (by omega)
          rw [hdrop, packAux_nil]
          refine ⟨List.replicate (8 - ((x :: rest).take 8).length) false, ?_⟩
          show (x :: rest).take 8 ++ _ ++ Spiht.unpack [] = _
          rw [htake]
          simp [Spiht.unpack]

theorem unpack_pack (bits : List Bool) :
    ∃ γ, Spiht.unpack (Spiht.pack bits) = bits ++ γ :=
  unpack_packAux bits.length bits le_rfl

/-- One significance test in lockstep: the decoder, fed the encoder's bits,
mirrors the list updates and maintains the truncation invariant. -/
theorem sim_testPos (g : Spiht.Geom) (arr : List Int) (n : Nat) (p : Spiht.Pos)
    (stE : Spiht.St (List Bool)) (rec : List Int)
    (lspOld : List Spiht.Pos) (C : Multiset Spiht.Pos)
    (hbound : (Spiht.getv g arr p).natAbs < 2 ^ (n + 1))
    (H1 : {p} + Spiht.stMul g stE + C ≤ (↑(Spiht.allPos g) : Multiset Spiht.Pos))
    (hsim : Spiht.SimSort g arr n lspOld stE rec) :
    ∃ δ rec',
      (Spiht.testPos (Spiht.encOracle g arr) n p stE).s = stE.s ++ δ ∧
      (∀ γ, Spiht.testPos (Spiht.decOracle g) n p
          ⟨stE.lip, stE.lis, stE.lsp, false, (δ ++ γ, rec)⟩ =
        ⟨(Spiht.testPos (Spiht.encOracle g arr) n p stE).lip,
         (Spiht.testPos (Spiht.encOracle g arr) n p stE).lis,
         (Spiht.testPos (Spiht.encOracle g arr) n p stE).lsp, false, (γ, rec')⟩) ∧
      Spiht.SimSort g arr n lspOld (Spiht.testPos (Spiht.encOracle g arr) n p stE) rec' := by
  obtain ⟨hpA, hpL⟩ := avail_facts g p stE C H1
  obtain ⟨hE, hlipB, hOld, hlspB, hlen, hrec⟩ := hsim
  obtain ⟨lip, lis, lsp, halted, s⟩ := stE
  cases halted with
  | true => simp at hE
  | false =>
    have heq : Spiht.testPos (Spiht.encOracle g arr) n p ⟨lip, lis, lsp, false, s⟩ =
        (if Spiht.significant n (Spiht.getv g arr p) then
          ⟨lip, lis, lsp ++ [p], false,
            s ++ [Spiht.significant n (Spiht.getv g arr p)] ++
              [decide (Spiht.getv g arr p < 0)]⟩
        else
          ⟨lip ++ [p], lis, lsp, false,
            s ++ [Spiht.significant n (Spiht.getv g arr p)]⟩) := rfl
    by_cases hsig : Spiht.significant n (Spiht.getv g arr p) = true
    · have hge : 2 ^ n ≤ (Spiht.getv g arr p).natAbs := of_decide_eq_true hsig
      rw [heq, hsig, if_pos rfl]
      refine ⟨[true, decide (Spiht.getv g arr p < 0)],
        rec.set (Spiht.idx g p)
          (if decide (Spiht.getv g arr p < 0) then -(2 ^ n : Int) else (2 ^ n : Int)),
        by simp [hsig], fun γ => rfl, ?_⟩
      refine ⟨rfl, hlipB, fun q hq => List.mem_append_left _ (hOld q hq),
        ?_, by simpa using hlen, ?_⟩
      · intro q hq
        rcases List.mem_append.mp hq with hql | hqp
        · exact hlspB q hql
        · rw [List.mem_singleton.mp hqp]
          exact hge
      · intro p' hp'
        by_cases hpp : p' = p
        · subst hpp
          have hidx : Spiht.idx g p' < rec.length := by
            rw [hlen]
            exact idx_lt_size g p' hpA
          show (rec.set (Spiht.idx g p') _).getD (Spiht.idx g p') 0 = _
          rw [getD_set_self _ _ _ hidx]
          rw [if_neg (fun hmem => hpL (hOld p' hmem)),
            if_pos (List.mem_append_right _ (List.mem_singleton_self p'))]
          exact truncI_sig n (Spiht.getv g arr p') hge hbound
        · have hne : Spiht.idx g p' ≠ Spiht.idx g p :=
            fun hEq => hpp (idx_inj g p' p hp' hpA hEq)
          show (rec.set (Spiht.idx g p) _).getD (Spiht.idx g p') 0 = _
          rw [getD_set_ne rec (Spiht.idx g p) (Spiht.idx g p') _ hne]
          have hmem : (p' ∈ lsp ++ [p]) ↔ p' ∈ lsp := by
            rw [List.mem_append, List.mem_singleton]
            exact ⟨fun h => h.elim id (fun h' => absurd h' hpp), fun h => .inl h⟩
          rw [hrec p' hp']
          by_cases h1 : p' ∈ lspOld
          · rw [if_pos h1, if_pos h1]
          · rw [if_neg h1, if_neg h1]
            by_cases h2 : p' ∈ lsp
            · rw [if_pos h2, if_pos (hmem.mpr h2)]
            · rw [if_neg h2, if_neg (fun hc => h2 (hmem.mp hc))]
    · have hlt : (Spiht.getv g arr p).natAbs < 2 ^ n := by
        have h := hsig
        simp [Spiht.significant] at h
        omega
      have hsigf : Spiht.significant n (Spiht.getv g arr p) = false :=
        Bool.eq_false_iff.mpr hsig
      rw [heq, hsigf, if_neg (by simp)]
      refine ⟨[false], rec, by simp [hsigf], fun γ => rfl, ?_⟩
      refine ⟨rfl, ?_, hOld, hlspB, hlen, hrec⟩
      intro q hq
      rcases List.mem_append.mp hq with hql | hqp
      · exact hlipB q hql
      · rw [List.mem_singleton.mp hqp]
        exact hlt

/-- The LIP pass in lockstep. -/
theorem sim_lipPass (g : Spiht.Geom) (arr : List Int) (n : Nat)
    (pending : List Spiht.Pos) (stE : Spiht.St (List Bool)) (rec : List Int)
    (lspOld : List Spiht.Pos) (C : Multiset Spiht.Pos)
    (hbound : ∀ q ∈ pending, (Spiht.getv g arr q).natAbs < 2 ^ (n + 1))
    (H1 : ↑pending + Spiht.stMul g stE + C ≤ (↑(Spiht.allPos g) : Multiset Spiht.Pos))
    (hsim : Spiht.SimSort g arr n lspOld stE rec) :
    ∃ δ rec',
      (Spiht.lipPass (Spiht.encOracle g arr) n pending stE).s = stE.s ++ δ ∧
      (∀ γ, Spiht.lipPass (Spiht.decOracle g) n pending
          ⟨stE.lip, stE.lis, stE.lsp, false, (δ ++ γ, rec)⟩ =
        ⟨(Spiht.lipPass (Spiht.encOracle g arr) n pending stE).lip,
         (Spiht.lipPass (Spiht.encOracle g arr) n pending stE).lis,
         (Spiht.lipPass (Spiht.encOracle g arr) n pending stE).lsp, false, (γ, rec')⟩) ∧
      Spiht.SimSort g arr n lspOld
        (Spiht.lipPass (Spiht.encOracle g arr) n pending stE) rec' := by
  revert hbound H1 hsim
  induction pending generalizing stE rec C with
  | nil =>
    intro _ _ hsim
    exact ⟨[], rec, by simp [Spiht.lipPass], fun γ => by simp [Spiht.lipPass], hsim⟩
  | cons p rest ih =>
    intro hbound H1 hsim
    have hsplit : (↑(p :: rest) : Multiset Spiht.Pos) = {p} + ↑rest := by
      rw [← Multiset.cons_coe, Multiset.singleton_add]
    have H1p : {p} + Spiht.stMul g stE + (C + ↑rest) ≤ ↑(Spiht.allPos g) := by
      refine le_trans (le_of_eq ?_) H1
      rw [hsplit]
      abel
    obtain ⟨δp, rec1, hsE, hsD, hsim1⟩ := sim_testPos g arr n p stE rec lspOld (C + ↑rest)
      (hbound p (List.mem_cons_self p rest)) H1p hsim
    have hmul : Spiht.stMul g (Spiht.testPos (Spiht.encOracle g arr) n p stE) =
        Spiht.stMul g stE + {p} :=
      (testPos_mul g (Spiht.encOracle g arr) n p stE).2 hsim1.1
    have H1' : ↑rest + Spiht.stMul g (Spiht.testPos (Spiht.encOracle g arr) n p stE) + C ≤
        (↑(Spiht.allPos g) : Multiset Spiht.Pos) := by
      refine le_trans (le_of_eq ?_) H1
      rw [hmul, hsplit]
      abel
    obtain ⟨δr, rec2, hE, hD, hsim2⟩ := ih (Spiht.testPos (Spiht.encOracle g arr) n p stE)
      rec1 C (fun q hq => hbound q (List.mem_cons_of_mem p hq)) H1' hsim1
    refine ⟨δp ++ δr, rec2, ?_, ?_, hsim2⟩
    · show (Spiht.lipPass (Spiht.encOracle g arr) n rest
        (Spiht.testPos (Spiht.encOracle g arr) n p stE)).s = stE.s ++ (δp ++ δr)
      rw [hE, hsE, List.append_assoc]
    · intro γ
      show Spiht.lipPass (Spiht.decOracle g) n (p :: rest)
          ⟨stE.lip, stE.lis, stE.lsp, false, ((δp ++ δr) ++ γ, rec)⟩ = _
      rw [show ((δp ++ δr) ++ γ) = δp ++ (δr ++ γ) from List.append_assoc δp δr γ]
      show Spiht.lipPass (Spiht.decOracle g) n rest
          (Spiht.testPos (Spiht.decOracle g) n p
            ⟨stE.lip, stE.lis, stE.lsp, false, (δp ++ (δr ++ γ), rec)⟩) = _
      rw [hsD (δr ++ γ)]
      exact hD γ

/-- The child-test fold of a significant type-A entry, in lockstep. -/
theorem sim_foldChildren (g : Spiht.Geom) (arr : List Int) (n : Nat) (k : Nat)
    (l : List (Nat × Nat)) (stE : Spiht.St (List Bool)) (rec : List Int)
    (lspOld : List Spiht.Pos) (C : Multiset Spiht.Pos)
    (hbound : ∀ q ∈ l, (Spiht.getv g arr (k, q.1, q.2)).natAbs < 2 ^ (n + 1))
    (H1 : ↑(l.map (fun q => ((k, q.1, q.2) : Spiht.Pos))) + Spiht.stMul g stE + C ≤
      (↑(Spiht.allPos g) : Multiset Spiht.Pos))
    (hsim : Spiht.SimSort g arr n lspOld stE rec) :
    ∃ δ rec',
      (l.foldl (fun acc q => Spiht.testPos (Spiht.encOracle g arr) n (k, q.1, q.2) acc)
        stE).s = stE.s ++ δ ∧
      (∀ γ, l.foldl (fun acc q => Spiht.testPos (Spiht.decOracle g) n (k, q.1, q.2) acc)
          ⟨stE.lip, stE.lis, stE.lsp, false, (δ ++ γ, rec)⟩ =
        ⟨(l.foldl (fun acc q => Spiht.testPos (Spiht.encOracle g arr) n (k, q.1, q.2) acc)
            stE).lip,
         (l.foldl (fun acc q => Spiht.testPos (Spiht.encOracle g arr) n (k, q.1, q.2) acc)
            stE).lis,
         (l.foldl (fun acc q => Spiht.testPos (Spiht.encOracle g arr) n (k, q.1, q.2) acc)
            stE).lsp, false, (γ, rec')⟩) ∧
      Spiht.SimSort g arr n lspOld
        (l.foldl (fun acc q => Spiht.testPos (Spiht.encOracle g arr) n (k, q.1, q.2) acc)
          stE) rec' := by
  revert hbound H1 hsim
  induction l generalizing stE rec C with
  | nil =>
    intro _ _ hsim
    exact ⟨[], rec, by simp, fun γ => by simp, hsim⟩
  | cons q rest ih =>
    intro hbound H1 hsim
    have hsplit : (↑((q :: rest).map (fun s => ((k, s.1, s.2) : Spiht.Pos))) :
        Multiset Spiht.Pos) = {((k, q.1, q.2) : Spiht.Pos)} +
          ↑(rest.map (fun s => ((k, s.1, s.2) : Spiht.Pos))) := by
      rw [List.map_cons, ← Multiset.cons_coe, Multiset.singleton_add]
    have H1p : {((k, q.1, q.2) : Spiht.Pos)} + Spiht.stMul g stE +
        (C + ↑(rest.map (fun s => ((k, s.1, s.2) : Spiht.Pos)))) ≤ ↑(Spiht.allPos g) := by
      refine le_trans (le_of_eq ?_) H1
      rw [hsplit]
      abel
    obtain ⟨δp, rec1, hsE, hsD, hsim1⟩ := sim_testPos g arr n (k, q.1, q.2) stE rec lspOld
      _ (hbound q (List.mem_cons_self q rest)) H1p hsim
    have hmul : Spiht.stMul g (Spiht.testPos (Spiht.encOracle g arr) n (k, q.1, q.2) stE) =
        Spiht.stMul g stE + {((k, q.1, q.2) : Spiht.Pos)} :=
      (testPos_mul g (Spiht.encOracle g arr) n (k, q.1, q.2) stE).2 hsim1.1
    have H1' : ↑(rest.map (fun s => ((k, s.1, s.2) : Spiht.Pos))) +
        Spiht.stMul g (Spiht.testPos (Spiht.encOracle g arr) n (k, q.1, q.2) stE) + C ≤
        (↑(Spiht.allPos g) : Multiset Spiht.Pos) := by
      refine le_trans (le_of_eq ?_) H1
      rw [hmul, hsplit]
      abel
    obtain ⟨δr, rec2, hE, hD, hsim2⟩ := ih
      (Spiht.testPos (Spiht.encOracle g arr) n (k, q.1, q.2) stE) rec1 C
      (fun s hs => hbound s (List.mem_cons_of_mem q hs)) H1' hsim1
    refine ⟨δp ++ δr, rec2, ?_, ?_, hsim2⟩
    · show ((rest).foldl _ (Spiht.testPos (Spiht.encOracle g arr) n (k, q.1, q.2) stE)).s =
        stE.s ++ (δp ++ δr)
      rw [hE, hsE, List.append_assoc]
    · intro γ
      show (rest).foldl _
          (Spiht.testPos (Spiht.decOracle g) n (k, q.1, q.2)
            ⟨stE.lip, stE.lis, stE.lsp, false, ((δp ++ δr) ++ γ, rec)⟩) = _
      rw [show ((δp ++ δr) ++ γ) = δp ++ (δr ++ γ) from List.append_assoc δp δr γ]
      rw [hsD (δr ++ γ)]
      exact hD γ

theorem testPos_lis {σ : Type} (O : Spiht.Oracle σ) (n : Nat) (p : Spiht.Pos)
    (st : Spiht.St σ) : (Spiht.testPos O n p st).lis = st.lis := by
  unfold Spiht.testPos
  split_ifs
  · rfl
  · cases hs : O.sigBit n p st.s with
    | none => rfl
    | some v =>
      obtain ⟨b, s1⟩ := v
      cases b with
      | false => rfl
      | true =>
        simp only
        cases hs2 : O.signBit n p s1 with
        | none => rfl
        | some v2 => obtain ⟨b2, s2⟩ := v2; rfl

theorem foldChildren_lis {σ : Type} (O : Spiht.Oracle σ) (n : Nat) (k : Nat)
    (l : List (Nat × Nat)) (st : Spiht.St σ) :
    (l.foldl (fun acc q => Spiht.testPos O n (k, q.1, q.2) acc) st).lis = st.lis := by
  induction l generalizing st with
  | nil => rfl
  | cons q rest ih => rw [List.foldl_cons, ih, testPos_lis]

theorem mem_children_desc (g : Spiht.Geom) (hgv : Spiht.GV g) (r c : Nat)
    (q : Nat × Nat) (hq : q ∈ Spiht.children g r c) : q ∈ Spiht.descendants g r c := by
  rw [descendants_unfold g hgv r c]
  exact List.mem_flatMap.mpr ⟨q, hq, List.mem_cons_self q _⟩

theorem mem_grandDesc_desc (g : Spiht.Geom) (hgv : Spiht.GV g) (r c : Nat)
    (q : Nat × Nat) (hq : q ∈ Spiht.grandDesc g r c) : q ∈ Spiht.descendants g r c := by
  rw [Spiht.grandDesc] at hq
  obtain ⟨x, hx, hqx⟩ := List.mem_flatMap.mp hq
  rw [descendants_unfold g hgv r c]
  exact List.mem_flatMap.mpr ⟨x, hx, List.mem_cons_of_mem x hqx⟩

theorem lisMeasure_cons (g : Spiht.Geom) (e : Spiht.Pos × Bool)
    (l : List (Spiht.Pos × Bool)) :
    Spiht.lisMeasure g (e :: l) = Spiht.entM g e + Spiht.lisMeasure g l := by
  simp [Spiht.lisMeasure]

theorem lisMeasure_append (g : Spiht.Geom) (l1 l2 : List (Spiht.Pos × Bool)) :
    Spiht.lisMeasure g (l1 ++ l2) = Spiht.lisMeasure g l1 + Spiht.lisMeasure g l2 := by
  simp [Spiht.lisMeasure]

theorem entM_A (g : Spiht.Geom) (p : Spiht.Pos) :
    Spiht.entM g (p, true) = 5 * (Spiht.descendants g p.2.1 p.2.2).length + 1 := rfl

theorem entM_B (g : Spiht.Geom) (p : Spiht.Pos) :
    Spiht.entM g (p, false) = 5 * (Spiht.grandDesc g p.2.1 p.2.2).length + 5 := rfl

theorem sum_map_mul' {α : Type} (l : List α) (f : α → Nat) (c : Nat) :
    (l.map (fun x => c * f x)).sum = c * (l.map f).sum := by
  induction l with
  | nil => simp
  | cons x xs ih => simp [ih, Nat.mul_add]

theorem children_ne_nil_of_gd (g : Spiht.Geom) (r c : Nat)
    (h : Spiht.grandDesc g r c ≠ []) : Spiht.children g r c ≠ [] := by
  intro hc
  exact h (by rw [Spiht.grandDesc, hc]; rfl)

theorem lisMeasure_childrenA (g : Spiht.Geom) (k r c : Nat) :
    Spiht.lisMeasure g ((Spiht.children g r c).map
      (fun q => (((k, q.1, q.2) : Spiht.Pos), true))) =
      5 * (Spiht.grandDesc g r c).length + (Spiht.children g r c).length := by
  unfold Spiht.lisMeasure
  rw [List.map_map]
  have h1 : ((Spiht.entM g) ∘ fun q : Nat × Nat => (((k, q.1, q.2) : Spiht.Pos), true)) =
      fun q : Nat × Nat => 5 * (Spiht.descendants g q.1 q.2).length + 1 := rfl
  rw [h1, sum_map_add' (Spiht.children g r c)
    (fun q => 5 * (Spiht.descendants g q.1 q.2).length) (fun _ => 1)]
  rw [sum_map_mul' (Spiht.children g r c) (fun q => (Spiht.descendants g q.1 q.2).length) 5]
  have h2 : (List.map (fun _ : Nat × Nat => (1 : Nat)) (Spiht.children g r c)).sum =
      (Spiht.children g r c).length := by simp
  rw [h2, Spiht.grandDesc, List.length_flatMap]
  rfl

theorem desc_le_dmax (g : Spiht.Geom) (arr : List Int) (k r c : Nat) (q : Nat × Nat)
    (hq : q ∈ Spiht.descendants g r c) :
    (Spiht.getv g arr (k, q.1, q.2)).natAbs ≤ Spiht.dmax g arr k r c :=
  foldl_max_mem (Spiht.descendants g r c)
    (fun q => (Spiht.getv g arr (k, q.1, q.2)).natAbs) 0 q hq

theorem gd_le_lmax (g : Spiht.Geom) (arr : List Int) (k r c : Nat) (q : Nat × Nat)
    (hq : q ∈ Spiht.grandDesc g r c) :
    (Spiht.getv g arr (k, q.1, q.2)).natAbs ≤ Spiht.lmax g arr k r c :=
  foldl_max_mem (Spiht.grandDesc g r c)
    (fun q => (Spiht.getv g arr (k, q.1, q.2)).natAbs) 0 q hq

/-- The LIS pass in lockstep: with sufficient fuel (one more than the
worklist measure), the decoder mirrors the encoder's work-list evolution and
maintains the truncation invariant; surviving LIS entries are insignificant
at the current plane. -/
theorem sim_lisPass (g : Spiht.Geom) (hgv : Spiht.GV g) (arr : List Int) (n : Nat)
    (fuel : Nat) (pending : List (Spiht.Pos × Bool)) (stE : Spiht.St (List Bool))
    (rec : List Int) (lspOld : List Spiht.Pos) (C : Multiset Spiht.Pos)
    (hfuel : Spiht.lisMeasure g pending + 1 ≤ fuel)
    (hWL : ∀ e ∈ pending, ∀ x ∈ Spiht.covP g e,
      (Spiht.getv g arr x).natAbs < 2 ^ (n + 1))
    (hacc : ∀ e ∈ stE.lis, ∀ x ∈ Spiht.covP g e, (Spiht.getv g arr x).natAbs < 2 ^ n)
    (H1 : ↑(pending.flatMap (Spiht.covP g)) + Spiht.stMul g stE + C ≤
      (↑(Spiht.allPos g) : Multiset Spiht.Pos))
    (hsim : Spiht.SimSort g arr n lspOld stE rec) :
    ∃ δ rec',
      (Spiht.lisPass g (Spiht.encOracle g arr) n fuel pending stE).s = stE.s ++ δ ∧
      (∀ γ, Spiht.lisPass g (Spiht.decOracle g) n fuel pending
          ⟨stE.lip, stE.lis, stE.lsp, false, (δ ++ γ, rec)⟩ =
        ⟨(Spiht.lisPass g (Spiht.encOracle g arr) n fuel pending stE).lip,
         (Spiht.lisPass g (Spiht.encOracle g arr) n fuel pending stE).lis,
         (Spiht.lisPass g (Spiht.encOracle g arr) n fuel pending stE).lsp,
         false, (γ, rec')⟩) ∧
      Spiht.SimSort g arr n lspOld
        (Spiht.lisPass g (Spiht.encOracle g arr) n fuel pending stE) rec' ∧
      (∀ e ∈ (Spiht.lisPass g (Spiht.encOracle g arr) n fuel pending stE).lis,
        ∀ x ∈ Spiht.covP g e, (Spiht.getv g arr x).natAbs < 2 ^ n) := by
  revert hfuel hWL hacc H1 hsim
  induction fuel generalizing pending stE rec C with
  | zero =>
    intro hfuel _ _ _ _
    omega
  | succ f ih =>
    intro hfuel hWL hacc H1 hsim
    cases pending with
    | nil =>
      exact ⟨[], rec, by simp [Spiht.lisPass], fun γ => by simp [Spiht.lisPass],
        hsim, hacc⟩
    | cons e rest =>
      obtain ⟨p, isA⟩ := e
      obtain ⟨lip, lis, lsp, halted, s⟩ := stE
      cases halted with
      | true => exact absurd hsim.1 (by simp)
      | false =>
        have hcov : (↑(((p, isA) :: rest).flatMap (Spiht.covP g)) : Multiset Spiht.Pos) =
            ↑(Spiht.covP g (p, isA)) + ↑(rest.flatMap (Spiht.covP g)) := by
          rw [List.flatMap_cons, Multiset.coe_add]
        have hmcons := lisMeasure_cons g (p, isA) rest
        cases isA with
        | true =>
          have heqE : Spiht.lisPass g (Spiht.encOracle g arr) n (f + 1)
              ((p, true) :: rest) ⟨lip, lis, lsp, false, s⟩ =
              (if decide (2 ^ n ≤ Spiht.dmax g arr p.1 p.2.1 p.2.2) then
                (if (Spiht.grandDesc g p.2.1 p.2.2).isEmpty then
                  Spiht.lisPass g (Spiht.encOracle g arr) n f rest
                    ((Spiht.children g p.2.1 p.2.2).foldl
                      (fun acc q =>
                        Spiht.testPos (Spiht.encOracle g arr) n (p.1, q.1, q.2) acc)
                      ⟨lip, lis, lsp, false,
                        s ++ [decide (2 ^ n ≤ Spiht.dmax g arr p.1 p.2.1 p.2.2)]⟩)
                else
                  Spiht.lisPass g (Spiht.encOracle g arr) n f (rest ++ [(p, false)])
                    ((Spiht.children g p.2.1 p.2.2).foldl
                      (fun acc q =>
                        Spiht.testPos (Spiht.encOracle g arr) n (p.1, q.1, q.2) acc)
                      ⟨lip, lis, lsp, false,
                        s ++ [decide (2 ^ n ≤ Spiht.dmax g arr p.1 p.2.1 p.2.2)]⟩))
              else
                Spiht.lisPass g (Spiht.encOracle g arr) n f rest
                  ⟨lip, lis ++ [(p, true)], lsp, false,
                    s ++ [decide (2 ^ n ≤ Spiht.dmax g arr p.1 p.2.1 p.2.2)]⟩) := rfl
          by_cases hm : 2 ^ n ≤ Spiht.dmax g arr p.1 p.2.1 p.2.2
          · have hbit : decide (2 ^ n ≤ Spiht.dmax g arr p.1 p.2.1 p.2.2) = true :=
              decide_eq_true hm
            rw [heqE, hbit, if_pos rfl]
            have hsmul : Spiht.stMul g
                (⟨lip, lis, lsp, false, s ++ [true]⟩ : Spiht.St (List Bool)) =
                Spiht.stMul g (⟨lip, lis, lsp, false, s⟩ : Spiht.St (List Bool)) := rfl
            have hcovsplit : (↑(((p, true) :: rest).flatMap (Spiht.covP g)) :
                Multiset Spiht.Pos) =
                ↑((Spiht.children g p.2.1 p.2.2).map
                    (fun q => ((p.1, q.1, q.2) : Spiht.Pos))) +
                  ↑(Spiht.covP g (p, false)) + ↑(rest.flatMap (Spiht.covP g)) := by
              rw [hcov, covP_split g hgv p]
            have HCH : ↑((Spiht.children g p.2.1 p.2.2).map
                  (fun q => ((p.1, q.1, q.2) : Spiht.Pos))) +
                Spiht.stMul g
                  (⟨lip, lis, lsp, false, s ++ [true]⟩ : Spiht.St (List Bool)) +
                (C + ↑(Spiht.covP g (p, false)) + ↑(rest.flatMap (Spiht.covP g))) ≤
                (↑(Spiht.allPos g) : Multiset Spiht.Pos) := by
              refine le_trans (le_of_eq ?_) H1
              rw [hcovsplit, hsmul]
              abel
            have hsim0 : Spiht.SimSort g arr n lspOld
                ⟨lip, lis, lsp, false, s ++ [true]⟩ rec := hsim
            have hboundc : ∀ q ∈ Spiht.children g p.2.1 p.2.2,
                (Spiht.getv g arr (p.1, q.1, q.2)).natAbs < 2 ^ (n + 1) := by
              intro q hq
              refine hWL (p, true) (List.mem_cons_self _ _) (p.1, q.1, q.2) ?_
              exact List.mem_map.mpr ⟨q, mem_children_desc g hgv _ _ q hq, rfl⟩
            obtain ⟨δc, rec1, hcE, hcD, hsimc⟩ := sim_foldChildren g arr n p.1
              (Spiht.children g p.2.1 p.2.2) ⟨lip, lis, lsp, false, s ++ [true]⟩ rec
              lspOld (C + ↑(Spiht.covP g (p, false)) + ↑(rest.flatMap (Spiht.covP g)))
              hboundc HCH hsim0
            have hmulc : Spiht.stMul g ((Spiht.children g p.2.1 p.2.2).foldl
                (fun acc q => Spiht.testPos (Spiht.encOracle g arr) n (p.1, q.1, q.2) acc)
                ⟨lip, lis, lsp, false, s ++ [true]⟩) =
                Spiht.stMul g
                    (⟨lip, lis, lsp, false, s ++ [true]⟩ : Spiht.St (List Bool)) +
                  ↑((Spiht.children g p.2.1 p.2.2).map
                    (fun q => ((p.1, q.1, q.2) : Spiht.Pos))) :=
              (foldChildren_mul g (Spiht.encOracle g arr) n p.1
                (Spiht.children g p.2.1 p.2.2) _).2 hsimc.1
            have hlisc : ((Spiht.children g p.2.1 p.2.2).foldl
                (fun acc q => Spiht.testPos (Spiht.encOracle g arr) n (p.1, q.1, q.2) acc)
                ⟨lip, lis, lsp, false, s ++ [true]⟩).lis = lis :=
              foldChildren_lis (Spiht.encOracle g arr) n p.1 _ _
            have haccc : ∀ e ∈ ((Spiht.children g p.2.1 p.2.2).foldl
                (fun acc q => Spiht.testPos (Spiht.encOracle g arr) n (p.1, q.1, q.2) acc)
                ⟨lip, lis, lsp, false, s ++ [true]⟩).lis,
                ∀ x ∈ Spiht.covP g e, (Spiht.getv g arr x).natAbs < 2 ^ n := by
              rw [hlisc]
              exact hacc
            by_cases hgd : (Spiht.grandDesc g p.2.1 p.2.2).isEmpty = true
            · rw [hgd, if_pos rfl]
              have hfuel' : Spiht.lisMeasure g rest + 1 ≤ f := by
                have hA := entM_A g p
                omega
              have H1r : ↑(rest.flatMap (Spiht.covP g)) +
                  Spiht.stMul g ((Spiht.children g p.2.1 p.2.2).foldl
                    (fun acc q =>
                      Spiht.testPos (Spiht.encOracle g arr) n (p.1, q.1, q.2) acc)
                    ⟨lip, lis, lsp, false, s ++ [true]⟩) + C ≤
                  (↑(Spiht.allPos g) : Multiset Spiht.Pos) := by
                have hrearr : ↑(rest.flatMap (Spiht.covP g)) +
                    Spiht.stMul g ((Spiht.children g p.2.1 p.2.2).foldl
                      (fun acc q =>
                        Spiht.testPos (Spiht.encOracle g arr) n (p.1, q.1, q.2) acc)
                      ⟨lip, lis, lsp, false, s ++ [true]⟩) + C +
                    ↑(Spiht.covP g (p, false)) =
                    ↑(((p, true) :: rest).flatMap (Spiht.covP g)) +
                      Spiht.stMul g (⟨lip, lis, lsp, false, s⟩ : Spiht.St (List Bool)) +
                      C := by
                  rw [hmulc, hsmul, hcovsplit]
                  abel
                exact le_trans (Multiset.le_add_right _ _)
                  (le_trans (le_of_eq hrearr) H1)
              obtain ⟨δr, rec2, hrE, hrD, hsim2, hacc2⟩ := ih rest _ rec1 C hfuel'
                (fun e he => hWL e (List.mem_cons_of_mem _ he)) haccc H1r hsimc
              refine ⟨true :: (δc ++ δr), rec2, ?_, ?_, hsim2, hacc2⟩
              · rw [hrE, hcE]
                simp
              · intro γ
                have hstream : (true :: (δc ++ δr)) ++ γ = true :: (δc ++ (δr ++ γ)) := by
                  simp
                rw [hstream]
                have heqD : Spiht.lisPass g (Spiht.decOracle g) n (f + 1)
                    ((p, true) :: rest)
                    ⟨lip, lis, lsp, false, (true :: (δc ++ (δr ++ γ)), rec)⟩ =
                    (if (Spiht.grandDesc g p.2.1 p.2.2).isEmpty then
                      Spiht.lisPass g (Spiht.decOracle g) n f rest
                        ((Spiht.children g p.2.1 p.2.2).foldl
                          (fun acc q =>
                            Spiht.testPos (Spiht.decOracle g) n (p.1, q.1, q.2) acc)
                          ⟨lip, lis, lsp, false, (δc ++ (δr ++ γ), rec)⟩)
                    else
                      Spiht.lisPass g (Spiht.decOracle g) n f (rest ++ [(p, false)])
                        ((Spiht.children g p.2.1 p.2.2).foldl
                          (fun acc q =>
                            Spiht.testPos (Spiht.decOracle g) n (p.1, q.1, q.2) acc)
                          ⟨lip, lis, lsp, false, (δc ++ (δr ++ γ), rec)⟩)) := rfl
                rw [heqD, hgd, if_pos rfl, hcD (δr ++ γ)]
                exact hrD γ
            · have hgd' : (Spiht.grandDesc g p.2.1 p.2.2).isEmpty = false :=
                Bool.eq_false_iff.mpr hgd
              rw [hgd', if_neg Bool.false_ne_true]
              have hgdne : Spiht.grandDesc g p.2.1 p.2.2 ≠ [] := by
                intro hnil
                exact hgd (by rw [hnil]; rfl)
              have hchne : Spiht.children g p.2.1 p.2.2 ≠ [] :=
                children_ne_nil_of_gd g _ _ hgdne
              have hchpos : 0 < (Spiht.children g p.2.1 p.2.2).length :=
                List.length_pos.mpr hchne
              have hfuel' : Spiht.lisMeasure g (rest ++ [(p, false)]) + 1 ≤ f := by
                rw [lisMeasure_append]
                have hA := entM_A g p
                have hB := entM_B g p
                have hone : Spiht.lisMeasure g [(p, false)] = Spiht.entM g (p, false) := by
                  rw [lisMeasure_cons]
                  simp [Spiht.lisMeasure]
                have hdl := desc_length_eq g hgv p.2.1 p.2.2
                omega
              have hWLr : ∀ e ∈ rest ++ [(p, false)], ∀ x ∈ Spiht.covP g e,
                  (Spiht.getv g arr x).natAbs < 2 ^ (n + 1) := by
                intro e he
                rcases List.mem_append.mp he with he1 | he2
                · exact hWL e (List.mem_cons_of_mem _ he1)
                · rw [List.mem_singleton.mp he2]
                  intro x hx
                  refine hWL (p, true) (List.mem_cons_self _ _) x ?_
                  obtain ⟨q, hq, hqx⟩ := List.mem_map.mp hx
                  exact List.mem_map.mpr ⟨q, mem_grandDesc_desc g hgv _ _ q hq, hqx⟩
              have hcov1 : (↑((rest ++ [(p, false)]).flatMap (Spiht.covP g)) :
                  Multiset Spiht.Pos) =
                  ↑(rest.flatMap (Spiht.covP g)) + ↑(Spiht.covP g (p, false)) := by
                rw [List.flatMap_append, Multiset.coe_add]
                simp only [List.flatMap_cons, List.flatMap_nil, List.append_nil]
              have H1r : ↑((rest ++ [(p, false)]).flatMap (Spiht.covP g)) +
                  Spiht.stMul g ((Spiht.children g p.2.1 p.2.2).foldl
                    (fun acc q =>
                      Spiht.testPos (Spiht.encOracle g arr) n (p.1, q.1, q.2) acc)
                    ⟨lip, lis, lsp, false, s ++ [true]⟩) + C ≤
                  (↑(Spiht.allPos g) : Multiset Spiht.Pos) := by
                refine le_trans (le_of_eq ?_) H1
                rw [hcov1, hmulc, hsmul, hcovsplit]
                abel
              obtain ⟨δr, rec2, hrE, hrD, hsim2, hacc2⟩ := ih (rest ++ [(p, false)]) _
                rec1 C hfuel' hWLr haccc H1r hsimc
              refine ⟨true :: (δc ++ δr), rec2, ?_, ?_, hsim2, hacc2⟩
              · rw [hrE, hcE]
                simp
              · intro γ
                have hstream : (true :: (δc ++ δr)) ++ γ = true :: (δc ++ (δr ++ γ)) := by
                  simp
                rw [hstream]
                have heqD : Spiht.lisPass g (Spiht.decOracle g) n (f + 1)
                    ((p, true) :: rest)
                    ⟨lip, lis, lsp, false, (true :: (δc ++ (δr ++ γ)), rec)⟩ =
                    (if (Spiht.grandDesc g p.2.1 p.2.2).isEmpty then
                      Spiht.lisPass g (Spiht.decOracle g) n f rest
                        ((Spiht.children g p.2.1 p.2.2).foldl
                          (fun acc q =>
                            Spiht.testPos (Spiht.decOracle g) n (p.1, q.1, q.2) acc)
                          ⟨lip, lis, lsp, false, (δc ++ (δr ++ γ), rec)⟩)
                    else
                      Spiht.lisPass g (Spiht.decOracle g) n f (rest ++ [(p, false)])
                        ((Spiht.children g p.2.1 p.2.2).foldl
                          (fun acc q =>
                            Spiht.testPos (Spiht.decOracle g) n (p.1, q.1, q.2) acc)
                          ⟨lip, lis, lsp, false, (δc ++ (δr ++ γ), rec)⟩)) := rfl
                rw [heqD, hgd', if_neg Bool.false_ne_true, hcD (δr ++ γ)]
                exact hrD γ
          · have hbit : decide (2 ^ n ≤ Spiht.dmax g arr p.1 p.2.1 p.2.2) = false :=
              decide_eq_false hm
            rw [heqE, hbit, if_neg Bool.false_ne_true]
            have hfuel' : Spiht.lisMeasure g rest + 1 ≤ f := by
              have hA := entM_A g p
              omega
            have haccr : ∀ e ∈ lis ++ [(p, true)], ∀ x ∈ Spiht.covP g e,
                (Spiht.getv g arr x).natAbs < 2 ^ n := by
              intro e he
              rcases List.mem_append.mp he with he1 | he2
              · exact hacc e he1
              · rw [List.mem_singleton.mp he2]
                intro x hx
                obtain ⟨q, hq, rfl⟩ := List.mem_map.mp hx
                have hd := desc_le_dmax g arr p.1 p.2.1 p.2.2 q hq
                show (Spiht.getv g arr (p.1, q.1, q.2)).natAbs < 2 ^ n
                omega
            have H1r : ↑(rest.flatMap (Spiht.covP g)) +
                Spiht.stMul g (⟨lip, lis ++ [(p, true)], lsp, false,
                  s ++ [false]⟩ : Spiht.St (List Bool)) + C ≤
                (↑(Spiht.allPos g) : Multiset Spiht.Pos) := by
              have hm2 : Spiht.stMul g (⟨lip, lis ++ [(p, true)], lsp, false,
                  s ++ [false]⟩ : Spiht.St (List Bool)) =
                  Spiht.stMul g (⟨lip, lis, lsp, false, s⟩ : Spiht.St (List Bool)) +
                    ↑(Spiht.covP g (p, true)) :=
                stMul_lis_append g ⟨lip, lis, lsp, false, s⟩ (p, true) (s ++ [false])
              refine le_trans (le_of_eq ?_) H1
              rw [hm2, hcov]
              abel
            have hsim0 : Spiht.SimSort g arr n lspOld
                ⟨lip, lis ++ [(p, true)], lsp, false, s ++ [false]⟩ rec := hsim
            obtain ⟨δr, rec2, hrE, hrD, hsim2, hacc2⟩ := ih rest _ rec C hfuel'
              (fun e he => hWL e (List.mem_cons_of_mem _ he)) haccr H1r hsim0
            refine ⟨false :: δr, rec2, ?_, ?_, hsim2, hacc2⟩
            · rw [hrE]
              simp
            · intro γ
              have hstream : (false :: δr) ++ γ = false :: (δr ++ γ) := by simp
              rw [hstream]
              have heqD : Spiht.lisPass g (Spiht.decOracle g) n (f + 1)
                  ((p, true) :: rest)
                  ⟨lip, lis, lsp, false, (false :: (δr ++ γ), rec)⟩ =
                  Spiht.lisPass g (Spiht.decOracle g) n f rest
                    ⟨lip, lis ++ [(p, true)], lsp, false, (δr ++ γ, rec)⟩ := rfl
              rw [heqD]
              exact hrD γ
        | false =>
          have heqE : Spiht.lisPass g (Spiht.encOracle g arr) n (f + 1)
              ((p, false) :: rest) ⟨lip, lis, lsp, false, s⟩ =
              (if decide (2 ^ n ≤ Spiht.lmax g arr p.1 p.2.1 p.2.2) then
                Spiht.lisPass g (Spiht.encOracle g arr) n f
                  (rest ++ (Spiht.children g p.2.1 p.2.2).map
                    (fun q => (((p.1, q.1, q.2) : Spiht.Pos), true)))
                  ⟨lip, lis, lsp, false,
                    s ++ [decide (2 ^ n ≤ Spiht.lmax g arr p.1 p.2.1 p.2.2)]⟩
              else
                Spiht.lisPass g (Spiht.encOracle g arr) n f rest
                  ⟨lip, lis ++ [(p, false)], lsp, false,
                    s ++ [decide (2 ^ n ≤ Spiht.lmax g arr p.1 p.2.1 p.2.2)]⟩) := rfl
          by_cases hm : 2 ^ n ≤ Spiht.lmax g arr p.1 p.2.1 p.2.2
          · have hbit : decide (2 ^ n ≤ Spiht.lmax g arr p.1 p.2.1 p.2.2) = true :=
              decide_eq_true hm
            rw [heqE, hbit, if_pos rfl]
            have hfuel' : Spiht.lisMeasure g (rest ++ (Spiht.children g p.2.1 p.2.2).map
                (fun q => (((p.1, q.1, q.2) : Spiht.Pos), true))) + 1 ≤ f := by
              rw [lisMeasure_append, lisMeasure_childrenA g p.1 p.2.1 p.2.2]
              have hB := entM_B g p
              have hch := children_length_le g p.2.1 p.2.2
              omega
            have hWLr : ∀ e ∈ rest ++ (Spiht.children g p.2.1 p.2.2).map
                (fun q => (((p.1, q.1, q.2) : Spiht.Pos), true)),
                ∀ x ∈ Spiht.covP g e, (Spiht.getv g arr x).natAbs < 2 ^ (n + 1) := by
              intro e he
              rcases List.mem_append.mp he with he1 | he2
              · exact hWL e (List.mem_cons_of_mem _ he1)
              · obtain ⟨q, hq, hqe⟩ := List.mem_map.mp he2
                subst hqe
                intro x hx
                refine hWL (p, false) (List.mem_cons_self _ _) x ?_
                obtain ⟨y, hy, hyx⟩ := List.mem_map.mp hx
                refine List.mem_map.mpr ⟨y, ?_, hyx⟩
                rw [Spiht.grandDesc]
                exact List.mem_flatMap.mpr ⟨q, hq, hy⟩
            have hsmul : Spiht.stMul g
                (⟨lip, lis, lsp, false, s ++ [true]⟩ : Spiht.St (List Bool)) =
                Spiht.stMul g (⟨lip, lis, lsp, false, s⟩ : Spiht.St (List Bool)) := rfl
            have hsplit : (↑((rest ++ (Spiht.children g p.2.1 p.2.2).map
                (fun q => (((p.1, q.1, q.2) : Spiht.Pos), true))).flatMap
                  (Spiht.covP g)) : Multiset Spiht.Pos) =
                ↑(rest.flatMap (Spiht.covP g)) + ↑(Spiht.covP g (p, false)) := by
              rw [List.flatMap_append, covP_B_split g p, Multiset.coe_add]
            have H1r : ↑((rest ++ (Spiht.children g p.2.1 p.2.2).map
                (fun q => (((p.1, q.1, q.2) : Spiht.Pos), true))).flatMap
                  (Spiht.covP g)) +
                Spiht.stMul g
                  (⟨lip, lis, lsp, false, s ++ [true]⟩ : Spiht.St (List Bool)) + C ≤
                (↑(Spiht.allPos g) : Multiset Spiht.Pos) := by
              refine le_trans (le_of_eq ?_) H1
              rw [hsplit, hsmul, hcov]
              abel
            have hsim0 : Spiht.SimSort g arr n lspOld
                ⟨lip, lis, lsp, false, s ++ [true]⟩ rec := hsim
            obtain ⟨δr, rec2, hrE, hrD, hsim2, hacc2⟩ := ih
              (rest ++ (Spiht.children g p.2.1 p.2.2).map
                (fun q => (((p.1, q.1, q.2) : Spiht.Pos), true)))
              ⟨lip, lis, lsp, false, s ++ [true]⟩ rec C hfuel' hWLr hacc H1r hsim0
            refine ⟨true :: δr, rec2, ?_, ?_, hsim2, hacc2⟩
            · rw [hrE]
              simp
            · intro γ
              have hstream : (true :: δr) ++ γ = true :: (δr ++ γ) := by simp
              rw [hstream]
              have heqD : Spiht.lisPass g (Spiht.decOracle g) n (f + 1)
                  ((p, false) :: rest)
                  ⟨lip, lis, lsp, false, (true :: (δr ++ γ), rec)⟩ =
                  Spiht.lisPass g (Spiht.decOracle g) n f
                    (rest ++ (Spiht.children g p.2.1 p.2.2).map
                      (fun q => (((p.1, q.1, q.2) : Spiht.Pos), true)))
                    ⟨lip, lis, lsp, false, (δr ++ γ, rec)⟩ := rfl
              rw [heqD]
              exact hrD γ
          · have hbit : decide (2 ^ n ≤ Spiht.lmax g arr p.1 p.2.1 p.2.2) = false :=
              decide_eq_false hm
            rw [heqE, hbit, if_neg Bool.false_ne_true]
            have hfuel' : Spiht.lisMeasure g rest + 1 ≤ f := by
              have hB := entM_B g p
              omega
            have haccr : ∀ e ∈ lis ++ [(p, false)], ∀ x ∈ Spiht.covP g e,
                (Spiht.getv g arr x).natAbs < 2 ^ n := by
              intro e he
              rcases List.mem_append.mp he with he1 | he2
              · exact hacc e he1
              · rw [List.mem_singleton.mp he2]
                intro x hx
                obtain ⟨q, hq, rfl⟩ := List.mem_map.mp hx
                have hd := gd_le_lmax g arr p.1 p.2.1 p.2.2 q hq
                show (Spiht.getv g arr (p.1, q.1, q.2)).natAbs < 2 ^ n
                omega
            have H1r : ↑(rest.flatMap (Spiht.covP g)) +
                Spiht.stMul g (⟨lip, lis ++ [(p, false)], lsp, false,
                  s ++ [false]⟩ : Spiht.St (List Bool)) + C ≤
                (↑(Spiht.allPos g) : Multiset Spiht.Pos) := by
              have hm2 : Spiht.stMul g (⟨lip, lis ++ [(p, false)], lsp, false,
                  s ++ [false]⟩ : Spiht.St (List Bool)) =
                  Spiht.stMul g (⟨lip, lis, lsp, false, s⟩ : Spiht.St (List Bool)) +
                    ↑(Spiht.covP g (p, false)) :=
                stMul_lis_append g ⟨lip, lis, lsp, false, s⟩ (p, false) (s ++ [false])
              refine le_trans (le_of_eq ?_) H1
              rw [hm2, hcov]
              abel
            have hsim0 : Spiht.SimSort g arr n lspOld
                ⟨lip, lis ++ [(p, false)], lsp, false, s ++ [false]⟩ rec := hsim
            obtain ⟨δr, rec2, hrE, hrD, hsim2, hacc2⟩ := ih rest _ rec C hfuel'
              (fun e he => hWL e (List.mem_cons_of_mem _ he)) haccr H1r hsim0
            refine ⟨false :: δr, rec2, ?_, ?_, hsim2, hacc2⟩
            · rw [hrE]
              simp
            · intro γ
              have hstream : (false :: δr) ++ γ = false :: (δr ++ γ) := by simp
              rw [hstream]
              have heqD : Spiht.lisPass g (Spiht.decOracle g) n (f + 1)
                  ((p, false) :: rest)
                  ⟨lip, lis, lsp, false, (false :: (δr ++ γ), rec)⟩ =
                  Spiht.lisPass g (Spiht.decOracle g) n f rest
                    ⟨lip, lis ++ [(p, false)], lsp, false, (δr ++ γ, rec)⟩ := rfl
              rw [heqD]
              exact hrD γ

/-- The refinement pass in lockstep: each refinement bit advances the
decoder's slot of the refined position from the `n+1` truncation to the `n`
truncation. -/
theorem sim_refinePass (g : Spiht.Geom) (arr : List Int) (n : Nat)
    (L : List Spiht.Pos) (stE : Spiht.St (List Bool)) (rec : List Int)
    (hE : stE.halted = false)
    (hnd : (L.map (Spiht.idx g)).Nodup)
    (hL : ∀ q ∈ L, q ∈ stE.lsp ∧ q ∈ Spiht.allPos g ∧
      2 ^ (n + 1) ≤ (Spiht.getv g arr q).natAbs)
    (hlen : rec.length = g.size)
    (hrec : ∀ p ∈ Spiht.allPos g, rec.getD (Spiht.idx g p) 0 =
      if p ∈ L then Spiht.truncI (n + 1) (Spiht.getv g arr p)
      else if p ∈ stE.lsp then Spiht.truncI n (Spiht.getv g arr p) else 0) :
    ∃ δ rec',
      Spiht.refinePass (Spiht.encOracle g arr) n L stE =
        { stE with s := stE.s ++ δ } ∧
      (∀ γ, Spiht.refinePass (Spiht.decOracle g) n L
          ⟨stE.lip, stE.lis, stE.lsp, false, (δ ++ γ, rec)⟩ =
        ⟨stE.lip, stE.lis, stE.lsp, false, (γ, rec')⟩) ∧
      rec'.length = g.size ∧
      (∀ p ∈ Spiht.allPos g, rec'.getD (Spiht.idx g p) 0 =
        if p ∈ stE.lsp then Spiht.truncI n (Spiht.getv g arr p) else 0) := by
  revert hE hnd hL hlen hrec
  induction L generalizing stE rec with
  | nil =>
    intro hE _ _ hlen hrec
    refine ⟨[], rec, ?_, fun γ => ?_, hlen, ?_⟩
    · obtain ⟨lip, lis, lsp, halted, s⟩ := stE
      simp [Spiht.refinePass]
    · obtain ⟨lip, lis, lsp, halted, s⟩ := stE
      simp [Spiht.refinePass]
    · intro p hp
      have := hrec p hp
      rwa [if_neg (List.not_mem_nil p)] at this
  | cons q rest ih =>
    intro hE hnd hL hlen hrec
    obtain ⟨lip, lis, lsp, halted, s⟩ := stE
    cases halted with
    | true => simp at hE
    | false =>
      obtain ⟨hq1, hq2, hq3⟩ := hL q (List.mem_cons_self q rest)
      have hidx : Spiht.idx g q < rec.length := by
        rw [hlen]
        exact idx_lt_size g q hq2
      have hqnotrest : q ∉ rest := by
        intro hqr
        exact (List.nodup_cons.mp hnd).1 (List.mem_map_of_mem (Spiht.idx g) hqr)
      have hrq : rec.getD (Spiht.idx g q) 0 =
          Spiht.truncI (n + 1) (Spiht.getv g arr q) := by
        have := hrec q hq2
        rwa [if_pos (List.mem_cons_self q rest)] at this
      have heqE : Spiht.refinePass (Spiht.encOracle g arr) n (q :: rest)
          ⟨lip, lis, lsp, false, s⟩ =
          Spiht.refinePass (Spiht.encOracle g arr) n rest
            ⟨lip, lis, lsp, false,
              s ++ [((Spiht.getv g arr q).natAbs / 2 ^ n % 2 == 1)]⟩ := rfl
      rw [heqE]
      have hts := truncI_step n (Spiht.getv g arr q) hq3
      set rec2 : List Int :=
        if ((Spiht.getv g arr q).natAbs / 2 ^ n % 2 == 1) then
          rec.set (Spiht.idx g q)
            (if rec.getD (Spiht.idx g q) 0 < 0 then rec.getD (Spiht.idx g q) 0 - 2 ^ n
             else rec.getD (Spiht.idx g q) 0 + 2 ^ n)
        else rec with hrec2def
      have hlen2 : rec2.length = g.size := by
        rw [hrec2def]
        cases hbit : ((Spiht.getv g arr q).natAbs / 2 ^ n % 2 == 1) with
        | true =>
          rw [if_pos rfl, List.length_set]
          exact hlen
        | false =>
          rw [if_neg (by simp)]
          exact hlen
      have hq2v : rec2.getD (Spiht.idx g q) 0 = Spiht.truncI n (Spiht.getv g arr q) := by
        rw [hrec2def]
        cases hbit : ((Spiht.getv g arr q).natAbs / 2 ^ n % 2 == 1) with
        | true =>
          rw [if_pos rfl]
          rw [getD_set_self _ _ _ hidx, hrq]
          rw [hbit, if_pos rfl] at hts
          exact hts
        | false =>
          rw [if_neg (by simp)]
          rw [hrq]
          rw [hbit, if_neg (by simp)] at hts
          exact hts
      have hother : ∀ p ∈ Spiht.allPos g, p ≠ q →
          rec2.getD (Spiht.idx g p) 0 = rec.getD (Spiht.idx g p) 0 := by
        intro p hp hpq
        have hne : Spiht.idx g p ≠ Spiht.idx g q :=
          fun hEq => hpq (idx_inj g p q hp hq2 hEq)
        rw [hrec2def]
        cases hbit : ((Spiht.getv g arr q).natAbs / 2 ^ n % 2 == 1) with
        | true =>
          rw [if_pos rfl]
          exact getD_set_ne rec (Spiht.idx g q) (Spiht.idx g p) _ hne
        | false =>
          rw [if_neg (by simp)]
      have hrec' : ∀ p ∈ Spiht.allPos g, rec2.getD (Spiht.idx g p) 0 =
          if p ∈ rest then Spiht.truncI (n + 1) (Spiht.getv g arr p)
          else if p ∈ lsp then Spiht.truncI n (Spiht.getv g arr p) else 0 := by
        intro p hp
        by_cases hpq : p = q
        · subst hpq
          rw [if_neg hqnotrest, if_pos hq1]
          exact hq2v
        · rw [hother p hp hpq]
          have := hrec p hp
          rw [this]
          have hmem : (p ∈ q :: rest) ↔ p ∈ rest := by
            rw [List.mem_cons]
            exact ⟨fun h => h.elim (fun h' => absurd h' hpq) id, fun h => .inr h⟩
          by_cases h1 : p ∈ rest
          · rw [if_pos h1, if_pos (hmem.mpr h1)]
          · rw [if_neg h1, if_neg (fun hc => h1 (hmem.mp hc))]
      obtain ⟨δr, rec', hE2, hD2, hlen', hrec''⟩ := ih
        ⟨lip, lis, lsp, false, s ++ [((Spiht.getv g arr q).natAbs / 2 ^ n % 2 == 1)]⟩
        rec2 rfl (List.Nodup.of_cons hnd)
        (fun r hr => hL r (List.mem_cons_of_mem q hr)) hlen2 hrec'
      refine ⟨((Spiht.getv g arr q).natAbs / 2 ^ n % 2 == 1) :: δr, rec', ?_,
        fun γ => ?_, hlen', hrec''⟩
      · rw [hE2]
        show (⟨lip, lis, lsp, false,
          (s ++ [((Spiht.getv g arr q).natAbs / 2 ^ n % 2 == 1)]) ++ δr⟩ :
            Spiht.St (List Bool)) = _
        simp
      · have hstream : (((Spiht.getv g arr q).natAbs / 2 ^ n % 2 == 1) :: δr) ++ γ =
            ((Spiht.getv g arr q).natAbs / 2 ^ n % 2 == 1) :: (δr ++ γ) := by simp
        rw [hstream]
        have heqD : Spiht.refinePass (Spiht.decOracle g) n (q :: rest)
            ⟨lip, lis, lsp, false,
              (((Spiht.getv g arr q).natAbs / 2 ^ n % 2 == 1) :: (δr ++ γ), rec)⟩ =
            Spiht.refinePass (Spiht.decOracle g) n rest
              ⟨lip, lis, lsp, false, (δr ++ γ, rec2)⟩ := by
          rw [hrec2def]
          rfl
        rw [heqD]
        exact hD2 γ

theorem lipPass_lis {σ : Type} (O : Spiht.Oracle σ) (n : Nat)
    (pending : List Spiht.Pos) (st : Spiht.St σ) :
    (Spiht.lipPass O n pending st).lis = st.lis := by
  induction pending generalizing st with
  | nil => rfl
  | cons p rest ih => rw [Spiht.lipPass, ih, testPos_lis]

/-- One full bit plane in lockstep: the plane-boundary invariant advances
from `n + 1` to `n`. -/
theorem sim_planeStep (g : Spiht.Geom) (hgv : Spiht.GV g) (arr : List Int) (n : Nat)
    (stE : Spiht.St (List Bool)) (rec : List Int)
    (hinv : Spiht.PlaneInv g arr (n + 1) stE rec) :
    ∃ δ rec',
      (Spiht.planeStep g (Spiht.encOracle g arr) n stE).s = stE.s ++ δ ∧
      (∀ γ, Spiht.planeStep g (Spiht.decOracle g) n
          ⟨stE.lip, stE.lis, stE.lsp, false, (δ ++ γ, rec)⟩ =
        ⟨(Spiht.planeStep g (Spiht.encOracle g arr) n stE).lip,
         (Spiht.planeStep g (Spiht.encOracle g arr) n stE).lis,
         (Spiht.planeStep g (Spiht.encOracle g arr) n stE).lsp, false, (γ, rec')⟩) ∧
      Spiht.PlaneInv g arr n (Spiht.planeStep g (Spiht.encOracle g arr) n stE) rec' := by
  obtain ⟨hE, hlip, hlis, hlsp, hlen, hrec, hpart⟩ := hinv
  have hsim0 : Spiht.SimSort g arr n stE.lsp { stE with lip := [] } rec := by
    refine ⟨hE, fun q hq => absurd hq (List.not_mem_nil q), fun q hq => hq,
      fun q hq => le_trans (Nat.pow_le_pow_right (by omega) (by omega)) (hlsp q hq),
      hlen, fun p hp => ?_⟩
    rw [hrec p hp]
    by_cases h : p ∈ stE.lsp
    · rw [if_pos h, if_pos h]
    · rw [if_neg h, if_neg h, if_neg h]
  have H1a : ↑stE.lip + Spiht.stMul g { stE with lip := [] } + (0 : Multiset Spiht.Pos) ≤
      (↑(Spiht.allPos g) : Multiset Spiht.Pos) := by
    rw [add_zero]
    refine le_of_eq ?_
    rw [add_comm, stMul_clear_lip, hpart]
  obtain ⟨δ1, rec1, h1E, h1D, hsim1⟩ := sim_lipPass g arr n stE.lip
    { stE with lip := [] } rec stE.lsp 0 hlip H1a hsim0
  have hmul1 : Spiht.stMul g (Spiht.lipPass (Spiht.encOracle g arr) n stE.lip
      { stE with lip := [] }) = (↑(Spiht.allPos g) : Multiset Spiht.Pos) :=
    ((lipPass_mul g (Spiht.encOracle g arr) n stE.lip
      { stE with lip := [] }).2 hsim1.1).trans ((stMul_clear_lip g stE).trans hpart)
  have hlis1 : (Spiht.lipPass (Spiht.encOracle g arr) n stE.lip
      { stE with lip := [] }).lis = stE.lis := lipPass_lis _ _ _ _
  have hWL2 : ∀ e ∈ (Spiht.lipPass (Spiht.encOracle g arr) n stE.lip
      { stE with lip := [] }).lis, ∀ x ∈ Spiht.covP g e,
      (Spiht.getv g arr x).natAbs < 2 ^ (n + 1) := by
    rw [hlis1]
    exact hlis
  have H1b : ↑((Spiht.lipPass (Spiht.encOracle g arr) n stE.lip
        { stE with lip := [] }).lis.flatMap (Spiht.covP g)) +
      Spiht.stMul g { Spiht.lipPass (Spiht.encOracle g arr) n stE.lip
        { stE with lip := [] } with lis := [] } + (0 : Multiset Spiht.Pos) ≤
      (↑(Spiht.allPos g) : Multiset Spiht.Pos) := by
    rw [add_zero]
    exact le_of_eq ((add_comm _ _).trans
      ((stMul_clear_lis g (Spiht.lipPass (Spiht.encOracle g arr) n stE.lip
        { stE with lip := [] })).trans hmul1))
  have hsim1' : Spiht.SimSort g arr n stE.lsp
      { Spiht.lipPass (Spiht.encOracle g arr) n stE.lip { stE with lip := [] } with
        lis := [] } rec1 := hsim1
  obtain ⟨δ2, rec2, h2E, h2D, hsim2, hacc2⟩ := sim_lisPass g hgv arr n
    (Spiht.lisFuel g (Spiht.lipPass (Spiht.encOracle g arr) n stE.lip
      { stE with lip := [] }).lis)
    (Spiht.lipPass (Spiht.encOracle g arr) n stE.lip { stE with lip := [] }).lis
    { Spiht.lipPass (Spiht.encOracle g arr) n stE.lip { stE with lip := [] } with
      lis := [] } rec1 stE.lsp 0 le_rfl hWL2
    (fun e he => absurd he (List.not_mem_nil e)) H1b hsim1'
  have hmul2 : Spiht.stMul g (Spiht.lisPass g (Spiht.encOracle g arr) n
      (Spiht.lisFuel g (Spiht.lipPass (Spiht.encOracle g arr) n stE.lip
        { stE with lip := [] }).lis)
      (Spiht.lipPass (Spiht.encOracle g arr) n stE.lip { stE with lip := [] }).lis
      { Spiht.lipPass (Spiht.encOracle g arr) n stE.lip { stE with lip := [] } with
        lis := [] }) = (↑(Spiht.allPos g) : Multiset Spiht.Pos) :=
    ((lisPass_mul g hgv (Spiht.encOracle g arr) n _ _ _).2 hsim2.1).trans
      ((stMul_clear_lis g (Spiht.lipPass (Spiht.encOracle g arr) n stE.lip
        { stE with lip := [] })).trans hmul1)
  obtain ⟨hs2E, hs2lip, hs2old, hs2lsp, hs2len, hs2rec⟩ := hsim2
  have hLref : ∀ q ∈ stE.lsp, q ∈ (Spiht.lisPass g (Spiht.encOracle g arr) n
      (Spiht.lisFuel g (Spiht.lipPass (Spiht.encOracle g arr) n stE.lip
        { stE with lip := [] }).lis)
      (Spiht.lipPass (Spiht.encOracle g arr) n stE.lip { stE with lip := [] }).lis
      { Spiht.lipPass (Spiht.encOracle g arr) n stE.lip { stE with lip := [] } with
        lis := [] }).lsp ∧ q ∈ Spiht.allPos g ∧
      2 ^ (n + 1) ≤ (Spiht.getv g arr q).natAbs := by
    intro q hq
    exact ⟨hs2old q hq, lsp_mem_allPos g stE (le_of_eq hpart) q hq, hlsp q hq⟩
  obtain ⟨δ3, rec3, h3E, h3D, hlen3, hrec3⟩ := sim_refinePass g arr n stE.lsp
    (Spiht.lisPass g (Spiht.encOracle g arr) n
      (Spiht.lisFuel g (Spiht.lipPass (Spiht.encOracle g arr) n stE.lip
        { stE with lip := [] }).lis)
      (Spiht.lipPass (Spiht.encOracle g arr) n stE.lip { stE with lip := [] }).lis
      { Spiht.lipPass (Spiht.encOracle g arr) n stE.lip { stE with lip := [] } with
        lis := [] }) rec2 hs2E (lsp_idx_nodup g stE (le_of_eq hpart)) hLref hs2len hs2rec
  have hE'eq : Spiht.planeStep g (Spiht.encOracle g arr) n stE =
      { Spiht.lisPass g (Spiht.encOracle g arr) n
        (Spiht.lisFuel g (Spiht.lipPass (Spiht.encOracle g arr) n stE.lip
          { stE with lip := [] }).lis)
        (Spiht.lipPass (Spiht.encOracle g arr) n stE.lip { stE with lip := [] }).lis
        { Spiht.lipPass (Spiht.encOracle g arr) n stE.lip { stE with lip := [] } with
          lis := [] } with
        s := (Spiht.lisPass g (Spiht.encOracle g arr) n
          (Spiht.lisFuel g (Spiht.lipPass (Spiht.encOracle g arr) n stE.lip
            { stE with lip := [] }).lis)
          (Spiht.lipPass (Spiht.encOracle g arr) n stE.lip { stE with lip := [] }).lis
          { Spiht.lipPass (Spiht.encOracle g arr) n stE.lip
            { stE with lip := [] } with lis := [] }).s ++ δ3 } := h3E
  refine ⟨δ1 ++ (δ2 ++ δ3), rec3, ?_, ?_, ?_⟩
  · show (Spiht.refinePass (Spiht.encOracle g arr) n stE.lsp _).s = stE.s ++ (δ1 ++ (δ2 ++ δ3))
    rw [h3E]
    show (Spiht.lisPass g (Spiht.encOracle g arr) n _ _ _).s ++ δ3 = _
    rw [h2E]
    show ((Spiht.lipPass (Spiht.encOracle g arr) n stE.lip { stE with lip := [] }).s ++ δ2) ++ δ3 = _
    rw [h1E]
    show ((stE.s ++ δ1) ++ δ2) ++ δ3 = _
    simp
  · intro γ
    have hstream : (δ1 ++ (δ2 ++ δ3)) ++ γ = δ1 ++ (δ2 ++ (δ3 ++ γ)) := by simp
    show Spiht.refinePass (Spiht.decOracle g) n stE.lsp
        (Spiht.lisPass g (Spiht.decOracle g) n
          (Spiht.lisFuel g (Spiht.lipPass (Spiht.decOracle g) n stE.lip
            ⟨[], stE.lis, stE.lsp, false, ((δ1 ++ (δ2 ++ δ3)) ++ γ, rec)⟩).lis)
          (Spiht.lipPass (Spiht.decOracle g) n stE.lip
            ⟨[], stE.lis, stE.lsp, false, ((δ1 ++ (δ2 ++ δ3)) ++ γ, rec)⟩).lis
          { Spiht.lipPass (Spiht.decOracle g) n stE.lip
            ⟨[], stE.lis, stE.lsp, false, ((δ1 ++ (δ2 ++ δ3)) ++ γ, rec)⟩ with
            lis := [] }) = _
    rw [hstream, h1D (δ2 ++ (δ3 ++ γ)), h2D (δ3 ++ γ), hE'eq]
    exact h3D γ
  · refine ⟨?_, ?_, ?_, ?_, hlen3, ?_, ?_⟩
    · rw [hE'eq]
      exact hs2E
    · rw [hE'eq]
      exact hs2lip
    · rw [hE'eq]
      exact hacc2
    · rw [hE'eq]
      exact hs2lsp
    · rw [hE'eq]
      exact hrec3
    · rw [hE'eq, stMul_s]
      exact hmul2

/-- The whole plane loop in lockstep. -/
theorem sim_planesRun (g : Spiht.Geom) (hgv : Spiht.GV g) (arr : List Int) (i : Nat)
    (stE : Spiht.St (List Bool)) (rec : List Int)
    (hinv : Spiht.PlaneInv g arr i stE rec) :
    ∃ δ rec',
      (Spiht.planesRun g (Spiht.encOracle g arr) i stE).s = stE.s ++ δ ∧
      (∀ γ, Spiht.planesRun g (Spiht.decOracle g) i
          ⟨stE.lip, stE.lis, stE.lsp, false, (δ ++ γ, rec)⟩ =
        ⟨(Spiht.planesRun g (Spiht.encOracle g arr) i stE).lip,
         (Spiht.planesRun g (Spiht.encOracle g arr) i stE).lis,
         (Spiht.planesRun g (Spiht.encOracle g arr) i stE).lsp, false, (γ, rec')⟩) ∧
      Spiht.PlaneInv g arr 0 (Spiht.planesRun g (Spiht.encOracle g arr) i stE) rec' := by
  induction i generalizing stE rec with
  | zero =>
    exact ⟨[], rec, by simp [Spiht.planesRun],
      fun γ => by simp [Spiht.planesRun], hinv⟩
  | succ k ih =>
    obtain ⟨δ1, rec1, h1E, h1D, hinv1⟩ := sim_planeStep g hgv arr k stE rec hinv
    obtain ⟨δ2, rec2, h2E, h2D, hinv2⟩ :=
      ih (Spiht.planeStep g (Spiht.encOracle g arr) k stE) rec1 hinv1
    refine ⟨δ1 ++ δ2, rec2, ?_, ?_, hinv2⟩
    · show (Spiht.planesRun g (Spiht.encOracle g arr) k
        (Spiht.planeStep g (Spiht.encOracle g arr) k stE)).s = stE.s ++ (δ1 ++ δ2)
      rw [h2E, h1E, List.append_assoc]
    · intro γ
      show Spiht.planesRun g (Spiht.decOracle g) k
          (Spiht.planeStep g (Spiht.decOracle g) k
            ⟨stE.lip, stE.lis, stE.lsp, false, ((δ1 ++ δ2) ++ γ, rec)⟩) = _
      rw [show ((δ1 ++ δ2) ++ γ) = δ1 ++ (δ2 ++ γ) from List.append_assoc δ1 δ2 γ]
      rw [h1D (δ2 ++ γ)]
      exact h2D γ

theorem maxAbs_lt_pow (arr : List Int) :
    Spiht.maxAbs arr < 2 ^ (Spiht.natLog2 (Spiht.maxAbs arr) + 1) := by
  rw [natLog2_eq_log2]
  exact Nat.lt_log2_self

/-- The initial states satisfy the plane-boundary invariant at the top
plane. -/
theorem init_PlaneInv (g : Spiht.Geom) (hgv : Spiht.GV g) (arr : List Int) :
    Spiht.PlaneInv g arr (Spiht.natLog2 (Spiht.maxAbs arr) + 1)
      (Spiht.initSt g ([] : List Bool)) (List.replicate g.size (0 : Int)) := by
  refine ⟨rfl, ?_, ?_, ?_, List.length_replicate _ _, ?_, init_partition g hgv _⟩
  · intro q hq
    exact lt_of_le_of_lt (getD_le_maxAbs arr _) (maxAbs_lt_pow arr)
  · intro e he x hx
    exact lt_of_le_of_lt (getD_le_maxAbs arr _) (maxAbs_lt_pow arr)
  · intro q hq
    exact absurd hq (List.not_mem_nil q)
  · intro p hp
    show (List.replicate g.size (0 : Int)).getD (Spiht.idx g p) 0 =
      if p ∈ ([] : List Spiht.Pos) then
        Spiht.truncI (Spiht.natLog2 (Spiht.maxAbs arr) + 1) (Spiht.getv g arr p)
      else 0
    rw [if_neg (List.not_mem_nil p)]
    rw [List.getD_eq_getElem?_getD, List.getElem?_replicate]
    split_ifs <;> rfl

theorem idx_surj (g : Spiht.Geom) (hw : 0 < g.w) (hh : 0 < g.h) (j : Nat)
    (hj : j < g.size) : ∃ p ∈ Spiht.allPos g, Spiht.idx g p = j := by
  refine ⟨(j / (g.h * g.w), j % (g.h * g.w) / g.w, j % (g.h * g.w) % g.w), ?_, ?_⟩
  · rw [mem_allPos]
    have hhw : 0 < g.h * g.w := Nat.mul_pos hh hw
    have hsz : g.size = g.c * (g.h * g.w) := by
      show g.c * g.h * g.w = g.c * (g.h * g.w)
      ring
    refine ⟨?_, ?_, ?_⟩
    · exact (Nat.div_lt_iff_lt_mul hhw).mpr (by omega)
    · have hmod : j % (g.h * g.w) < g.h * g.w := Nat.mod_lt _ hhw
      exact (Nat.div_lt_iff_lt_mul hw).mpr (by omega)
    · exact Nat.mod_lt _ hw
  · show j / (g.h * g.w) * (g.h * g.w) + j % (g.h * g.w) / g.w * g.w +
      j % (g.h * g.w) % g.w = j
    have h1 : j / (g.h * g.w) * (g.h * g.w) + j % (g.h * g.w) = j := by
      rw [Nat.mul_comm (j / (g.h * g.w))]
      exact Nat.div_add_mod j (g.h * g.w)
    have h2 : j % (g.h * g.w) / g.w * g.w + j % (g.h * g.w) % g.w =
        j % (g.h * g.w) := by
      rw [Nat.mul_comm (j % (g.h * g.w) / g.w)]
      exact Nat.div_add_mod (j % (g.h * g.w)) g.w
    omega

theorem stMul_cover {σ : Type} (g : Spiht.Geom) (st : Spiht.St σ)
    (hpart : Spiht.stMul g st = (↑(Spiht.allPos g) : Multiset Spiht.Pos))
    (p : Spiht.Pos) (hp : p ∈ Spiht.allPos g) :
    p ∈ st.lip ∨ p ∈ st.lsp ∨ ∃ e ∈ st.lis, p ∈ Spiht.covP g e := by
  have hc : 0 < Multiset.count p (Spiht.stMul g st) := by
    rw [hpart]
    exact Multiset.count_pos.mpr (Multiset.mem_coe.mpr hp)
  unfold Spiht.stMul at hc
  rw [Multiset.count_add, Multiset.count_add] at hc
  by_cases h1 : 0 < Multiset.count p ((st.lip : List Spiht.Pos) : Multiset Spiht.Pos)
  · exact .inl (Multiset.mem_coe.mp (Multiset.count_pos.mp h1))
  by_cases h2 : 0 < Multiset.count p ((st.lsp : List Spiht.Pos) : Multiset Spiht.Pos)
  · exact .inr (.inl (Multiset.mem_coe.mp (Multiset.count_pos.mp h2)))
  have h3 : 0 < Multiset.count p
      ((st.lis.flatMap (Spiht.covP g) : List Spiht.Pos) : Multiset Spiht.Pos) := by
    omega
  obtain ⟨e, he, hpe⟩ := List.mem_flatMap.mp (Multiset.mem_coe.mp (Multiset.count_pos.mp h3))
  exact .inr (.inr ⟨e, he, hpe⟩)

/-- C1: round-trip under unlimited budget — for every coefficient array with
magnitudes in the supported range, on a valid geometry and with a bit budget
at least the full trace length (the unlimited-budget case, e.g. the sentinel
budget), decoding the encoder's output with the returned `max_n` reproduces
the array exactly. -/
theorem claim1_roundtrip (g : Spiht.Geom) (arr : List Int) (b : Nat)
    (hg : Spiht.checkGeom g = none)
    (hlen : arr.length = g.size)
    (hmag : ∀ v ∈ arr, v.natAbs < 2 ^ 31)
    (hb : (Spiht.fullTrace g arr (Spiht.natLog2 (Spiht.maxAbs arr))).length ≤ b) :
    Spiht.decodeRaw g (Spiht.encodeRaw g arr b).1 (Spiht.encodeRaw g arr b).2 = arr := by
  obtain ⟨hgv, hsz⟩ := GV_of_checkGeom g hg
  have henc1 : (Spiht.encodeRaw g arr b).1 =
      Spiht.pack (Spiht.fullTrace g arr (Spiht.natLog2 (Spiht.maxAbs arr))) := by
    show Spiht.pack ((Spiht.fullTrace g arr (Spiht.natLog2 (Spiht.maxAbs arr))).take b) = _
    rw [List.take_of_length_le hb]
  have henc2 : (Spiht.encodeRaw g arr b).2 = Spiht.natLog2 (Spiht.maxAbs arr) := rfl
  rw [henc1, henc2]
  obtain ⟨δ, rec', hsE, hsD, hinv0⟩ := sim_planesRun g hgv arr
    (Spiht.natLog2 (Spiht.maxAbs arr) + 1)
    (Spiht.initSt g ([] : List Bool)) (List.replicate g.size (0 : Int))
    (init_PlaneInv g hgv arr)
  have hδ : Spiht.fullTrace g arr (Spiht.natLog2 (Spiht.maxAbs arr)) = δ := by
    show (Spiht.planesRun g (Spiht.encOracle g arr)
      (Spiht.natLog2 (Spiht.maxAbs arr) + 1) (Spiht.initSt g [])).s = δ
    rw [hsE]
    simp [Spiht.initSt]
  obtain ⟨γ0, hγ0⟩ := unpack_pack
    (Spiht.fullTrace g arr (Spiht.natLog2 (Spiht.maxAbs arr)))
  show (Spiht.decodeRun g
    (Spiht.pack (Spiht.fullTrace g arr (Spiht.natLog2 (Spiht.maxAbs arr))))
    (Spiht.natLog2 (Spiht.maxAbs arr))).s.2 = arr
  have hin : Spiht.initSt g ((Spiht.unpack (Spiht.pack
      (Spiht.fullTrace g arr (Spiht.natLog2 (Spiht.maxAbs arr)))),
      List.replicate g.size (0 : Int)) : Spiht.DecS) =
      ⟨(Spiht.initSt g ([] : List Bool)).lip, (Spiht.initSt g ([] : List Bool)).lis,
       (Spiht.initSt g ([] : List Bool)).lsp, false,
       (δ ++ γ0, List.replicate g.size (0 : Int))⟩ := by
    rw [hγ0, hδ]
    rfl
  have hdec : Spiht.decodeRun g
      (Spiht.pack (Spiht.fullTrace g arr (Spiht.natLog2 (Spiht.maxAbs arr))))
      (Spiht.natLog2 (Spiht.maxAbs arr)) =
      ⟨(Spiht.planesRun g (Spiht.encOracle g arr)
          (Spiht.natLog2 (Spiht.maxAbs arr) + 1) (Spiht.initSt g ([] : List Bool))).lip,
       (Spiht.planesRun g (Spiht.encOracle g arr)
          (Spiht.natLog2 (Spiht.maxAbs arr) + 1) (Spiht.initSt g ([] : List Bool))).lis,
       (Spiht.planesRun g (Spiht.encOracle g arr)
          (Spiht.natLog2 (Spiht.maxAbs arr) + 1) (Spiht.initSt g ([] : List Bool))).lsp,
       false, (γ0, rec')⟩ := by
    show Spiht.planesRun g (Spiht.decOracle g) (Spiht.natLog2 (Spiht.maxAbs arr) + 1)
      (Spiht.initSt g (Spiht.unpack (Spiht.pack
        (Spiht.fullTrace g arr (Spiht.natLog2 (Spiht.maxAbs arr)))),
        List.replicate g.size 0)) = _
    rw [hin]
    exact hsD γ0
  rw [hdec]
  show rec' = arr
  obtain ⟨hE0, hlip0, hlis0, hlsp0, hlen0, hrec0, hpart0⟩ := hinv0
  have hval : ∀ p ∈ Spiht.allPos g,
      rec'.getD (Spiht.idx g p) 0 = arr.getD (Spiht.idx g p) 0 := by
    intro p hp
    rw [hrec0 p hp]
    by_cases hmem : p ∈ (Spiht.planesRun g (Spiht.encOracle g arr)
        (Spiht.natLog2 (Spiht.maxAbs arr) + 1) (Spiht.initSt g ([] : List Bool))).lsp
    · rw [if_pos hmem, truncI_zero]
      rfl
    · rw [if_neg hmem]
      rcases stMul_cover g _ hpart0 p hp with h1 | h2 | ⟨e, he, hpe⟩
      · have hz := hlip0 p h1
        rw [pow_zero] at hz
        have : Spiht.getv g arr p = 0 := Int.natAbs_eq_zero.mp (by omega)
        exact this.symm
      · exact absurd h2 hmem
      · have hz := hlis0 e he p hpe
        rw [pow_zero] at hz
        have : Spiht.getv g arr p = 0 := Int.natAbs_eq_zero.mp (by omega)
        exact this.symm
  obtain ⟨hll1, hll2, _, _, k, hhk, hwk⟩ := hgv
  have hh : 0 < g.h := by
    rw [hhk]
    have : 0 < 2 ^ k := Nat.pos_pow_of_pos k (by omega)
    exact Nat.mul_pos (by omega) this
  have hw : 0 < g.w := by
    rw [hwk]
    have : 0 < 2 ^ k := Nat.pos_pow_of_pos k (by omega)
    exact Nat.mul_pos (by omega) this
  refine List.ext_getElem (by rw [hlen0, hlen]) ?_
  intro i hi1 hi2
  have hi : i < g.size := by
    rw [← hlen0]
    exact hi1
  obtain ⟨p, hpA, hpidx⟩ := idx_surj g hw hh i hi
  have hv := hval p hpA
  rw [hpidx] at hv
  rw [List.getD_eq_getElem rec' 0 hi1, List.getD_eq_getElem arr 0 hi2] at hv
  exact hv

set_option maxRecDepth 1000000 in
theorem claim1_roundtrip_witness :
    Spiht.checkGeom ⟨1, 2, 2, 2, 2⟩ = none ∧
    ([5, -3, 0, 2] : List Int).length = (⟨1, 2, 2, 2, 2⟩ : Spiht.Geom).size ∧
    (∀ v ∈ ([5, -3, 0, 2] : List Int), v.natAbs < 2 ^ 31) ∧
    (Spiht.fullTrace ⟨1, 2, 2, 2, 2⟩ [5, -3, 0, 2]
      (Spiht.natLog2 (Spiht.maxAbs [5, -3, 0, 2]))).length ≤ 99999999999999999 ∧
    Spiht.decodeRaw ⟨1, 2, 2, 2, 2⟩
      (Spiht.encodeRaw ⟨1, 2, 2, 2, 2⟩ [5, -3, 0, 2] 99999999999999999).1
      (Spiht.encodeRaw ⟨1, 2, 2, 2, 2⟩ [5, -3, 0, 2] 99999999999999999).2 =
      [5, -3, 0, 2] :=
  ⟨by decide, by decide, by decide, by decide,
    claim1_roundtrip ⟨1, 2, 2, 2, 2⟩ [5, -3, 0, 2] 99999999999999999
      (by decide) (by decide) (by decide) (by decide)⟩
